import Mathlib

/-!
# Tree builder of `html.go`

A shallow embedding of `src/html.go`: the token loop `Parser.parse`, the
insertion routine `Node.AddChild` and the void-element table `SelfClosing`.

* Go pointers `*Node` are addresses into an explicit store (`Heap`), and every
  Go statement that mutates a node through a pointer is a store update.  The
  Document is allocated first, at address 0.  Nodes that `parse` allocates and
  never links into the tree (the placeholder of an end tag, the `new(Node)` of
  an Error token) stay in the store as unreachable cells, as they do in Go
  until they are collected.
* A Go run-time panic (nil dereference, index or slice bound out of range) is
  the `Except.error` branch of the embedding.
* The tokenizer of `golang.org/x/net/html` is outside the repository: a token
  source is the list of what its `Next`, `Token` and `Err` answer round by
  round, and a source that is used up answers `ErrorToken` with `io.EOF`.
* Go strings are modelled by `String`, a sequence of code points; the byte
  functions of package `strings` used here act on ASCII separators only.
-/

namespace Html

/-! ## Strings (package `strings`) -/

/-- The constant `whitespace` of `html.go`, line 10: space, tab, CR, LF, FF. -/
def whitespace : String := " \t\r\n\x0c"

/-- Go `strings.TrimLeft(s, cutset)`: `s` without its leading code points
that occur in `cutset`. -/
def TrimLeft (s cutset : String) : String :=
  ⟨s.data.dropWhile (fun c => cutset.data.contains c)⟩

/-- Left-to-right scan of `strings.Replace` for a non-empty `old`: the counter
is the number of characters of the occurrence just matched that are still to
be skipped. -/
def replaceFrom (old new : List Char) : Nat → List Char → List Char
  | _, [] => []
  | k + 1, _ :: cs => replaceFrom old new k cs
  | 0, c :: cs =>
    if old.isPrefixOf (c :: cs) then new ++ replaceFrom old new (old.length - 1) cs
    else c :: replaceFrom old new 0 cs

/-- Go `strings.Replace(s, old, new, -1)`: every non-overlapping occurrence
of `old`, found from the left, is replaced by `new`.  For an empty `old` Go
inserts `new` before every code point and at the end. -/
def Replace (s old new : String) : String :=
  if old.data = [] then ⟨new.data ++ s.data.flatMap (fun c => c :: new.data)⟩
  else ⟨replaceFrom old.data new.data 0 s.data⟩

/-- Left-to-right scan of `strings.Split` for a non-empty `sep`: `cur` is the
piece being collected, the counter the characters of the separator just
matched that are still to be skipped. -/
def splitFrom (sep : List Char) : Nat → List Char → List Char → List (List Char)
  | _, cur, [] => [cur]
  | k + 1, cur, _ :: cs => splitFrom sep k cur cs
  | 0, cur, c :: cs =>
    if sep.isPrefixOf (c :: cs) then cur :: splitFrom sep (sep.length - 1) [] cs
    else splitFrom sep 0 (cur ++ [c]) cs

/-- Go `strings.Split(s, sep)`: the pieces of `s` between the occurrences of
`sep` (one more piece than occurrences; `Split("", " ")` is `[""]`).  For an
empty `sep` Go splits after every code point. -/
def Split (s sep : String) : List String :=
  if sep.data = [] then s.data.map (fun c => ⟨[c]⟩)
  else (splitFrom sep.data 0 [] s.data).map String.mk

/-! ## Data model -/

/-- The `html.NodeType` enumeration; `ErrorNode` is its zero value. -/
inductive NodeType where
  | ErrorNode | TextNode | DocumentNode | ElementNode | CommentNode | DoctypeNode
  deriving DecidableEq, Repr

/-- The `html.TokenType` enumeration. -/
inductive TokenType where
  | ErrorToken | TextToken | StartTagToken | EndTagToken
  | SelfClosingTagToken | CommentToken | DoctypeToken
  deriving DecidableEq, Repr

/-- The `html.Attribute` record. -/
structure Attribute where
  Namespace : String := ""
  Key : String
  Val : String
  deriving DecidableEq, Repr

/-- The `html.Token` record; `Typ` is its field `Type`. -/
structure Token where
  Typ : TokenType
  DataAtom : Nat := 0
  Data : String := ""
  Attr : List Attribute := []
  deriving DecidableEq, Repr

/-- A `*Node`: an address of the store. A nil pointer is `none` where a
pointer may be nil. -/
abbrev Ptr := Nat

/-- The `Node` struct of `html.go`, lines 12-24; `Typ` is its field `Type`.
The defaults are Go zero values.  `Nth` is a `uint` counter that is only ever
incremented once per element of a slice, so it stays below the word size. -/
structure Node where
  Parent : Option Ptr := none
  Children : List Ptr := []
  Typ : NodeType := NodeType.ErrorNode
  DataAtom : Nat := 0
  TagName : String := ""
  Text : String := ""
  Attr : List Attribute := []
  Close : Bool := false
  ID : String := ""
  Class : List String := []
  Nth : Nat := 0
  deriving DecidableEq, Repr

/-- The store of allocated nodes; the address of a node is its position. -/
abbrev Heap := List Node

/-- Go run-time panics of the builder.  `invalidPointer` stands for an address
outside the store, which no Go pointer can be. -/
inductive Fault where
  | nilDereference | indexOutOfRange | sliceBoundsOutOfRange | invalidPointer
  deriving DecidableEq, Repr

/-- The values an `error` takes in `parse`: nil, `io.EOF`, or another error. -/
inductive GoError where
  | nil | EOF | other (msg : String)
  deriving DecidableEq, Repr

/-- Read through a pointer. -/
def load (h : Heap) (p : Ptr) : Except Fault Node :=
  match h[p]? with
  | some n => .ok n
  | none => .error Fault.invalidPointer

/-- Write through a pointer: the node at `p` becomes `f` of itself. -/
def update (h : Heap) (p : Ptr) (f : Node → Node) : Except Fault Heap :=
  match h[p]? with
  | some n => .ok (h.set p (f n))
  | none => .error Fault.invalidPointer

/-- Allocation `&Node{...}`: the new node gets the next free address. -/
def alloc (h : Heap) (n : Node) : Heap × Ptr := (h ++ [n], h.length)

/-! ## `SelfClosing` (lines 224-237) -/

/-- The tag names of the `case` of `SelfClosing`. -/
def voidNames : List String :=
  ["br", "hr", "img", "input", "param", "meta", "link", "area", "base", "col",
   "command", "embed", "keygen", "source", "track", "wbr"]

/-- The function `SelfClosing`: for a void tag name it sets `node.Close` and
returns `SelfClosingTagToken`, otherwise it returns `StartTagToken`. -/
def SelfClosing (h : Heap) (node : Ptr) : Except Fault (Heap × TokenType) :=
  match load h node with
  | .error f => .error f
  | .ok n =>
    if n.TagName ∈ voidNames then
      match update h node (fun x => { x with Close := true }) with
      | .error f => .error f
      | .ok h1 => .ok (h1, TokenType.SelfClosingTagToken)
    else .ok (h, TokenType.StartTagToken)

/-! ## `Node.AddChild` (lines 146-221) -/

/-- Lines 153-156: `for _, index := range sequence { node = node.Children[index] }`. -/
def walk (h : Heap) : Ptr → List Nat → Except Fault Ptr
  | node, [] => .ok node
  | node, index :: rest =>
    match load h node with
    | .error f => .error f
    | .ok nd =>
      match nd.Children[index]? with
      | some c => walk h c rest
      | none => .error Fault.indexOutOfRange

/-- One round of the loop of lines 168-182 on the child. -/
def scanAttr (c : Node) (attr : Attribute) : Node :=
  let c1 := if attr.Key = "id" then { c with ID := attr.Val } else c
  if attr.Key = "class" then
    { c1 with Class := Split (Replace attr.Val "  " " ") " " }
  else c1

/-- Lines 210-217: `for _, c := range child.Parent.Children`, one increment
of `child.Nth` per child of the parent whose tag name is `tagName`. -/
def countNth (tagName : String) (child : Ptr) : List Ptr → Heap → Except Fault Heap
  | [], h => .ok h
  | c :: rest, h =>
    match load h c with
    | .error f => .error f
    | .ok cn =>
      if cn.TagName = tagName then
        match update h child (fun x => { x with Nth := x.Nth + 1 }) with
        | .error f => .error f
        | .ok h1 => countNth tagName child rest h1
      else countNth tagName child rest h

/-- Lines 210-219: the sibling count after the `switch`, then `return sequence`. -/
def finish (h : Heap) (child : Ptr) (tagName : String) (sequence : List Nat) :
    Except Fault (Heap × List Nat) :=
  match load h child with
  | .error f => .error f
  | .ok c =>
    match c.Parent with
    | none => .error Fault.nilDereference
    | some p =>
      match load h p with
      | .error f => .error f
      | .ok pn =>
        match countNth tagName child pn.Children h with
        | .error f => .error f
        | .ok h1 => .ok (h1, sequence)

/-- Lines 162-164 and 190-192: `child.Parent = node` and
`node.Children = append(node.Children, child)`. -/
def attach (h : Heap) (node child : Ptr) : Except Fault Heap :=
  match update h child (fun x => { x with Parent := some node }) with
  | .error f => .error f
  | .ok h1 => update h1 node (fun x => { x with Children := x.Children ++ [child] })

/-- The method `AddChild` on the node at `n`; it returns the store and the
new `sequence`. -/
def AddChild (h : Heap) (n : Ptr) (child : Ptr) (tokenType : TokenType)
    (sequence : List Nat) : Except Fault (Heap × List Nat) :=
  match load h child with
  | .error f => .error f
  | .ok c0 =>
    let tagName := c0.TagName
    match walk h n sequence with
    | .error f => .error f
    | .ok node =>
      match tokenType with
      | .DoctypeToken | .CommentToken | .TextToken =>
        match attach h node child with
        | .error f => .error f
        | .ok h1 => finish h1 child tagName sequence
      | .StartTagToken | .SelfClosingTagToken =>
        match update h child (fun c => c.Attr.foldl scanAttr c) with
        | .error f => .error f
        | .ok h1 =>
          match load h1 node with
          | .error f => .error f
          | .ok nd =>
            let sequence1 :=
              if tokenType = TokenType.StartTagToken then sequence ++ [nd.Children.length]
              else sequence
            match attach h1 node child with
            | .error f => .error f
            | .ok h2 => finish h2 child tagName sequence1
      | .EndTagToken =>
        match load h node with
        | .error f => .error f
        | .ok nd =>
          if nd.TagName = c0.TagName then
            match update h node (fun x => { x with Close := true }) with
            | .error f => .error f
            | .ok h1 =>
              if sequence.length = 0 then .error Fault.sliceBoundsOutOfRange
              else .ok (h1, sequence.take (sequence.length - 1))
          else finish h child tagName sequence
      | .ErrorToken => .ok (h, sequence)

/-! ## `Parser.parse` (lines 52-144) and `ParseHtml` (lines 33-50) -/

/-- One round of `p.tokenizer.Next()` and `p.tokenizer.Token()`, with the value
`p.tokenizer.Err()` has in that round. -/
structure Pull where
  token : Token
  err : GoError := GoError.nil
  deriving DecidableEq, Repr

/-- What the tokenizer answers once its input is used up: an `ErrorToken`
whose error is `io.EOF`. -/
def eofPull : Pull := { token := { Typ := TokenType.ErrorToken }, err := GoError.EOF }

/-- The builder state between two rounds of the loop: the store holding the
tree, and the local `sequence` of `parse`. -/
structure State where
  heap : Heap
  sequence : List Nat
  deriving DecidableEq, Repr

/-- How a round of the loop body ends: at its end or at `continue` (with the
value of `err`), or at the `return err` of line 72. -/
inductive Flow where
  | next (s : State) (err : GoError)
  | ret (err : GoError)
  deriving DecidableEq, Repr

/-- Lines 139: `sequence = p.document.AddChild(child, tokenType, sequence)`,
the end of a round. -/
def addAndNext (document : Ptr) (h : Heap) (child : Ptr) (tokenType : TokenType)
    (sequence : List Nat) (err : GoError) : Except Fault Flow :=
  match AddChild h document child tokenType sequence with
  | .error f => .error f
  | .ok (h1, sequence1) => .ok (Flow.next ⟨h1, sequence1⟩ err)

/-- The body of the loop of `parse`, lines 58-139, for one pulled token.  The
`new(Node)` of line 62 is allocated where the pointer is used before being
overwritten, which is the `ErrorToken` case only. -/
def iteration (document : Ptr) (s : State) (err : GoError) (p : Pull) : Except Fault Flow :=
  match p.token.Typ with
  | .ErrorToken =>
    let a := alloc s.heap {}
    if p.err ≠ GoError.nil ∧ p.err ≠ GoError.EOF then .ok (Flow.ret p.err)
    else addAndNext document a.1 a.2 TokenType.ErrorToken s.sequence p.err
  | .TextToken =>
    let data := TrimLeft p.token.Data whitespace
    if data.length = 0 then .ok (Flow.next s err)
    else
      let a := alloc s.heap
        { Typ := NodeType.TextNode, DataAtom := p.token.DataAtom, TagName := "text", Text := data }
      addAndNext document a.1 a.2 TokenType.TextToken s.sequence err
  | .StartTagToken =>
    let a := alloc s.heap
      { Typ := NodeType.ElementNode, DataAtom := p.token.DataAtom, TagName := p.token.Data,
        Attr := p.token.Attr }
    match SelfClosing a.1 a.2 with
    | .error f => .error f
    | .ok (h1, tokenType) => addAndNext document h1 a.2 tokenType s.sequence err
  | .EndTagToken =>
    let a := alloc s.heap { TagName := p.token.Data }
    addAndNext document a.1 a.2 TokenType.EndTagToken s.sequence err
  | .SelfClosingTagToken =>
    let a := alloc s.heap
      { Typ := NodeType.ElementNode, DataAtom := p.token.DataAtom, TagName := p.token.Data,
        Attr := p.token.Attr, Close := true }
    addAndNext document a.1 a.2 TokenType.SelfClosingTagToken s.sequence err
  | .CommentToken =>
    let a := alloc s.heap
      { Typ := NodeType.CommentNode, DataAtom := p.token.DataAtom, TagName := "comment",
        Text := p.token.Data }
    addAndNext document a.1 a.2 TokenType.CommentToken s.sequence err
  | .DoctypeToken =>
    let a := alloc s.heap
      { Typ := NodeType.DoctypeNode, DataAtom := p.token.DataAtom, TagName := "doctype",
        Text := p.token.Data }
    addAndNext document a.1 a.2 TokenType.DoctypeToken s.sequence err

/-- The loop `for err != io.EOF` of `parse` over the rounds the tokenizer
answers, and the `return nil` of line 143.  When the list is used up the next
round is `eofPull`.  The result is the state at the end and the error `parse`
returns. -/
def parseLoop (document : Ptr) : List Pull → State → GoError → Except Fault (State × GoError)
  | [], s, err =>
    if err = GoError.EOF then .ok (s, GoError.nil)
    else
      match iteration document s err eofPull with
      | .error f => .error f
      | .ok (Flow.ret e) => .ok (s, e)
      | .ok (Flow.next s1 _) => .ok (s1, GoError.nil)
  | p :: rest, s, err =>
    if err = GoError.EOF then .ok (s, GoError.nil)
    else
      match iteration document s err p with
      | .error f => .error f
      | .ok (Flow.ret e) => .ok (s, e)
      | .ok (Flow.next s1 err1) => parseLoop document rest s1 err1

/-- The method `parse`: the local `sequence` starts empty (line 54) and `err`
starts nil. The result is the state at the end and the returned error. -/
def parse (document : Ptr) (h : Heap) (r : List Pull) : Except Fault (State × GoError) :=
  parseLoop document r ⟨h, []⟩ GoError.nil

/-- The function `ParseHtml` on the rounds the tokenizer answers: it allocates
the Document and runs `parse`; the result is the pair of the returned `*Node`
(with the store it points into) and the returned error. -/
def ParseHtml (r : List Pull) : Except Fault (Option (Heap × Ptr) × GoError) :=
  let a := alloc [] { Typ := NodeType.DocumentNode }
  match parse a.2 a.1 r with
  | .error f => .error f
  | .ok (s, err) =>
    if err ≠ GoError.nil then .ok (none, err)
    else .ok (some (s.heap, a.2), GoError.nil)

/-- The state `ParseHtml` starts the loop of `parse` in: a store holding the
Document node alone, at address 0, and the empty `sequence`. -/
def initState : State := ⟨[{ Typ := NodeType.DocumentNode }], []⟩

/-- The states the builder is in between two rounds, from the start of
`ParseHtml` on. -/
inductive Reachable : State → Prop where
  | init : Reachable initState
  | step {s s1 : State} {err err1 : GoError} {p : Pull} :
      Reachable s → iteration 0 s err p = .ok (Flow.next s1 err1) → Reachable s1

/-! ## Vocabulary of the statements

What the statements below say about the store, the rounds of the loop and the
tokens. -/

/-- The tag name of the node at an address (empty outside the store). -/
def tagOf (h : Heap) (x : Ptr) : String :=
  match h[x]? with
  | some n => n.TagName
  | none => ""

/-- The sibling ordinal of the node at an address. -/
def nthOf (h : Heap) (x : Ptr) : Nat :=
  match h[x]? with
  | some n => n.Nth
  | none => 0

/-- How many of the pointers of a slice lead to a node whose tag name is `t`. -/
def countTag (h : Heap) (l : List Ptr) (t : String) : Nat :=
  l.countP (fun x => decide (tagOf h x = t))

/-- The store after the node `r`, allocated at the first free address, has
been attached below `node`: the parent has one more child, and the new node
has its parent link and its sibling ordinal. -/
def attached (h : Heap) (node : Ptr) (nd r : Node) : Heap :=
  h.set node { nd with Children := nd.Children ++ [h.length] } ++
    [{ r with Parent := some node, Nth := r.Nth + (countTag h nd.Children r.TagName + 1) }]

/-- The child as `AddChild` has it when it is attached: a tag token has had
its attributes scanned for `id` and `class`. -/
def prep (tt : TokenType) (r : Node) : Node :=
  if tt = TokenType.StartTagToken ∨ tt = TokenType.SelfClosingTagToken then
    r.Attr.foldl scanAttr r
  else r

/-- The `sequence` that `AddChild` returns after an insertion below a node
that had `k` children. -/
def pushed (tt : TokenType) (seq : List Nat) (k : Nat) : List Nat :=
  if tt = TokenType.StartTagToken then seq ++ [k] else seq

/-- The payload of a Text token after line 77. -/
def trimmed (p : Pull) : String := TrimLeft p.token.Data whitespace

/-- The tokens for which a round of the loop attaches a node: Comment,
Doctype, StartTag and SelfClosingTag tokens, and the Text tokens whose payload
is not used up by the trimming of line 77. -/
def attaches (p : Pull) : Prop :=
  match p.token.Typ with
  | .ErrorToken => False
  | .EndTagToken => False
  | .TextToken => (trimmed p).length ≠ 0
  | _ => True

/-- The node that `parse` allocates for a token (lines 84-135), with the
effect of `SelfClosing` on a start tag. -/
def literal (p : Pull) : Node :=
  match p.token.Typ with
  | .ErrorToken => {}
  | .TextToken =>
    { Typ := NodeType.TextNode, DataAtom := p.token.DataAtom, TagName := "text", Text := trimmed p }
  | .StartTagToken =>
    { Typ := NodeType.ElementNode, DataAtom := p.token.DataAtom, TagName := p.token.Data,
      Attr := p.token.Attr, Close := decide (p.token.Data ∈ voidNames) }
  | .EndTagToken => { TagName := p.token.Data }
  | .SelfClosingTagToken =>
    { Typ := NodeType.ElementNode, DataAtom := p.token.DataAtom, TagName := p.token.Data,
      Attr := p.token.Attr, Close := true }
  | .CommentToken =>
    { Typ := NodeType.CommentNode, DataAtom := p.token.DataAtom, TagName := "comment",
      Text := p.token.Data }
  | .DoctypeToken =>
    { Typ := NodeType.DoctypeNode, DataAtom := p.token.DataAtom, TagName := "doctype",
      Text := p.token.Data }

/-- The token type that `parse` hands to `AddChild`: that of the token, but
`SelfClosingTagToken` for a start tag with a void name (line 100). -/
def passed (p : Pull) : TokenType :=
  match p.token.Typ with
  | .StartTagToken =>
    if p.token.Data ∈ voidNames then TokenType.SelfClosingTagToken else TokenType.StartTagToken
  | t => t

/-- Every child pointer of the store is an address of the store. -/
def Closed (h : Heap) : Prop :=
  ∀ (a : Ptr) (n : Node), h[a]? = some n → ∀ x ∈ n.Children, x < h.length

/-- Every child carries, as its `Nth`, the number of children with its tag
name up to and including itself in the `Children` of its parent. -/
def Ordinals (h : Heap) : Prop :=
  ∀ (a : Ptr) (n : Node), h[a]? = some n → ∀ (k : Nat) (c : Ptr), n.Children[k]? = some c →
    nthOf h c = countTag h (n.Children.take (k + 1)) (tagOf h c)

/-- The invariant of the builder states: the store is closed, the path leads
from the Document to a node of the store, and the sibling ordinals are right. -/
structure Inv (s : State) : Prop where
  closed : Closed s.heap
  path : ∃ node : Ptr, walk s.heap 0 s.sequence = .ok node ∧ node < s.heap.length
  ordinals : Ordinals s.heap

/-- The state after a round that attaches a node below `node`. -/
def afterInsert (s : State) (node : Ptr) (nd : Node) (p : Pull) : State :=
  ⟨attached s.heap node nd (prep (passed p) (literal p)),
    pushed (passed p) s.sequence nd.Children.length⟩

/-- The state after a round on an end tag that matches the open node. -/
def afterClose (s : State) (node : Ptr) (nd : Node) (p : Pull) : State :=
  ⟨s.heap.set node { nd with Close := true } ++ [{ TagName := p.token.Data }],
    s.sequence.take (s.sequence.length - 1)⟩

/-- The state after a round on an Error token that does not end `parse`. -/
def afterError (s : State) : State := ⟨s.heap ++ [({} : Node)], s.sequence⟩

/-- The value of the last attribute of the list with the given key, if any. -/
def lastVal (key : String) (A : List Attribute) : Option String :=
  ((A.filter (fun a => decide (a.Key = key))).getLast?).map (fun a => a.Val)

/-- A class value made of tokens: the first token, then each further token
after one space (`false`) or two spaces (`true`). -/
def classValue (first : String) (rest : List (Bool × String)) : String :=
  ⟨first.data ++ rest.flatMap (fun x => (if x.1 then [' ', ' '] else [' ']) ++ x.2.data)⟩

/-- A class token: not empty, and without a space. -/
def IsToken (t : String) : Prop := t.data ≠ [] ∧ ∀ c ∈ t.data, c ≠ ' '

/-- Whether a string is a class token can be computed. -/
instance instDecidableIsToken (t : String) : Decidable (IsToken t) := by
  unfold IsToken
  exact inferInstance

/-- The record of the node a round attaches below `node`, as it is stored. -/
def created (s : State) (node : Ptr) (nd : Node) (p : Pull) : Node :=
  { prep (passed p) (literal p) with
    Parent := some node
    Nth := countTag s.heap nd.Children (literal p).TagName + 1 }

/-- A StartTag token. -/
def startTag (name : String) (attr : List Attribute) : Pull :=
  { token := { Typ := TokenType.StartTagToken, Data := name, Attr := attr } }

/-- An EndTag token. -/
def endTag (name : String) : Pull :=
  { token := { Typ := TokenType.EndTagToken, Data := name } }

/-- A Text token. -/
def textToken (data : String) : Pull :=
  { token := { Typ := TokenType.TextToken, Data := data } }

/-- An Error token carrying the error `e`. -/
def errorToken (e : GoError) : Pull :=
  { token := { Typ := TokenType.ErrorToken }, err := e }

/-- The characters the spec calls whitespace: space, tab, CR, LF, form feed. -/
def wsChars : List Char := [' ', '\t', '\r', '\n', '\x0c']

/-- The node at an address of the tree `ParseHtml` returned, if it returned one. -/
def builtNode (r : Except Fault (Option (Heap × Ptr) × GoError)) (a : Ptr) : Option Node :=
  match r with
  | .ok (some (h, _), _) => h[a]?
  | _ => none

/-- The rounds on the tokens of a list, none of them an Error token, all end
without a panic, and lead from one state to another. -/
inductive Runs : State → List Pull → State → Prop where
  | nil (s : State) : Runs s [] s
  | cons {s s1 s2 : State} {p : Pull} {rest : List Pull} :
      p.token.Typ ≠ TokenType.ErrorToken →
      iteration 0 s GoError.nil p = .ok (Flow.next s1 GoError.nil) →
      Runs s1 rest s2 → Runs s (p :: rest) s2

/-- A well-formed token sequence: Text, Comment, Doctype and SelfClosingTag
tokens, and pairs of a StartTag and an EndTag of the same name around a
well-formed sequence. -/
inductive WellFormed : List Pull → Prop where
  | nil : WellFormed []
  | leaf {p : Pull} {rest : List Pull} :
      (p.token.Typ = TokenType.TextToken ∨ p.token.Typ = TokenType.CommentToken ∨
        p.token.Typ = TokenType.DoctypeToken ∨ p.token.Typ = TokenType.SelfClosingTagToken) →
      WellFormed rest → WellFormed (p :: rest)
  | nest {o c : Pull} {inner rest : List Pull} :
      o.token.Typ = TokenType.StartTagToken → c.token.Typ = TokenType.EndTagToken →
      c.token.Data = o.token.Data → WellFormed inner → WellFormed rest →
      WellFormed (o :: (inner ++ c :: rest))

/-- The nodes of the first store are in the second, with their tag name and
type, with their children in front, and closed if they were. -/
def Stable (h h1 : Heap) : Prop :=
  ∀ (a : Ptr) (n : Node), h[a]? = some n →
    ∃ n1 : Node, h1[a]? = some n1 ∧ n.Children <+: n1.Children ∧ n1.TagName = n.TagName ∧
      n1.Typ = n.Typ ∧ (n.Close = true → n1.Close = true)

/-- Every Element node at an address from `k` on is closed. -/
def ClosedFrom (k : Nat) (h : Heap) : Prop :=
  ∀ (a : Ptr) (n : Node), h[a]? = some n → k ≤ a → n.Typ = NodeType.ElementNode →
    n.Close = true

/-! ## The shape of the tree and the history of a parse

The invariant that the store is a tree below the Document whose right edge is
the path, the pre-order listing of the tree, and the record of the rounds of
a parse with the tokens pulled and the nodes they attached. -/

/-- The children of the node at an address (none outside the store). -/
def childrenOf (h : Heap) (a : Ptr) : List Ptr :=
  match h[a]? with
  | some n => n.Children
  | none => []

/-- Every child has a greater address than its parent: it was allocated later. -/
def Increasing (h : Heap) : Prop :=
  ∀ (a : Ptr) (n : Node), h[a]? = some n → ∀ c ∈ n.Children, a < c

/-- Every `Children` slice lists its nodes by increasing address, which is the
order in which they were allocated. -/
def SortedKids (h : Heap) : Prop :=
  ∀ (a : Ptr) (n : Node), h[a]? = some n → n.Children.Pairwise (fun x y => x < y)

/-- The nodes the walk of lines 153-156 visits after its start. -/
def pathNodes (h : Heap) : Ptr → List Nat → List Ptr
  | _, [] => []
  | a, k :: rest =>
    match (childrenOf h a)[k]? with
    | some c => c :: pathNodes h c rest
    | none => []

/-- The path runs along last children: each index is the index of the last
child of the node reached so far. -/
def Spine (h : Heap) : Ptr → List Nat → Prop
  | _, [] => True
  | a, k :: rest =>
    ∃ c : Ptr, (childrenOf h a)[k]? = some c ∧ k + 1 = (childrenOf h a).length ∧ Spine h c rest

/-- Child to parent: every child points back to the node that lists it. -/
def LinksDown (h : Heap) : Prop :=
  ∀ (a : Ptr) (n : Node), h[a]? = some n → ∀ c ∈ n.Children,
    ∃ cn : Node, h[c]? = some cn ∧ cn.Parent = some a

/-- Parent to child: every node with a parent is listed by that parent. -/
def LinksUp (h : Heap) : Prop :=
  ∀ (c : Ptr) (cn : Node) (p : Ptr), h[c]? = some cn → cn.Parent = some p →
    ∃ pn : Node, h[p]? = some pn ∧ c ∈ pn.Children

/-- The four node types of the nodes the builder attaches. -/
def IsContent (t : NodeType) : Prop :=
  t = NodeType.ElementNode ∨ t = NodeType.TextNode ∨ t = NodeType.CommentNode ∨
    t = NodeType.DoctypeNode

/-- The Document is at address 0, has no parent and an empty tag name; no
other node is a Document, and every node with a parent is an Element, a Text,
a Comment or a Doctype. -/
def Rooted (h : Heap) : Prop :=
  (∃ d : Node, h[0]? = some d ∧ d.Typ = NodeType.DocumentNode ∧ d.Parent = none ∧
    d.TagName = "") ∧
  (∀ (a : Ptr) (n : Node), h[a]? = some n → a ≠ 0 → n.Typ ≠ NodeType.DocumentNode) ∧
  (∀ (a : Ptr) (n : Node), h[a]? = some n → n.Parent ≠ none → IsContent n.Typ)

/-- The change of the store in one round: the node `nd` at `node` becomes
`nd1`, and `x` is the node allocated in the round. `nd1` is `nd` with `x`
appended to its children, or `nd` closed, or `nd`. -/
structure Change (h : Heap) (node : Ptr) (nd nd1 x : Node) : Prop where
  hn : h[node]? = some nd
  parent : nd1.Parent = nd.Parent
  typ : nd1.Typ = nd.Typ
  atom : nd1.DataAtom = nd.DataAtom
  tag : nd1.TagName = nd.TagName
  text : nd1.Text = nd.Text
  attr : nd1.Attr = nd.Attr
  id : nd1.ID = nd.ID
  cls : nd1.Class = nd.Class
  nth : nd1.Nth = nd.Nth
  close : nd.Close = true → nd1.Close = true
  xkids : x.Children = []
  xtyp : x.Typ ≠ NodeType.DocumentNode
  kids : (nd1.Children = nd.Children ∧ x.Parent = none) ∨
    (nd1.Children = nd.Children ++ [h.length] ∧ x.Parent = some node ∧ IsContent x.Typ)

/-- An Element node that is not closed. -/
def isOpen (n : Node) : Bool := decide (n.Typ = NodeType.ElementNode) && !n.Close

/-- The number of Element nodes of the store that are not closed. -/
def openCount (h : Heap) : Nat := h.countP isOpen

/-- The shape of the store in a builder state: a tree below the Document
whose right edge is the path, and whose open elements are the nodes on the
path. -/
structure Shape (s : State) : Prop where
  inc : Increasing s.heap
  sorted : SortedKids s.heap
  down : LinksDown s.heap
  up : LinksUp s.heap
  rooted : Rooted s.heap
  spine : Spine s.heap 0 s.sequence
  opened : ∀ (a : Ptr) (n : Node), s.heap[a]? = some n →
    (isOpen n = true ↔ a ∈ pathNodes s.heap 0 s.sequence)
  nonvoid : ∀ (a : Ptr) (n : Node), s.heap[a]? = some n → isOpen n = true →
    n.TagName ∉ voidNames
  count : openCount s.heap = s.sequence.length

/-- The pre-order listing (a node, then its subtrees from left to right) of
the addresses below `a`, to depth `fuel`. -/
def preorder (h : Heap) : Nat → Ptr → List Ptr
  | 0, _ => []
  | fuel + 1, a => a :: (childrenOf h a).flatMap (fun c => preorder h fuel c)

/-- Whether a token attaches a node can be computed. -/
instance instDecidableAttaches (p : Pull) : Decidable (attaches p) := by
  unfold attaches
  split <;> exact inferInstance

/-- The rounds of a parse so far, with the tokens pulled (in order) and the
birth list: for every round that attached a node, the address of the node and
the position of its token among the tokens pulled. -/
inductive Trace : State → List Pull → List (Ptr × Nat) → Prop where
  | init : Trace initState [] []
  | step {s s1 : State} {err err1 : GoError} {p : Pull} {toks : List Pull}
      {born : List (Ptr × Nat)} :
      Trace s toks born → iteration 0 s err p = .ok (Flow.next s1 err1) →
      Trace s1 (toks ++ [p])
        (if attaches p then born ++ [(s.heap.length, toks.length)] else born)

/-- What a node keeps of the token it was created from. -/
def view (n : Node) : NodeType × String × String × List Attribute :=
  (n.Typ, n.TagName, n.Text, n.Attr)

/-- The birth list is right: it is in the order of the addresses and of the
tokens, every entry is a node of the store with a parent that carries what
its token carried (and is closed if its token made it so), every attaching
token and every node with a parent has its entry, and the addresses are the
pre-order listing of the tree below the Document. -/
structure Origin (h : Heap) (toks : List Pull) (born : List (Ptr × Nat)) : Prop where
  sorted : born.Pairwise (fun x y => x.1 < y.1 ∧ x.2 < y.2)
  range : ∀ x ∈ born, 0 < x.1 ∧ x.1 < h.length ∧ x.2 < toks.length
  token : ∀ x ∈ born, ∃ (p : Pull) (n : Node), toks[x.2]? = some p ∧ attaches p ∧
    h[x.1]? = some n ∧ view n = view (literal p) ∧ n.Parent ≠ none ∧
    ((literal p).Close = true → n.Close = true)
  all : ∀ (i : Nat) (p : Pull), toks[i]? = some p → attaches p → i ∈ born.map Prod.snd
  attached : ∀ (a : Ptr) (n : Node), h[a]? = some n → n.Parent ≠ none →
    a ∈ born.map Prod.fst
  listing : preorder h h.length 0 = 0 :: born.map Prod.fst

/-- The tokens the loop of `parse` pulls when it runs to the end of the stream:
the answers of the token source up to and including the first Error token that
reports `io.EOF`; a source that is used up answers `eofPull`. -/
def pulled : List Pull → List Pull
  | [] => [eofPull]
  | p :: rest =>
    if p.token.Typ = TokenType.ErrorToken ∧ p.err = GoError.EOF then [p] else p :: pulled rest

/-- The node `x` lies in the subtree below `E`: it is a child of `E`, or a
child of a node that lies below `E`. -/
inductive Below (h : Heap) (E : Ptr) : Ptr → Prop where
  | child {x : Ptr} : x ∈ childrenOf h E → Below h E x
  | deeper {y x : Ptr} : Below h E y → x ∈ childrenOf h y → Below h E x

/-- The node `x` hangs below `E` through elements only: it is a child of `E`,
or a child of an Element with a tag name that is not void which hangs below
`E` in this way. -/
inductive Nested (h : Heap) (E : Ptr) : Ptr → Prop where
  | child {x : Ptr} : x ∈ childrenOf h E → Nested h E x
  | deeper {y x : Ptr} {n : Node} : Nested h E y → h[y]? = some n →
      n.Typ = NodeType.ElementNode → n.TagName ∉ voidNames → x ∈ childrenOf h y →
      Nested h E x

/-- The rounds that follow the creation of the element at `E` for as long as
the element stays open, from the state `s` on: the tokens of these rounds, the
addresses of the nodes they attach, and the state they lead to.  The round of
the end tag that closes `E` is not one of them. -/
inductive Inside (E : Ptr) (s : State) : List Pull → List Ptr → State → Prop where
  | nil : Inside E s [] [] s
  | step {s1 s2 : State} {err err1 : GoError} {q : Pull} {qs : List Pull} {made : List Ptr} :
      Inside E s qs made s1 → iteration 0 s1 err q = .ok (Flow.next s2 err1) →
      (∃ n : Node, s2.heap[E]? = some n ∧ n.Close = false) →
      Inside E s (qs ++ [q]) (if attaches q then made ++ [s1.heap.length] else made) s2

/-- A later state of the builder: reached by rounds that end without a panic. -/
inductive Later (s : State) : State → Prop where
  | refl : Later s s
  | step {s1 s2 : State} {err err1 : GoError} {p : Pull} :
      Later s s1 → iteration 0 s1 err p = .ok (Flow.next s2 err1) → Later s s2

/-- The state after the round on a token, when the round ends without a panic
and without returning from `parse`. -/
def after (s : State) (p : Pull) : State :=
  match iteration 0 s GoError.nil p with
  | .ok (Flow.next s1 _) => s1
  | _ => s

/-! ## Basic facts on `load`, `update` and `walk` -/

theorem load_of_get {h : Heap} {p : Ptr} {n : Node} (hp : h[p]? = some n) :
    load h p = .ok n := by
  simp [load, hp]

theorem get_of_load {h : Heap} {p : Ptr} {n : Node} (hp : load h p = .ok n) :
    h[p]? = some n := by
  unfold load at hp
  split at hp
  · rename_i m hm
    injection hp with e
    rw [hm, e]
  · cases hp

theorem update_of_get {h : Heap} {p : Ptr} {n : Node} (f : Node → Node)
    (hp : h[p]? = some n) : update h p f = .ok (h.set p (f n)) := by
  simp [update, hp]

theorem set_same {h : Heap} {p : Ptr} {n : Node} (hp : h[p]? = some n) :
    h.set p n = h := by
  apply List.ext_getElem?
  intro i
  by_cases e : p = i
  · subst e
    rw [List.getElem?_set_self' , hp]
    simp
  · rw [List.getElem?_set_ne e]

theorem get_append_last (h : Heap) (r : Node) : (h ++ [r])[h.length]? = some r := by
  simp

theorem get_append_inner {h : Heap} {a : Ptr} {n : Node} (x : Node) (ha : h[a]? = some n) :
    (h ++ [x])[a]? = some n := by
  have hlt : a < h.length := by
    rcases List.getElem?_eq_some.mp ha with ⟨hl, _⟩
    exact hl
  rw [List.getElem?_append_left hlt, ha]

theorem lt_of_get {h : Heap} {a : Ptr} {n : Node} (ha : h[a]? = some n) : a < h.length := by
  rcases List.getElem?_eq_some.mp ha with ⟨hl, _⟩
  exact hl

theorem update_append_last (h : Heap) (r : Node) (f : Node → Node) :
    update (h ++ [r]) h.length f = .ok (h ++ [f r]) := by
  rw [update_of_get f (get_append_last h r)]
  congr 1
  rw [List.set_append_right _ _ (Nat.le_refl _)]
  simp

theorem update_append_inner {h : Heap} {a : Ptr} {n : Node} (x : Node) (f : Node → Node)
    (ha : h[a]? = some n) : update (h ++ [x]) a f = .ok (h.set a (f n) ++ [x]) := by
  rw [update_of_get f (get_append_inner x ha)]
  congr 1
  rw [List.set_append_left _ _ (lt_of_get ha)]

/-- The walk only reads `Children`, and only a front part of it: it gives the
same node in any store whose nodes keep their children in front. -/
theorem walk_mono {h h1 : Heap}
    (hm : ∀ (a : Ptr) (n : Node), h[a]? = some n →
      ∃ n1 : Node, h1[a]? = some n1 ∧ n.Children <+: n1.Children) :
    ∀ (seq : List Nat) (a node : Ptr), walk h a seq = .ok node → walk h1 a seq = .ok node := by
  intro seq
  induction seq with
  | nil => intro a node hw; simpa [walk] using hw
  | cons i rest ih =>
    intro a node hw
    unfold walk at hw
    split at hw
    · cases hw
    · rename_i nd hl
      split at hw
      · rename_i c hc
        rcases hm a nd (get_of_load hl) with ⟨n1, hn1, hpre⟩
        have hc1 : n1.Children[i]? = some c := by
          rcases hpre with ⟨t, ht⟩
          rw [← ht]
          rcases List.getElem?_eq_some.mp hc with ⟨hlt, _⟩
          rw [List.getElem?_append_left hlt, hc]
        unfold walk
        rw [load_of_get hn1]
        simp only [hc1]
        exact ih c node hw
      · cases hw

theorem walk_append {h : Heap} (t : Heap) {seq : List Nat} {a node : Ptr}
    (hw : walk h a seq = .ok node) : walk (h ++ t) a seq = .ok node := by
  refine walk_mono ?_ seq a node hw
  intro b n hb
  refine ⟨n, ?_, List.prefix_refl _⟩
  rw [List.getElem?_append_left (lt_of_get hb), hb]

theorem walk_concat {h : Heap} : ∀ (seq : List Nat) (a node : Ptr) (k : Nat),
    walk h a seq = .ok node → walk h a (seq ++ [k]) = walk h node [k] := by
  intro seq
  induction seq with
  | nil => intro a node k hw; simp [walk] at hw; subst hw; rfl
  | cons i rest ih =>
    intro a node k hw
    unfold walk at hw
    split at hw
    · cases hw
    · rename_i nd hl
      split at hw
      · rename_i c hc
        rw [List.cons_append]
        conv_lhs => unfold walk
        rw [hl]
        simp only [hc]
        exact ih c node k hw
      · cases hw

theorem walk_front {h : Heap} : ∀ (s1 s2 : List Nat) (a node : Ptr),
    walk h a (s1 ++ s2) = .ok node → ∃ m, walk h a s1 = .ok m := by
  intro s1
  induction s1 with
  | nil => intro s2 a node _; exact ⟨a, rfl⟩
  | cons i rest ih =>
    intro s2 a node hw
    rw [List.cons_append] at hw
    unfold walk at hw
    split at hw
    · cases hw
    · rename_i nd hl
      split at hw
      · rename_i c hc
        rcases ih s2 c node hw with ⟨m, hm⟩
        refine ⟨m, ?_⟩
        unfold walk
        rw [hl]
        simp only [hc]
        exact hm
      · cases hw

/-! ## What `AddChild` and a round of the loop compute -/

theorem tagOf_set_same_tag {h : Heap} {p : Ptr} {r : Node} (v : Node) (hp : h[p]? = some r)
    (ht : v.TagName = r.TagName) (x : Ptr) : tagOf (h.set p v) x = tagOf h x := by
  unfold tagOf
  by_cases e : p = x
  · subst e
    rw [List.getElem?_set_self (lt_of_get hp), hp]
    exact ht
  · rw [List.getElem?_set_ne e]

theorem countTag_set_same_tag {h : Heap} {p : Ptr} {r : Node} (v : Node) (hp : h[p]? = some r)
    (ht : v.TagName = r.TagName) (l : List Ptr) (t : String) :
    countTag (h.set p v) l t = countTag h l t := by
  unfold countTag
  apply List.countP_congr
  intro x _
  rw [tagOf_set_same_tag v hp ht]

theorem countNth_ok (tag : String) (child : Ptr) : ∀ (l : List Ptr) (h : Heap) (r : Node),
    h[child]? = some r → (∀ x ∈ l, x < h.length) →
    countNth tag child l h = .ok (h.set child { r with Nth := r.Nth + countTag h l tag }) := by
  intro l
  induction l with
  | nil =>
    intro h r hr _
    simp only [countNth, countTag, List.countP_nil, Nat.add_zero]
    rw [set_same hr]
  | cons c rest ih =>
    intro h r hr hl
    have hc : c < h.length := hl c (List.mem_cons_self _ _)
    have hrest : ∀ x ∈ rest, x < h.length := fun x hx => hl x (List.mem_cons_of_mem _ hx)
    obtain ⟨cn, hcn⟩ : ∃ cn, h[c]? = some cn := ⟨h[c], List.getElem?_eq_getElem hc⟩
    have htag : tagOf h c = cn.TagName := by simp [tagOf, hcn]
    unfold countNth
    rw [load_of_get hcn]
    by_cases e : cn.TagName = tag
    · simp only [e, if_true]
      rw [update_of_get _ hr]
      simp only []
      have hr1 : (h.set child { r with Nth := r.Nth + 1 })[child]? =
          some { r with Nth := r.Nth + 1 } := List.getElem?_set_self (lt_of_get hr)
      rw [ih _ _ hr1 (by simpa using hrest)]
      rw [List.set_set]
      have key : ∀ v : Node, v.TagName = r.TagName →
          countTag (h.set child v) rest tag = countTag h rest tag :=
        fun v hv => countTag_set_same_tag v hr hv rest tag
      rw [key _ (by rfl)]
      have : countTag h (c :: rest) tag = countTag h rest tag + 1 := by
        unfold countTag
        rw [List.countP_cons_of_pos]
        simp [htag, e]
      rw [this]
      simp only [Nat.add_assoc, Nat.add_comm 1]
    · simp only [e, if_false]
      rw [ih _ _ hr hrest]
      have : countTag h (c :: rest) tag = countTag h rest tag := by
        unfold countTag
        rw [List.countP_cons_of_neg]
        simp [htag, e]
      rw [this]

theorem attach_ok {h : Heap} {node : Ptr} {nd : Node} (r : Node) (hn : h[node]? = some nd) :
    attach (h ++ [r]) node h.length =
      .ok (h.set node { nd with Children := nd.Children ++ [h.length] } ++
        [{ r with Parent := some node }]) := by
  unfold attach
  rw [update_append_last]
  simp only []
  rw [update_append_inner _ _ hn]

theorem tagOf_attach_old {h : Heap} {node : Ptr} {nd : Node} (v x : Node)
    (hn : h[node]? = some nd) (hv : v.TagName = nd.TagName) {a : Ptr} (ha : a < h.length) :
    tagOf (h.set node v ++ [x]) a = tagOf h a := by
  have e : tagOf (h.set node v ++ [x]) a = tagOf (h.set node v) a := by
    unfold tagOf
    rw [List.getElem?_append_left (by simpa using ha)]
  rw [e, tagOf_set_same_tag v hn hv]

theorem finish_ok {h : Heap} {node : Ptr} {nd : Node} (nd1 rp : Node) (seq : List Nat)
    (hn : h[node]? = some nd) (hc : ∀ x ∈ nd.Children, x < h.length)
    (hp : rp.Parent = some node) (hch : nd1.Children = nd.Children ++ [h.length])
    (htg : nd1.TagName = nd.TagName) :
    finish (h.set node nd1 ++ [rp]) h.length rp.TagName seq =
      .ok (h.set node nd1 ++
        [{ rp with Nth := rp.Nth + (countTag h nd.Children rp.TagName + 1) }], seq) := by
  have hlen : (h.set node nd1).length = h.length := List.length_set _ _ _
  have hchild : (h.set node nd1 ++ [rp])[h.length]? = some rp := by
    rw [List.getElem?_append_right (by rw [hlen]), hlen]
    simp
  have hnode : (h.set node nd1 ++ [rp])[node]? = some nd1 := by
    rw [List.getElem?_append_left (by rw [hlen]; exact lt_of_get hn)]
    exact List.getElem?_set_self (lt_of_get hn)
  unfold finish
  rw [load_of_get hchild]
  simp only [hp]
  rw [load_of_get hnode]
  simp only []
  rw [countNth_ok rp.TagName h.length _ _ rp hchild]
  · simp only []
    have hcnt : countTag (h.set node nd1 ++ [rp]) nd1.Children rp.TagName =
        countTag h nd.Children rp.TagName + 1 := by
      rw [hch]
      unfold countTag
      rw [List.countP_append]
      congr 1
      · apply List.countP_congr
        intro x hx
        rw [tagOf_attach_old nd1 rp hn htg (hc x hx)]
      · have : tagOf (h.set node nd1 ++ [rp]) h.length = rp.TagName := by
          simp [tagOf, hchild]
        simp [this]
    rw [hcnt]
    have := List.set_append_right (s := h.set node nd1) (t := [rp]) h.length
      { rp with Nth := rp.Nth + (countTag h nd.Children rp.TagName + 1) } (by rw [hlen])
    rw [this, hlen]
    simp [hp]
  · intro x hx
    rw [List.length_append, hlen]
    rw [hch] at hx
    rcases List.mem_append.mp hx with hx | hx
    · exact Nat.lt_succ_of_lt (hc x hx)
    · simp at hx
      subst hx
      simp

theorem scanAttr_frame (c : Node) (a : Attribute) :
    (scanAttr c a).Parent = c.Parent ∧ (scanAttr c a).Children = c.Children ∧
    (scanAttr c a).Typ = c.Typ ∧ (scanAttr c a).DataAtom = c.DataAtom ∧
    (scanAttr c a).TagName = c.TagName ∧ (scanAttr c a).Text = c.Text ∧
    (scanAttr c a).Attr = c.Attr ∧ (scanAttr c a).Close = c.Close ∧
    (scanAttr c a).Nth = c.Nth := by
  unfold scanAttr
  by_cases h1 : a.Key = "id" <;> by_cases h2 : a.Key = "class" <;> simp [h1, h2]

theorem foldl_scanAttr_frame : ∀ (l : List Attribute) (c : Node),
    (l.foldl scanAttr c).Parent = c.Parent ∧ (l.foldl scanAttr c).Children = c.Children ∧
    (l.foldl scanAttr c).Typ = c.Typ ∧ (l.foldl scanAttr c).DataAtom = c.DataAtom ∧
    (l.foldl scanAttr c).TagName = c.TagName ∧ (l.foldl scanAttr c).Text = c.Text ∧
    (l.foldl scanAttr c).Attr = c.Attr ∧ (l.foldl scanAttr c).Close = c.Close ∧
    (l.foldl scanAttr c).Nth = c.Nth := by
  intro l
  induction l with
  | nil => intro c; simp
  | cons a rest ih =>
    intro c
    rw [List.foldl_cons]
    obtain ⟨i1, i2, i3, i4, i5, i6, i7, i8, i9⟩ := ih (scanAttr c a)
    obtain ⟨s1, s2, s3, s4, s5, s6, s7, s8, s9⟩ := scanAttr_frame c a
    exact ⟨i1.trans s1, i2.trans s2, i3.trans s3, i4.trans s4, i5.trans s5, i6.trans s6,
      i7.trans s7, i8.trans s8, i9.trans s9⟩

theorem prep_tag (tt : TokenType) (r : Node) : (prep tt r).TagName = r.TagName := by
  unfold prep
  split
  · exact (foldl_scanAttr_frame r.Attr r).2.2.2.2.1
  · rfl

/-- What `AddChild` does with a token that attaches a node. -/
theorem AddChild_insert {h : Heap} {seq : List Nat} {node : Ptr} {nd : Node} (r : Node)
    (tt : TokenType) (hw : walk h 0 seq = .ok node) (hn : h[node]? = some nd)
    (hc : ∀ x ∈ nd.Children, x < h.length)
    (htt : tt ≠ TokenType.EndTagToken ∧ tt ≠ TokenType.ErrorToken) :
    AddChild (h ++ [r]) 0 h.length tt seq =
      .ok (attached h node nd (prep tt r), pushed tt seq nd.Children.length) := by
  have hfin : ∀ rp : Node, rp.Parent = some node → rp.TagName = r.TagName → ∀ sq : List Nat,
      finish (h.set node { nd with Children := nd.Children ++ [h.length] } ++ [rp]) h.length
        r.TagName sq =
      .ok (h.set node { nd with Children := nd.Children ++ [h.length] } ++
        [{ rp with Nth := rp.Nth + (countTag h nd.Children r.TagName + 1) }], sq) := by
    intro rp hp ht sq
    rw [← ht]
    exact finish_ok _ rp sq hn hc hp rfl rfl
  unfold AddChild
  rw [load_of_get (get_append_last h r)]
  simp only []
  rw [walk_append _ hw]
  cases tt with
  | ErrorToken => exact absurd rfl htt.2
  | EndTagToken => exact absurd rfl htt.1
  | TextToken =>
    simp only []
    rw [attach_ok r hn]
    simp only []
    rw [hfin { r with Parent := some node } rfl rfl]
    simp [attached, prep, pushed]
  | CommentToken =>
    simp only []
    rw [attach_ok r hn]
    simp only []
    rw [hfin { r with Parent := some node } rfl rfl]
    simp [attached, prep, pushed]
  | DoctypeToken =>
    simp only []
    rw [attach_ok r hn]
    simp only []
    rw [hfin { r with Parent := some node } rfl rfl]
    simp [attached, prep, pushed]
  | StartTagToken =>
    simp only []
    rw [update_append_last]
    simp only []
    rw [load_of_get (get_append_inner _ hn)]
    simp only []
    rw [attach_ok _ hn]
    simp only []
    have ht := (foldl_scanAttr_frame r.Attr r).2.2.2.2.1
    rw [hfin { (r.Attr.foldl scanAttr r) with Parent := some node } rfl ht]
    simp [attached, prep, pushed, ht]
  | SelfClosingTagToken =>
    simp only []
    rw [update_append_last]
    simp only []
    rw [load_of_get (get_append_inner _ hn)]
    simp only []
    rw [attach_ok _ hn]
    simp only []
    have ht := (foldl_scanAttr_frame r.Attr r).2.2.2.2.1
    rw [hfin { (r.Attr.foldl scanAttr r) with Parent := some node } rfl ht]
    simp [attached, prep, pushed, ht]

theorem SelfClosing_last (h : Heap) (r : Node) :
    SelfClosing (h ++ [r]) h.length =
      .ok (h ++ [{ r with Close := r.Close || decide (r.TagName ∈ voidNames) }],
        if r.TagName ∈ voidNames then TokenType.SelfClosingTagToken
        else TokenType.StartTagToken) := by
  unfold SelfClosing
  rw [load_of_get (get_append_last h r)]
  simp only []
  by_cases hv : r.TagName ∈ voidNames
  · simp only [hv, if_true]
    rw [update_append_last]
    simp
  · simp only [hv, if_false]
    simp

/-- A round of the loop on a token that attaches a node. -/
theorem iteration_insert {s : State} {node : Ptr} {nd : Node} (err : GoError) {p : Pull}
    (hp : attaches p) (hw : walk s.heap 0 s.sequence = .ok node) (hn : s.heap[node]? = some nd)
    (hc : ∀ x ∈ nd.Children, x < s.heap.length) :
    iteration 0 s err p =
      .ok (Flow.next ⟨attached s.heap node nd (prep (passed p) (literal p)),
        pushed (passed p) s.sequence nd.Children.length⟩ err) := by
  unfold iteration
  unfold attaches at hp
  cases hT : p.token.Typ with
  | ErrorToken => rw [hT] at hp; exact hp.elim
  | EndTagToken => rw [hT] at hp; exact hp.elim
  | TextToken =>
    rw [hT] at hp
    simp only [] at hp
    have hp1 : ¬ (TrimLeft p.token.Data whitespace).length = 0 := hp
    simp only [hp1, if_false, alloc, addAndNext]
    rw [AddChild_insert _ _ hw hn hc (by decide)]
    simp [literal, passed, hT, trimmed]
  | CommentToken =>
    simp only [alloc, addAndNext]
    rw [AddChild_insert _ _ hw hn hc (by decide)]
    simp [literal, passed, hT]
  | DoctypeToken =>
    simp only [alloc, addAndNext]
    rw [AddChild_insert _ _ hw hn hc (by decide)]
    simp [literal, passed, hT]
  | SelfClosingTagToken =>
    simp only [alloc, addAndNext]
    rw [AddChild_insert _ _ hw hn hc (by decide)]
    simp [literal, passed, hT]
  | StartTagToken =>
    simp only [alloc]
    rw [SelfClosing_last]
    simp only [addAndNext]
    by_cases hv : p.token.Data ∈ voidNames
    · simp only [hv, if_true]
      rw [AddChild_insert _ _ hw hn hc (by decide)]
      simp [literal, passed, hT, hv]
    · simp only [hv, if_false]
      rw [AddChild_insert _ _ hw hn hc (by decide)]
      simp [literal, passed, hT, hv]

/-- A round of the loop on a Text token that the trimming uses up: `continue`. -/
theorem iteration_skip (s : State) (err : GoError) {p : Pull}
    (hT : p.token.Typ = TokenType.TextToken) (he : (trimmed p).length = 0) :
    iteration 0 s err p = .ok (Flow.next s err) := by
  unfold iteration
  rw [hT]
  unfold trimmed at he
  simp [he]

/-- A round of the loop on an Error token. -/
theorem iteration_error {s : State} {node : Ptr} (err : GoError) {p : Pull}
    (hT : p.token.Typ = TokenType.ErrorToken) (hw : walk s.heap 0 s.sequence = .ok node) :
    iteration 0 s err p =
      if p.err ≠ GoError.nil ∧ p.err ≠ GoError.EOF then .ok (Flow.ret p.err)
      else .ok (Flow.next ⟨s.heap ++ [({} : Node)], s.sequence⟩ p.err) := by
  unfold iteration
  rw [hT]
  simp only [alloc, addAndNext, AddChild]
  rw [load_of_get (get_append_last _ _)]
  simp only []
  rw [walk_append _ hw]

/-- A round of the loop on an EndTag token. -/
theorem iteration_end {s : State} {node : Ptr} {nd : Node} (err : GoError) {p : Pull}
    (hT : p.token.Typ = TokenType.EndTagToken) (hw : walk s.heap 0 s.sequence = .ok node)
    (hn : s.heap[node]? = some nd) :
    iteration 0 s err p =
      if nd.TagName = p.token.Data then
        if s.sequence.length = 0 then .error Fault.sliceBoundsOutOfRange
        else .ok (Flow.next ⟨s.heap.set node { nd with Close := true } ++
          [{ TagName := p.token.Data }], s.sequence.take (s.sequence.length - 1)⟩ err)
      else .error Fault.nilDereference := by
  unfold iteration
  rw [hT]
  simp only [alloc, addAndNext, AddChild]
  rw [load_of_get (get_append_last _ _)]
  simp only []
  rw [walk_append _ hw]
  simp only []
  rw [load_of_get (get_append_inner _ hn)]
  simp only []
  by_cases e : nd.TagName = p.token.Data
  · simp only [e, if_true]
    rw [update_append_inner _ _ hn]
    simp only []
    by_cases l : s.sequence.length = 0
    · simp [l]
    · simp [l, e]
  · simp only [e, if_false]
    unfold finish
    rw [load_of_get (get_append_last _ _)]

/-! ## Invariants of the builder states -/

theorem get_step_node {h : Heap} {node : Ptr} (nd1 x : Node) (hlt : node < h.length) :
    (h.set node nd1 ++ [x])[node]? = some nd1 := by
  rw [List.getElem?_append_left (by simpa using hlt)]
  exact List.getElem?_set_self hlt

theorem get_step_old {h : Heap} {node a : Ptr} (nd1 x : Node) (hne : a ≠ node)
    (hlt : a < h.length) : (h.set node nd1 ++ [x])[a]? = h[a]? := by
  rw [List.getElem?_append_left (by simpa using hlt)]
  exact List.getElem?_set_ne (Ne.symm hne)

theorem get_step_new (h : Heap) (node : Ptr) (nd1 x : Node) :
    (h.set node nd1 ++ [x])[h.length]? = some x := by
  rw [List.getElem?_append_right (by simp)]
  simp

theorem get_step_cases {h : Heap} {node a : Ptr} {nd1 x n : Node}
    (hg : (h.set node nd1 ++ [x])[a]? = some n) :
    (a = node ∧ n = nd1 ∧ a < h.length) ∨ (a ≠ node ∧ h[a]? = some n) ∨
      (a = h.length ∧ n = x) := by
  have hlt : a < h.length + 1 := by
    have := lt_of_get hg
    simpa using this
  by_cases e : a = h.length
  · right; right
    subst e
    rw [get_step_new] at hg
    exact ⟨rfl, (Option.some.inj hg).symm⟩
  · have hlt1 : a < h.length := Nat.lt_of_le_of_ne (Nat.lt_succ_iff.mp hlt) e
    by_cases en : a = node
    · left
      subst en
      rw [get_step_node _ _ hlt1] at hg
      exact ⟨rfl, (Option.some.inj hg).symm, hlt1⟩
    · right; left
      rw [get_step_old _ _ en hlt1] at hg
      exact ⟨en, hg⟩

theorem tagOf_step {h : Heap} {node : Ptr} {nd : Node} (nd1 x : Node)
    (hn : h[node]? = some nd) (htag : nd1.TagName = nd.TagName) {a : Ptr} (ha : a < h.length) :
    tagOf (h.set node nd1 ++ [x]) a = tagOf h a :=
  tagOf_attach_old nd1 x hn htag ha

theorem nthOf_step {h : Heap} {node : Ptr} {nd : Node} (nd1 x : Node)
    (hn : h[node]? = some nd) (hnth : nd1.Nth = nd.Nth) {a : Ptr} (ha : a < h.length) :
    nthOf (h.set node nd1 ++ [x]) a = nthOf h a := by
  unfold nthOf
  by_cases e : a = node
  · subst e
    rw [get_step_node _ _ ha, hn]
    exact hnth
  · rw [get_step_old _ _ e ha]

theorem countTag_step {h : Heap} {node : Ptr} {nd : Node} (nd1 x : Node)
    (hn : h[node]? = some nd) (htag : nd1.TagName = nd.TagName) {l : List Ptr}
    (hl : ∀ a ∈ l, a < h.length) (t : String) :
    countTag (h.set node nd1 ++ [x]) l t = countTag h l t := by
  unfold countTag
  apply List.countP_congr
  intro a ha
  rw [tagOf_step nd1 x hn htag (hl a ha)]

/-- The three ways the builder changes the store (append a child below a node,
close a node, allocate a placeholder) keep it closed. -/
theorem Closed_step {h : Heap} {node : Ptr} {nd : Node} (nd1 x : Node)
    (hn : h[node]? = some nd) (hcl : Closed h)
    (hch : ∀ c ∈ nd1.Children, c ∈ nd.Children ∨ c = h.length) (hx : x.Children = []) :
    Closed (h.set node nd1 ++ [x]) := by
  intro a n hg c hc
  have hlen : (h.set node nd1 ++ [x]).length = h.length + 1 := by simp
  rw [hlen]
  rcases get_step_cases hg with ⟨_, e, _⟩ | ⟨_, e⟩ | ⟨_, e⟩
  · subst e
    rcases hch c hc with h1 | h1
    · exact Nat.lt_succ_of_lt (hcl node nd hn c h1)
    · rw [h1]
      exact Nat.lt_succ_self _
  · exact Nat.lt_succ_of_lt (hcl a n e c hc)
  · subst e
    rw [hx] at hc
    cases hc

/-- The three ways the builder changes the store keep the sibling ordinals
right. -/
theorem Ordinals_step {h : Heap} {node : Ptr} {nd : Node} (nd1 x : Node)
    (hn : h[node]? = some nd) (hcl : Closed h) (ho : Ordinals h)
    (htag : nd1.TagName = nd.TagName) (hnth : nd1.Nth = nd.Nth) (hx : x.Children = [])
    (hch : nd1.Children = nd.Children ∨
      (nd1.Children = nd.Children ++ [h.length] ∧
        x.Nth = countTag h nd.Children x.TagName + 1)) :
    Ordinals (h.set node nd1 ++ [x]) := by
  have old : ∀ (a : Ptr) (n : Node), h[a]? = some n → ∀ (k : Nat) (c : Ptr),
      n.Children[k]? = some c →
      nthOf (h.set node nd1 ++ [x]) c =
        countTag (h.set node nd1 ++ [x]) (n.Children.take (k + 1))
          (tagOf (h.set node nd1 ++ [x]) c) := by
    intro a n ha k c hk
    have hc : c < h.length := hcl a n ha c (List.getElem?_mem hk)
    rw [nthOf_step nd1 x hn hnth hc, tagOf_step nd1 x hn htag hc]
    rw [countTag_step nd1 x hn htag
      (fun b hb => hcl a n ha b (List.mem_of_mem_take hb))]
    exact ho a n ha k c hk
  intro a n hg k c hk
  rcases get_step_cases hg with ⟨ea, e, _⟩ | ⟨_, e⟩ | ⟨_, e⟩
  · subst e
    rcases hch with h1 | ⟨h1, h2⟩
    · rw [h1] at hk ⊢
      exact old node nd hn k c hk
    · rw [h1] at hk ⊢
      by_cases hlt : k < nd.Children.length
      · rw [List.getElem?_append_left hlt] at hk
        rw [List.take_append_of_le_length (by omega)]
        exact old node nd hn k c hk
      · have hk1 : k = nd.Children.length := by
          have := (List.getElem?_eq_some.mp hk).1
          simp at this
          omega
        subst hk1
        rw [List.getElem?_append_right (Nat.le_refl _)] at hk
        simp at hk
        subst hk
        have e1 : nthOf (h.set node n ++ [x]) h.length = x.Nth := by
          simp [nthOf, get_step_new]
        have e2 : tagOf (h.set node n ++ [x]) h.length = x.TagName := by
          simp [tagOf, get_step_new]
        rw [e1, e2, h2]
        rw [List.take_of_length_le (by simp)]
        unfold countTag
        rw [List.countP_append]
        congr 1
        · apply List.countP_congr
          intro b hb
          rw [tagOf_step n x hn htag (hcl node nd hn b hb)]
        · simp [e2]
  · exact old a n e k c hk
  · subst e
    rw [hx] at hk
    simp at hk

theorem walk_in_range {h : Heap} (hcl : Closed h) : ∀ (seq : List Nat) (a m : Ptr),
    a < h.length → walk h a seq = .ok m → m < h.length := by
  intro seq
  induction seq with
  | nil =>
    intro a m ha hw
    simp [walk] at hw
    rw [← hw]
    exact ha
  | cons i rest ih =>
    intro a m _ hw
    unfold walk at hw
    split at hw
    · cases hw
    · rename_i nd hl
      split at hw
      · rename_i c hc
        exact ih c m (hcl a nd (get_of_load hl) c (List.getElem?_mem hc)) hw
      · cases hw

theorem walk_step {h : Heap} {node : Ptr} {nd : Node} (nd1 x : Node)
    (hn : h[node]? = some nd) (hpre : nd.Children <+: nd1.Children) {seq : List Nat}
    {a m : Ptr} (hw : walk h a seq = .ok m) : walk (h.set node nd1 ++ [x]) a seq = .ok m := by
  refine walk_mono ?_ seq a m hw
  intro b n hb
  by_cases e : b = node
  · subst e
    refine ⟨nd1, get_step_node _ _ (lt_of_get hb), ?_⟩
    rw [hn] at hb
    rw [← Option.some.inj hb]
    exact hpre
  · refine ⟨n, ?_, List.prefix_refl _⟩
    rw [get_step_old _ _ e (lt_of_get hb), hb]

/-- The rounds of the loop that end without a panic and without `return`:
there are four of them. -/
theorem step_cases {s s1 : State} {err err1 : GoError} {p : Pull} (hi : Inv s)
    (hs : iteration 0 s err p = .ok (Flow.next s1 err1)) :
    ∃ (node : Ptr) (nd : Node), walk s.heap 0 s.sequence = .ok node ∧ s.heap[node]? = some nd ∧
      ((p.token.Typ = TokenType.TextToken ∧ (trimmed p).length = 0 ∧ s1 = s ∧ err1 = err) ∨
       (p.token.Typ = TokenType.ErrorToken ∧ s1 = afterError s ∧ err1 = p.err ∧
          (p.err = GoError.nil ∨ p.err = GoError.EOF)) ∨
       (p.token.Typ = TokenType.EndTagToken ∧ nd.TagName = p.token.Data ∧ s.sequence ≠ [] ∧
          s1 = afterClose s node nd p ∧ err1 = err) ∨
       (attaches p ∧ s1 = afterInsert s node nd p ∧ err1 = err)) := by
  obtain ⟨node, hw, hlt⟩ := hi.path
  obtain ⟨nd, hn⟩ : ∃ nd, s.heap[node]? = some nd := ⟨_, List.getElem?_eq_getElem hlt⟩
  refine ⟨node, nd, hw, hn, ?_⟩
  have hc := hi.closed node nd hn
  have ins : attaches p → s1 = afterInsert s node nd p ∧ err1 = err := by
    intro ha
    rw [iteration_insert err ha hw hn hc] at hs
    injection hs with hs
    injection hs with h1 h2
    exact ⟨h1.symm, h2.symm⟩
  cases hT : p.token.Typ with
  | ErrorToken =>
    right; left
    rw [iteration_error err hT hw] at hs
    split at hs
    · injection hs with hs
      cases hs
    · rename_i hcond
      injection hs with hs
      injection hs with h1 h2
      refine ⟨rfl, h1.symm, h2.symm, ?_⟩
      by_cases e1 : p.err = GoError.nil
      · exact Or.inl e1
      · by_cases e2 : p.err = GoError.EOF
        · exact Or.inr e2
        · exact absurd ⟨e1, e2⟩ hcond
  | EndTagToken =>
    right; right; left
    rw [iteration_end err hT hw hn] at hs
    split at hs
    · rename_i e
      split at hs
      · cases hs
      · rename_i l
        injection hs with hs
        injection hs with h1 h2
        refine ⟨rfl, e, ?_, h1.symm, h2.symm⟩
        intro hnil
        exact l (by rw [hnil]; rfl)
    · cases hs
  | TextToken =>
    by_cases he : (trimmed p).length = 0
    · left
      rw [iteration_skip s err hT he] at hs
      injection hs with hs
      injection hs with h1 h2
      exact ⟨rfl, he, h1.symm, h2.symm⟩
    · right; right; right
      have ha : attaches p := by
        unfold attaches
        rw [hT]
        exact he
      exact ⟨ha, ins ha⟩
  | StartTagToken =>
    right; right; right
    have ha : attaches p := by unfold attaches; rw [hT]; trivial
    exact ⟨ha, ins ha⟩
  | SelfClosingTagToken =>
    right; right; right
    have ha : attaches p := by unfold attaches; rw [hT]; trivial
    exact ⟨ha, ins ha⟩
  | CommentToken =>
    right; right; right
    have ha : attaches p := by unfold attaches; rw [hT]; trivial
    exact ⟨ha, ins ha⟩
  | DoctypeToken =>
    right; right; right
    have ha : attaches p := by unfold attaches; rw [hT]; trivial
    exact ⟨ha, ins ha⟩

theorem literal_children (p : Pull) : (literal p).Children = [] := by
  unfold literal
  split <;> rfl

theorem literal_nth (p : Pull) : (literal p).Nth = 0 := by
  unfold literal
  split <;> rfl

theorem prep_children (tt : TokenType) (r : Node) : (prep tt r).Children = r.Children := by
  unfold prep
  split
  · exact (foldl_scanAttr_frame r.Attr r).2.1
  · rfl

theorem prep_nth (tt : TokenType) (r : Node) : (prep tt r).Nth = r.Nth := by
  unfold prep
  split
  · exact (foldl_scanAttr_frame r.Attr r).2.2.2.2.2.2.2.2
  · rfl

theorem Inv_init : Inv initState := by
  refine ⟨?_, ⟨0, rfl, by decide⟩, ?_⟩
  · intro a n hg x hx
    have ha : a < 1 := lt_of_get hg
    have ha0 : a = 0 := Nat.lt_one_iff.mp ha
    subst ha0
    have : n = { Typ := NodeType.DocumentNode } := by
      simp [initState] at hg
      exact hg.symm
    subst this
    cases hx
  · intro a n hg k c hk
    have ha : a < 1 := lt_of_get hg
    have ha0 : a = 0 := Nat.lt_one_iff.mp ha
    subst ha0
    have : n = { Typ := NodeType.DocumentNode } := by
      simp [initState] at hg
      exact hg.symm
    subst this
    simp at hk

theorem Inv_afterInsert {s : State} {node : Ptr} {nd : Node} (p : Pull) (hi : Inv s)
    (hw : walk s.heap 0 s.sequence = .ok node) (hn : s.heap[node]? = some nd) :
    Inv (afterInsert s node nd p) := by
  have hpre : nd.Children <+: nd.Children ++ [s.heap.length] := List.prefix_append _ _
  have hlen : (afterInsert s node nd p).heap.length = s.heap.length + 1 := by
    simp [afterInsert, attached]
  refine ⟨?_, ?_, ?_⟩
  · refine Closed_step _ _ hn hi.closed ?_ ?_
    · intro c hc
      rcases List.mem_append.mp hc with h1 | h1
      · exact Or.inl h1
      · right
        simpa using h1
    · show (prep (passed p) (literal p)).Children = []
      rw [prep_children, literal_children]
  · have hw1 : walk (afterInsert s node nd p).heap 0 s.sequence = .ok node :=
      walk_step _ _ hn hpre hw
    by_cases e : passed p = TokenType.StartTagToken
    · refine ⟨s.heap.length, ?_, by rw [hlen]; exact Nat.lt_succ_self _⟩
      have hseq : (afterInsert s node nd p).sequence = s.sequence ++ [nd.Children.length] := by
        simp [afterInsert, pushed, e]
      rw [hseq, walk_concat _ _ _ _ hw1]
      unfold walk
      have hg : (afterInsert s node nd p).heap[node]? =
          some { nd with Children := nd.Children ++ [s.heap.length] } :=
        get_step_node _ _ (lt_of_get hn)
      rw [load_of_get hg]
      simp [walk]
    · refine ⟨node, ?_, by rw [hlen]; exact Nat.lt_succ_of_lt (lt_of_get hn)⟩
      have hseq : (afterInsert s node nd p).sequence = s.sequence := by
        simp [afterInsert, pushed, e]
      rw [hseq]
      exact hw1
  · refine Ordinals_step _ _ hn hi.closed hi.ordinals rfl rfl ?_ (Or.inr ⟨rfl, ?_⟩)
    · show (prep (passed p) (literal p)).Children = []
      rw [prep_children, literal_children]
    · show (prep (passed p) (literal p)).Nth +
        (countTag s.heap nd.Children (prep (passed p) (literal p)).TagName + 1) = _
      rw [prep_nth, literal_nth, Nat.zero_add]

theorem Inv_afterClose {s : State} {node : Ptr} {nd : Node} (p : Pull) (hi : Inv s)
    (hw : walk s.heap 0 s.sequence = .ok node) (hn : s.heap[node]? = some nd) :
    Inv (afterClose s node nd p) := by
  have hcl : Closed (afterClose s node nd p).heap :=
    Closed_step _ _ hn hi.closed (fun c hc => Or.inl hc) rfl
  refine ⟨hcl, ?_, ?_⟩
  · have hw1 : walk (afterClose s node nd p).heap 0 s.sequence = .ok node :=
      walk_step { nd with Close := true } _ hn (List.prefix_refl _) hw
    have hsplit : s.sequence = s.sequence.take (s.sequence.length - 1) ++
        s.sequence.drop (s.sequence.length - 1) := (List.take_append_drop _ _).symm
    rw [hsplit] at hw1
    obtain ⟨m, hm⟩ := walk_front _ _ _ _ hw1
    refine ⟨m, hm, walk_in_range hcl _ _ _ ?_ hm⟩
    simp [afterClose]
  · exact Ordinals_step _ _ hn hi.closed hi.ordinals rfl rfl rfl (Or.inl rfl)

theorem Inv_afterError {s : State} {node : Ptr} {nd : Node} (hi : Inv s)
    (hw : walk s.heap 0 s.sequence = .ok node) (hn : s.heap[node]? = some nd) :
    Inv (afterError s) := by
  have e : (afterError s).heap = s.heap.set node nd ++ [({} : Node)] := by
    rw [set_same hn]
    rfl
  refine ⟨?_, ?_, ?_⟩
  · rw [e]
    exact Closed_step _ _ hn hi.closed (fun c hc => Or.inl hc) rfl
  · refine ⟨node, walk_append _ hw, ?_⟩
    simp [afterError]
    exact Nat.lt_succ_of_lt (lt_of_get hn)
  · rw [e]
    exact Ordinals_step _ _ hn hi.closed hi.ordinals rfl rfl rfl (Or.inl rfl)

/-- A round of the loop that ends without a panic keeps the invariant. -/
theorem Inv_step {s s1 : State} {err err1 : GoError} {p : Pull} (hi : Inv s)
    (hs : iteration 0 s err p = .ok (Flow.next s1 err1)) : Inv s1 := by
  obtain ⟨node, nd, hw, hn, h⟩ := step_cases hi hs
  rcases h with ⟨_, _, e, _⟩ | ⟨_, e, _⟩ | ⟨_, _, _, e, _⟩ | ⟨_, e, _⟩
  · rw [e]; exact hi
  · rw [e]; exact Inv_afterError hi hw hn
  · rw [e]; exact Inv_afterClose p hi hw hn
  · rw [e]; exact Inv_afterInsert p hi hw hn

/-- Every state of the builder satisfies the invariant. -/
theorem Reachable_inv {s : State} (hr : Reachable s) : Inv s := by
  induction hr with
  | init => exact Inv_init
  | step _ hs ih => exact Inv_step ih hs

/-! ## Facts on the string functions and the attribute scan -/

theorem replaceFrom_other {c : Char} (hc : c ≠ ' ') (cs : List Char) :
    replaceFrom [' ', ' '] [' '] 0 (c :: cs) = c :: replaceFrom [' ', ' '] [' '] 0 cs := by
  have : List.isPrefixOf [' ', ' '] (c :: cs) = false := by
    simp [List.isPrefixOf, Ne.symm hc]
  simp [replaceFrom, this]

theorem replaceFrom_token : ∀ (t : List Char), (∀ c ∈ t, c ≠ ' ') → ∀ (x : List Char),
    replaceFrom [' ', ' '] [' '] 0 (t ++ x) = t ++ replaceFrom [' ', ' '] [' '] 0 x := by
  intro t
  induction t with
  | nil => intro _ x; rfl
  | cons c rest ih =>
    intro ht x
    rw [List.cons_append, replaceFrom_other (ht c (List.mem_cons_self _ _)), ih
      (fun d hd => ht d (List.mem_cons_of_mem _ hd))]
    rfl

theorem replaceFrom_single {c : Char} (hc : c ≠ ' ') (cs : List Char) :
    replaceFrom [' ', ' '] [' '] 0 (' ' :: c :: cs) =
      ' ' :: replaceFrom [' ', ' '] [' '] 0 (c :: cs) := by
  have : List.isPrefixOf [' ', ' '] (' ' :: c :: cs) = false := by
    simp [List.isPrefixOf, Ne.symm hc]
  simp [replaceFrom, this]

theorem replaceFrom_double (cs : List Char) :
    replaceFrom [' ', ' '] [' '] 0 (' ' :: ' ' :: cs) =
      ' ' :: replaceFrom [' ', ' '] [' '] 0 cs := by
  simp [replaceFrom, List.isPrefixOf]

theorem splitFrom_other {c : Char} (hc : c ≠ ' ') (cur cs : List Char) :
    splitFrom [' '] 0 cur (c :: cs) = splitFrom [' '] 0 (cur ++ [c]) cs := by
  have : List.isPrefixOf [' '] (c :: cs) = false := by
    simp [List.isPrefixOf, Ne.symm hc]
  simp [splitFrom, this]

theorem splitFrom_space (cur cs : List Char) :
    splitFrom [' '] 0 cur (' ' :: cs) = cur :: splitFrom [' '] 0 [] cs := by
  simp [splitFrom, List.isPrefixOf]

theorem splitFrom_token : ∀ (t : List Char), (∀ c ∈ t, c ≠ ' ') → ∀ (cur x : List Char),
    splitFrom [' '] 0 cur (t ++ x) = splitFrom [' '] 0 (cur ++ t) x := by
  intro t
  induction t with
  | nil => intro _ cur x; simp
  | cons c rest ih =>
    intro ht cur x
    rw [List.cons_append, splitFrom_other (ht c (List.mem_cons_self _ _)), ih
      (fun d hd => ht d (List.mem_cons_of_mem _ hd))]
    simp

/-- The pieces of a split on a space hold no space. -/
theorem splitFrom_no_space : ∀ (l cur : List Char), (∀ c ∈ cur, c ≠ ' ') →
    ∀ e ∈ splitFrom [' '] 0 cur l, ∀ c ∈ e, c ≠ ' ' := by
  intro l
  induction l with
  | nil =>
    intro cur hcur e he
    simp [splitFrom] at he
    rw [he]
    exact hcur
  | cons d rest ih =>
    intro cur hcur e he
    by_cases hd : d = ' '
    · subst hd
      rw [splitFrom_space] at he
      rcases List.mem_cons.mp he with h1 | h1
      · rw [h1]; exact hcur
      · exact ih [] (fun c hc => by cases hc) e h1
    · rw [splitFrom_other hd] at he
      refine ih (cur ++ [d]) ?_ e he
      intro c hc
      rcases List.mem_append.mp hc with h1 | h1
      · exact hcur c h1
      · simp at h1
        rw [h1]
        exact hd

theorem splitFrom_ne_nil (l cur : List Char) (k : Nat) : splitFrom [' '] k cur l ≠ [] := by
  induction l generalizing cur k with
  | nil => simp [splitFrom]
  | cons d rest ih =>
    cases k with
    | succ k => simp only [splitFrom]; exact ih _ _
    | zero =>
      simp only [splitFrom]
      split
      · simp
      · exact ih _ _

theorem lastVal_cons (key : String) (a : Attribute) (A : List Attribute) :
    lastVal key (a :: A) =
      match lastVal key A with
      | some v => some v
      | none => if a.Key = key then some a.Val else none := by
  unfold lastVal
  by_cases h : a.Key = key
  · rw [List.filter_cons_of_pos (by simpa using h)]
    cases hf : List.filter (fun a => decide (a.Key = key)) A with
    | nil => simp [h]
    | cons b l =>
      rw [List.getLast?_cons_cons]
      cases hg : (b :: l).getLast? with
      | none => simp at hg
      | some v => simp
  · rw [List.filter_cons_of_neg (by simpa using h)]
    cases hf : (List.filter (fun a => decide (a.Key = key)) A).getLast? with
    | none => simp [h]
    | some b => simp

theorem foldl_scanAttr_ID : ∀ (A : List Attribute) (c : Node),
    (A.foldl scanAttr c).ID = ((lastVal "id" A).getD c.ID) := by
  intro A
  induction A with
  | nil => intro c; simp [lastVal]
  | cons a rest ih =>
    intro c
    rw [List.foldl_cons, ih, lastVal_cons]
    cases hl : lastVal "id" rest with
    | some v => simp
    | none =>
      by_cases h1 : a.Key = "id" <;> by_cases h2 : a.Key = "class" <;>
        simp [scanAttr, h1, h2]

theorem foldl_scanAttr_Class : ∀ (A : List Attribute) (c : Node),
    (A.foldl scanAttr c).Class =
      match lastVal "class" A with
      | some v => Split (Replace v "  " " ") " "
      | none => c.Class := by
  intro A
  induction A with
  | nil => intro c; simp [lastVal]
  | cons a rest ih =>
    intro c
    rw [List.foldl_cons, ih, lastVal_cons]
    cases hl : lastVal "class" rest with
    | some v => simp
    | none =>
      by_cases h1 : a.Key = "id" <;> by_cases h2 : a.Key = "class" <;>
        simp [scanAttr, h1, h2]

theorem Split_space (s : String) :
    Split s " " = (splitFrom [' '] 0 [] s.data).map String.mk := by
  simp [Split]

theorem Replace_spaces (s : String) :
    Replace s "  " " " = ⟨replaceFrom [' ', ' '] [' '] 0 s.data⟩ := by
  simp [Replace]

theorem replaceFrom_tokens : ∀ (rest : List (Bool × String)), (∀ x ∈ rest, IsToken x.2) →
    replaceFrom [' ', ' '] [' '] 0
        (rest.flatMap (fun x => (if x.1 then [' ', ' '] else [' ']) ++ x.2.data)) =
      rest.flatMap (fun x => ' ' :: x.2.data) := by
  intro rest
  induction rest with
  | nil => intro _; rfl
  | cons x xs ih =>
    intro hx
    have htok : IsToken x.2 := hx x (List.mem_cons_self _ _)
    have hrest := ih (fun y hy => hx y (List.mem_cons_of_mem _ hy))
    obtain ⟨hne, hsp⟩ := htok
    rw [List.flatMap_cons, List.flatMap_cons]
    cases hd : x.2.data with
    | nil => exact absurd hd hne
    | cons c cs =>
      have hc : c ≠ ' ' := hsp c (by rw [hd]; exact List.mem_cons_self _ _)
      have hcs : ∀ d ∈ c :: cs, d ≠ ' ' := by rw [← hd]; exact hsp
      cases x.1 with
      | true =>
        simp only [if_true, List.cons_append, List.nil_append]
        rw [replaceFrom_double, ← List.cons_append, replaceFrom_token _ hcs, hrest]
        rfl
      | false =>
        simp only [Bool.false_eq_true, if_false, List.cons_append, List.nil_append]
        rw [replaceFrom_single hc, ← List.cons_append, replaceFrom_token _ hcs, hrest]
        rfl

theorem splitFrom_tokens : ∀ (rest : List (Bool × String)), (∀ x ∈ rest, IsToken x.2) →
    ∀ cur : List Char,
    splitFrom [' '] 0 cur (rest.flatMap (fun x => ' ' :: x.2.data)) =
      cur :: rest.map (fun x => x.2.data) := by
  intro rest
  induction rest with
  | nil => intro _ cur; rfl
  | cons x xs ih =>
    intro hx cur
    have htok : IsToken x.2 := hx x (List.mem_cons_self _ _)
    rw [List.flatMap_cons, List.cons_append, splitFrom_space, splitFrom_token _ htok.2,
      ih (fun y hy => hx y (List.mem_cons_of_mem _ hy))]
    simp

/-- The class list computed by lines 177-179 from a value made of tokens that
are one or two spaces apart is the list of the tokens. -/
theorem Split_Replace_classValue (first : String) (rest : List (Bool × String))
    (hf : IsToken first) (hr : ∀ x ∈ rest, IsToken x.2) :
    Split (Replace (classValue first rest) "  " " ") " " = first :: rest.map (fun x => x.2) := by
  rw [Replace_spaces, Split_space]
  simp only [classValue]
  rw [replaceFrom_token _ hf.2, replaceFrom_tokens rest hr, splitFrom_token _ hf.2,
    splitFrom_tokens rest hr]
  simp

/-! ## The node a round attaches -/

/-- A round on a token that attaches a node, in a state of the builder: the
round ends without a panic, the store has one more node, the new node is the
last child of the node the path leads to, and all other nodes are as before. -/
theorem round_attaches {s : State} (err : GoError) {p : Pull} (hr : Reachable s)
    (hp : attaches p) :
    ∃ (node : Ptr) (nd : Node), walk s.heap 0 s.sequence = .ok node ∧ s.heap[node]? = some nd ∧
      iteration 0 s err p = .ok (Flow.next (afterInsert s node nd p) err) ∧
      (afterInsert s node nd p).heap.length = s.heap.length + 1 ∧
      (afterInsert s node nd p).heap[s.heap.length]? = some (created s node nd p) ∧
      (afterInsert s node nd p).heap[node]? =
        some { nd with Children := nd.Children ++ [s.heap.length] } ∧
      (∀ a : Ptr, a ≠ node → a < s.heap.length →
        (afterInsert s node nd p).heap[a]? = s.heap[a]?) := by
  have hi := Reachable_inv hr
  obtain ⟨node, hw, hlt⟩ := hi.path
  obtain ⟨nd, hn⟩ : ∃ nd, s.heap[node]? = some nd := ⟨_, List.getElem?_eq_getElem hlt⟩
  refine ⟨node, nd, hw, hn, iteration_insert err hp hw hn (hi.closed node nd hn), ?_, ?_, ?_, ?_⟩
  · simp [afterInsert, attached]
  · have e : created s node nd p =
        { prep (passed p) (literal p) with
          Parent := some node
          Nth := (prep (passed p) (literal p)).Nth +
            (countTag s.heap nd.Children (prep (passed p) (literal p)).TagName + 1) } := by
      simp [created, prep_nth, literal_nth, prep_tag]
    rw [e]
    exact get_step_new s.heap node _ _
  · exact get_step_node _ _ hlt
  · intro a hne ha
    exact get_step_old _ _ hne ha

/-- In every state of the builder an end tag whose name differs from the tag
name of the open node ends the round with a nil dereference. -/
theorem end_tag_mismatch {s : State} (err : GoError) {p : Pull} {node : Ptr} {nd : Node}
    (hT : p.token.Typ = TokenType.EndTagToken) (hw : walk s.heap 0 s.sequence = .ok node)
    (hn : s.heap[node]? = some nd) (hne : nd.TagName ≠ p.token.Data) :
    iteration 0 s err p = .error Fault.nilDereference := by
  rw [iteration_end err hT hw hn]
  simp [hne]

theorem attaches_of_tag {p : Pull}
    (hT : p.token.Typ = TokenType.StartTagToken ∨ p.token.Typ = TokenType.SelfClosingTagToken) :
    attaches p := by
  unfold attaches
  rcases hT with h | h <;> rw [h] <;> trivial

theorem passed_void {p : Pull} (hT : p.token.Typ = TokenType.StartTagToken)
    (hv : p.token.Data ∈ voidNames) : passed p = TokenType.SelfClosingTagToken := by
  simp [passed, hT, hv]

theorem prep_close (tt : TokenType) (r : Node) : (prep tt r).Close = r.Close := by
  unfold prep
  split
  · exact (foldl_scanAttr_frame r.Attr r).2.2.2.2.2.2.2.1
  · rfl

theorem prep_typ (tt : TokenType) (r : Node) : (prep tt r).Typ = r.Typ := by
  unfold prep
  split
  · exact (foldl_scanAttr_frame r.Attr r).2.2.1
  · rfl

theorem prep_text (tt : TokenType) (r : Node) : (prep tt r).Text = r.Text := by
  unfold prep
  split
  · exact (foldl_scanAttr_frame r.Attr r).2.2.2.2.2.1
  · rfl

theorem prep_attr (tt : TokenType) (r : Node) : (prep tt r).Attr = r.Attr := by
  unfold prep
  split
  · exact (foldl_scanAttr_frame r.Attr r).2.2.2.2.2.2.1
  · rfl

theorem created_children (s : State) (node : Ptr) (nd : Node) (p : Pull) :
    (created s node nd p).Children = [] := by
  show (prep (passed p) (literal p)).Children = []
  rw [prep_children, literal_children]

theorem created_tag (s : State) (node : Ptr) (nd : Node) (p : Pull) :
    (created s node nd p).TagName = (literal p).TagName := by
  show (prep (passed p) (literal p)).TagName = _
  rw [prep_tag]

theorem lastVal_eq_none_iff (key : String) (A : List Attribute) :
    lastVal key A = none ↔ ∀ a ∈ A, a.Key ≠ key := by
  unfold lastVal
  rw [Option.map_eq_none', List.getLast?_eq_none_iff, List.filter_eq_nil_iff]
  simp

theorem passed_of_tag {p : Pull}
    (hT : p.token.Typ = TokenType.StartTagToken ∨ p.token.Typ = TokenType.SelfClosingTagToken) :
    passed p = TokenType.StartTagToken ∨ passed p = TokenType.SelfClosingTagToken := by
  unfold passed
  rcases hT with h | h
  · rw [h]
    simp only []
    split
    · exact Or.inr rfl
    · exact Or.inl rfl
  · rw [h]
    exact Or.inr rfl

theorem literal_of_tag {p : Pull}
    (hT : p.token.Typ = TokenType.StartTagToken ∨ p.token.Typ = TokenType.SelfClosingTagToken) :
    (literal p).Typ = NodeType.ElementNode ∧ (literal p).TagName = p.token.Data ∧
    (literal p).Attr = p.token.Attr ∧ (literal p).ID = "" ∧ (literal p).Class = [] := by
  unfold literal
  rcases hT with h | h <;> rw [h] <;> exact ⟨rfl, rfl, rfl, rfl, rfl⟩

/-- The element node a tag token creates: its tag name and attributes are the
token's, its `ID` is the value of the last `id` attribute and its `Class` is
computed from the value of the last `class` attribute. -/
theorem created_of_tag (s : State) (node : Ptr) (nd : Node) {p : Pull}
    (hT : p.token.Typ = TokenType.StartTagToken ∨ p.token.Typ = TokenType.SelfClosingTagToken) :
    (created s node nd p).Typ = NodeType.ElementNode ∧
    (created s node nd p).TagName = p.token.Data ∧
    (created s node nd p).Attr = p.token.Attr ∧
    (created s node nd p).ID = (lastVal "id" p.token.Attr).getD "" ∧
    (created s node nd p).Class =
      match lastVal "class" p.token.Attr with
      | some v => Split (Replace v "  " " ") " "
      | none => [] := by
  obtain ⟨l1, l2, l3, l4, l5⟩ := literal_of_tag hT
  have hprep : prep (passed p) (literal p) = (literal p).Attr.foldl scanAttr (literal p) := by
    unfold prep
    rw [if_pos (passed_of_tag hT)]
  refine ⟨?_, ?_, ?_, ?_, ?_⟩
  · show (prep (passed p) (literal p)).Typ = _
    rw [prep_typ, l1]
  · show (prep (passed p) (literal p)).TagName = _
    rw [prep_tag, l2]
  · show (prep (passed p) (literal p)).Attr = _
    rw [prep_attr, l3]
  · show (prep (passed p) (literal p)).ID = _
    rw [hprep, foldl_scanAttr_ID, l3, l4]
  · show (prep (passed p) (literal p)).Class = _
    rw [hprep, foldl_scanAttr_Class, l3]
    cases lastVal "class" p.token.Attr with
    | none => exact l5
    | some v => rfl

theorem whitespace_chars (c : Char) : whitespace.data.contains c = true ↔ c ∈ wsChars := by
  have e : whitespace.data = wsChars := by decide
  rw [e]
  simp

theorem dropWhile_head {f : Char → Bool} : ∀ (l : List Char) (x : Char) (rest : List Char),
    l.dropWhile f = x :: rest → f x = false := by
  intro l
  induction l with
  | nil => intro x rest h; cases h
  | cons a t ih =>
    intro x rest h
    by_cases ha : f a = true
    · rw [List.dropWhile_cons_of_pos ha] at h
      exact ih x rest h
    · rw [List.dropWhile_cons_of_neg ha] at h
      injection h with h1 _
      rw [← h1]
      simpa using ha

/-! ## Runs of rounds, and the end of `parse` -/

theorem ParseHtml_eq (r : List Pull) :
    ParseHtml r =
      match parseLoop 0 r initState GoError.nil with
      | .error f => .error f
      | .ok (s, err) =>
        if err ≠ GoError.nil then .ok (none, err)
        else .ok (some (s.heap, 0), GoError.nil) := by
  rfl

theorem Runs_reachable {s s1 : State} {pre : List Pull} (h : Runs s pre s1)
    (hr : Reachable s) : Reachable s1 := by
  induction h with
  | nil _ => exact hr
  | cons _ hit _ ih => exact ih (Reachable.step hr hit)

theorem parseLoop_runs {s s1 : State} {pre : List Pull} (h : Runs s pre s1)
    (post : List Pull) :
    parseLoop 0 (pre ++ post) s GoError.nil = parseLoop 0 post s1 GoError.nil := by
  induction h with
  | nil _ => rfl
  | cons _ hit _ ih =>
    rw [List.cons_append]
    conv_lhs => unfold parseLoop
    simp only [hit]
    rw [← ih]
    simp

/-- When the rounds on the tokens before the first Error token end without a
panic and that token carries a genuine error, `ParseHtml` returns a nil node
and this error. -/
theorem parse_genuine_error {pre : List Pull} {s : State} (h : Runs initState pre s)
    (msg : String) (post : List Pull) :
    ParseHtml (pre ++ errorToken (GoError.other msg) :: post) =
      .ok (none, GoError.other msg) := by
  obtain ⟨node, hw, _⟩ := (Reachable_inv (Runs_reachable h Reachable.init)).path
  have hit : iteration 0 s GoError.nil (errorToken (GoError.other msg)) =
      .ok (Flow.ret (GoError.other msg)) := by
    rw [@iteration_error s node GoError.nil (errorToken (GoError.other msg)) rfl hw]
    simp [errorToken]
  rw [ParseHtml_eq, parseLoop_runs h]
  unfold parseLoop
  simp [hit]

/-- When the rounds on the tokens before the first Error token end without a
panic and that token carries `io.EOF`, `ParseHtml` returns the Document and a
nil error. -/
theorem parse_end_of_stream {pre : List Pull} {s : State} (h : Runs initState pre s)
    (post : List Pull) :
    ParseHtml (pre ++ errorToken GoError.EOF :: post) =
      .ok (some (s.heap ++ [({} : Node)], 0), GoError.nil) := by
  obtain ⟨node, hw, _⟩ := (Reachable_inv (Runs_reachable h Reachable.init)).path
  have hit : iteration 0 s GoError.nil (errorToken GoError.EOF) =
      .ok (Flow.next ⟨s.heap ++ [({} : Node)], s.sequence⟩ GoError.EOF) := by
    rw [@iteration_error s node GoError.nil (errorToken GoError.EOF) rfl hw]
    simp [errorToken]
  rw [ParseHtml_eq, parseLoop_runs h]
  unfold parseLoop
  simp only [hit]
  cases post <;> simp [parseLoop]

/-! ## Well-formed token sequences -/

theorem Stable_refl (h : Heap) : Stable h h :=
  fun _ n hn => ⟨n, hn, List.prefix_refl _, rfl, rfl, fun e => e⟩

theorem Stable_trans {h h1 h2 : Heap} (h01 : Stable h h1) (h12 : Stable h1 h2) :
    Stable h h2 := by
  intro a n hn
  obtain ⟨n1, g1, p1, t1, y1, c1⟩ := h01 a n hn
  obtain ⟨n2, g2, p2, t2, y2, c2⟩ := h12 a n1 g1
  exact ⟨n2, g2, List.IsPrefix.trans p1 p2, t2.trans t1, y2.trans y1, fun e => c2 (c1 e)⟩

theorem Stable_length {h h1 : Heap} (hs : Stable h h1) : h.length ≤ h1.length := by
  by_contra hcon
  have hlt : h1.length < h.length := Nat.lt_of_not_le hcon
  obtain ⟨n1, g1, _⟩ := hs h1.length _ (List.getElem?_eq_getElem hlt)
  exact absurd (lt_of_get g1) (Nat.lt_irrefl _)

theorem Stable_set_append {h : Heap} {node : Ptr} {nd : Node} (nd1 x : Node)
    (hn : h[node]? = some nd) (hpre : nd.Children <+: nd1.Children)
    (htag : nd1.TagName = nd.TagName) (htyp : nd1.Typ = nd.Typ)
    (hcl : nd.Close = true → nd1.Close = true) : Stable h (h.set node nd1 ++ [x]) := by
  intro a n ha
  by_cases e : a = node
  · subst e
    rw [hn] at ha
    rw [← Option.some.inj ha]
    exact ⟨nd1, get_step_node _ _ (lt_of_get hn), hpre, htag, htyp, hcl⟩
  · refine ⟨n, ?_, List.prefix_refl _, rfl, rfl, fun e => e⟩
    rw [get_step_old _ _ e (lt_of_get ha), ha]

theorem walk_stable {h h1 : Heap} (hs : Stable h h1) {seq : List Nat} {a m : Ptr}
    (hw : walk h a seq = .ok m) : walk h1 a seq = .ok m := by
  refine walk_mono ?_ seq a m hw
  intro b n hb
  obtain ⟨n1, g1, p1, _⟩ := hs b n hb
  exact ⟨n1, g1, p1⟩

theorem Runs_append {s s1 s2 : State} {l1 l2 : List Pull} (h1 : Runs s l1 s1)
    (h2 : Runs s1 l2 s2) : Runs s (l1 ++ l2) s2 := by
  induction h1 with
  | nil _ => exact h2
  | cons hne hit _ ih => exact Runs.cons hne hit (ih h2)

theorem passed_leaf {p : Pull}
    (hT : p.token.Typ = TokenType.TextToken ∨ p.token.Typ = TokenType.CommentToken ∨
      p.token.Typ = TokenType.DoctypeToken ∨ p.token.Typ = TokenType.SelfClosingTagToken) :
    passed p = p.token.Typ ∧ p.token.Typ ≠ TokenType.StartTagToken ∧
      p.token.Typ ≠ TokenType.ErrorToken ∧
      ((literal p).Typ = NodeType.ElementNode → (literal p).Close = true) := by
  unfold passed literal
  rcases hT with h | h | h | h <;> rw [h] <;> simp

theorem created_typ (s : State) (node : Ptr) (nd : Node) (p : Pull) :
    (created s node nd p).Typ = (literal p).Typ := by
  show (prep (passed p) (literal p)).Typ = _
  rw [prep_typ]

theorem created_close (s : State) (node : Ptr) (nd : Node) (p : Pull) :
    (created s node nd p).Close = (literal p).Close := by
  show (prep (passed p) (literal p)).Close = _
  rw [prep_close]

theorem Stable_afterInsert {s : State} {node : Ptr} {nd : Node} (p : Pull)
    (hn : s.heap[node]? = some nd) : Stable s.heap (afterInsert s node nd p).heap :=
  Stable_set_append _ _ hn (List.prefix_append _ _) rfl rfl (fun e => e)

theorem Stable_afterClose {s : State} {node : Ptr} {nd : Node} (p : Pull)
    (hn : s.heap[node]? = some nd) : Stable s.heap (afterClose s node nd p).heap :=
  Stable_set_append _ _ hn (List.prefix_refl _) rfl rfl (fun _ => rfl)

/-- After a round on a start tag that is pushed, the path leads to the new node. -/
theorem walk_afterInsert_push {s : State} {node : Ptr} {nd : Node} {p : Pull}
    (hw : walk s.heap 0 s.sequence = .ok node) (hn : s.heap[node]? = some nd)
    (hpass : passed p = TokenType.StartTagToken) :
    (afterInsert s node nd p).sequence = s.sequence ++ [nd.Children.length] ∧
    walk (afterInsert s node nd p).heap 0 (afterInsert s node nd p).sequence =
      .ok s.heap.length := by
  have hseq : (afterInsert s node nd p).sequence = s.sequence ++ [nd.Children.length] := by
    simp [afterInsert, pushed, hpass]
  refine ⟨hseq, ?_⟩
  have hw1 : walk (afterInsert s node nd p).heap 0 s.sequence = .ok node :=
    walk_step _ _ hn (List.prefix_append _ _) hw
  rw [hseq, walk_concat _ _ _ _ hw1]
  unfold walk
  have hg : (afterInsert s node nd p).heap[node]? =
      some { nd with Children := nd.Children ++ [s.heap.length] } :=
    get_step_node _ _ (lt_of_get hn)
  rw [load_of_get hg]
  simp [walk]

/-- From any state of the builder, the rounds on a well-formed sequence without
a void start tag all end without a panic; they give the path back as it was,
and every Element node they add is closed. -/
theorem wellformed_runs {toks : List Pull} (hwf : WellFormed toks) :
    (∀ p ∈ toks, p.token.Typ = TokenType.StartTagToken → p.token.Data ∉ voidNames) →
    ∀ s : State, Reachable s →
      ∃ s1 : State, Runs s toks s1 ∧ s1.sequence = s.sequence ∧ Stable s.heap s1.heap ∧
        ClosedFrom s.heap.length s1.heap := by
  induction hwf with
  | nil =>
    intro _ s _
    exact ⟨s, Runs.nil s, rfl, Stable_refl _, fun a n ha hk _ =>
      absurd (lt_of_get ha) (Nat.not_lt_of_le hk)⟩
  | @leaf p rest hT _ ih =>
    intro hnv s hr
    obtain ⟨hpass, hns, hne, hcl⟩ := passed_leaf hT
    have hnv1 : ∀ q ∈ rest, q.token.Typ = TokenType.StartTagToken → q.token.Data ∉ voidNames :=
      fun q hq => hnv q (List.mem_cons_of_mem _ hq)
    by_cases hp : attaches p
    · obtain ⟨node, nd, _, hn, hit, hlen, hnew, _, _⟩ := round_attaches GoError.nil hr hp
      have hr1 : Reachable (afterInsert s node nd p) := Reachable.step hr hit
      obtain ⟨s2, hruns, hseq, hst, hcf⟩ := ih hnv1 _ hr1
      have hseq1 : (afterInsert s node nd p).sequence = s.sequence := by
        have : ¬ passed p = TokenType.StartTagToken := by rw [hpass]; exact hns
        simp [afterInsert, pushed, this]
      have hst1 := Stable_afterInsert p hn
      refine ⟨s2, Runs.cons hne hit hruns, hseq.trans hseq1, Stable_trans hst1 hst, ?_⟩
      intro a n ha hk hty
      by_cases hka : a = s.heap.length
      · subst hka
        obtain ⟨n1, g1, _, _, y1, c1⟩ := hst _ _ hnew
        rw [ha] at g1
        have en : n1 = n := (Option.some.inj g1).symm
        subst en
        rw [created_typ] at y1
        rw [created_close] at c1
        exact c1 (hcl (y1.symm.trans hty))
      · refine hcf a n ha ?_ hty
        rw [hlen]
        exact Nat.succ_le_of_lt (Nat.lt_of_le_of_ne hk (Ne.symm hka))
    · have hTx : p.token.Typ = TokenType.TextToken := by
        unfold attaches at hp
        rcases hT with h | h | h | h
        · exact h
        · rw [h] at hp; exact absurd trivial hp
        · rw [h] at hp; exact absurd trivial hp
        · rw [h] at hp; exact absurd trivial hp
      have he : (trimmed p).length = 0 := by
        unfold attaches at hp
        rw [hTx] at hp
        exact Classical.not_not.mp hp
      obtain ⟨s2, hruns, hseq, hst, hcf⟩ := ih hnv1 s hr
      exact ⟨s2, Runs.cons hne (iteration_skip s GoError.nil hTx he) hruns, hseq, hst, hcf⟩
  | @nest o c inner rest ho hc hname _ _ ihInner ihRest =>
    intro hnv s hr
    have hnvo : o.token.Data ∉ voidNames := hnv o (List.mem_cons_self _ _) ho
    have hnvI : ∀ q ∈ inner, q.token.Typ = TokenType.StartTagToken →
        q.token.Data ∉ voidNames :=
      fun q hq => hnv q (List.mem_cons_of_mem _ (List.mem_append_left _ hq))
    have hnvR : ∀ q ∈ rest, q.token.Typ = TokenType.StartTagToken →
        q.token.Data ∉ voidNames :=
      fun q hq => hnv q (List.mem_cons_of_mem _
        (List.mem_append_right _ (List.mem_cons_of_mem _ hq)))
    -- the start tag
    have hpo : attaches o := attaches_of_tag (Or.inl ho)
    obtain ⟨node, nd, hw, hn, hit, hlen, hnew, _, _⟩ := round_attaches GoError.nil hr hpo
    have hpass : passed o = TokenType.StartTagToken := by simp [passed, ho, hnvo]
    obtain ⟨hseq1, hw1⟩ := walk_afterInsert_push hw hn hpass
    have hr1 : Reachable (afterInsert s node nd o) := Reachable.step hr hit
    have hst1 := Stable_afterInsert o hn
    -- the inner sequence
    obtain ⟨s2, hruns2, hseq2, hst2, hcf2⟩ := ihInner hnvI _ hr1
    have hr2 : Reachable s2 := Runs_reachable hruns2 hr1
    -- the end tag
    obtain ⟨n2, g2, _, t2, _, _⟩ := hst2 _ _ hnew
    have hw2 : walk s2.heap 0 s2.sequence = .ok s.heap.length := by
      rw [hseq2]
      exact walk_stable hst2 hw1
    have htag : n2.TagName = c.token.Data := by
      rw [t2, created_tag, hname]
      simp [literal, ho]
    have hne2 : ¬ s2.sequence.length = 0 := by
      rw [hseq2, hseq1]
      simp
    have hit3 : iteration 0 s2 GoError.nil c =
        .ok (Flow.next (afterClose s2 s.heap.length n2 c) GoError.nil) := by
      rw [iteration_end GoError.nil hc hw2 g2]
      simp [htag, hne2, afterClose]
    have hr3 : Reachable (afterClose s2 s.heap.length n2 c) := Reachable.step hr2 hit3
    have hst3 := Stable_afterClose c g2
    have hseq3 : (afterClose s2 s.heap.length n2 c).sequence = s.sequence := by
      show s2.sequence.take (s2.sequence.length - 1) = s.sequence
      rw [hseq2, hseq1]
      simp
    -- the rest
    obtain ⟨s4, hruns4, hseq4, hst4, hcf4⟩ := ihRest hnvR _ hr3
    have hce : c.token.Typ ≠ TokenType.ErrorToken := by rw [hc]; decide
    have hoe : o.token.Typ ≠ TokenType.ErrorToken := by rw [ho]; decide
    refine ⟨s4, ?_, hseq4.trans hseq3,
      Stable_trans hst1 (Stable_trans hst2 (Stable_trans hst3 hst4)), ?_⟩
    · exact Runs.cons hoe hit (Runs_append hruns2 (Runs.cons hce hit3 hruns4))
    · intro a n ha hk hty
      by_cases hlt : a < (afterClose s2 s.heap.length n2 c).heap.length
      · -- an address of the store after the end tag: closed there, and it stays so
        obtain ⟨n3, g3⟩ : ∃ n3, (afterClose s2 s.heap.length n2 c).heap[a]? = some n3 :=
          ⟨_, List.getElem?_eq_getElem hlt⟩
        obtain ⟨n4, g4, _, _, y4, c4⟩ := hst4 a n3 g3
        rw [ha] at g4
        have en : n4 = n := (Option.some.inj g4).symm
        subst en
        apply c4
        rcases get_step_cases g3 with ⟨_, e, _⟩ | ⟨hne3, e⟩ | ⟨_, e⟩
        · rw [e]
        · have hgt : (afterInsert s node nd o).heap.length ≤ a := by
            rw [hlen]
            exact Nat.succ_le_of_lt (Nat.lt_of_le_of_ne hk (Ne.symm hne3))
          exact hcf2 a n3 e hgt (y4.symm.trans hty)
        · rw [e] at y4
          have hErr : n4.Typ = NodeType.ErrorNode := y4
          rw [hErr] at hty
          cases hty
      · exact hcf4 a n ha (Nat.le_of_not_lt hlt) hty

/-- On a well-formed token sequence without a void start tag, followed by
end-of-stream, the build succeeds, the path is empty when end-of-stream is
reached, and every Element node of the returned tree is closed. -/
theorem wellformed_build {toks : List Pull} (hwf : WellFormed toks)
    (hnv : ∀ p ∈ toks, p.token.Typ = TokenType.StartTagToken → p.token.Data ∉ voidNames) :
    ∃ s : State, Runs initState toks s ∧ s.sequence = [] ∧
      ParseHtml (toks ++ [errorToken GoError.EOF]) =
        .ok (some (s.heap ++ [({} : Node)], 0), GoError.nil) ∧
      ∀ (a : Ptr) (n : Node), (s.heap ++ [({} : Node)])[a]? = some n →
        n.Typ = NodeType.ElementNode → n.Close = true := by
  obtain ⟨s, hruns, hseq, hst, hcf⟩ := wellformed_runs hwf hnv initState Reachable.init
  refine ⟨s, hruns, hseq, parse_end_of_stream hruns [], ?_⟩
  intro a n ha hty
  have e : s.heap ++ [({} : Node)] = s.heap.set 0 (s.heap.getD 0 {}) ++ [({} : Node)] := by
    congr 1
    apply List.ext_getElem?
    intro i
    by_cases hi : 0 = i
    · subst hi
      rw [List.getElem?_set_self']
      cases hs : s.heap[0]? with
      | none => simp
      | some v => simp [List.getD, hs]
    · rw [List.getElem?_set_ne hi]
  obtain ⟨d, gd, _, _, yd, _⟩ := hst 0 _ (rfl : initState.heap[0]? = some _)
  rw [e] at ha
  rcases get_step_cases ha with ⟨e0, en, _⟩ | ⟨_, g⟩ | ⟨_, en⟩
  · subst e0
    have : s.heap.getD 0 {} = d := by simp [List.getD, gd]
    rw [en, this, yd] at hty
    cases hty
  · rename_i hne0
    exact hcf a n g (Nat.one_le_iff_ne_zero.mpr hne0) hty
  · rw [en] at hty
    cases hty

/-! ## The tree, its pre-order listing and the tokens pulled -/

theorem childrenOf_get {h : Heap} {a : Ptr} {n : Node} (ha : h[a]? = some n) :
    childrenOf h a = n.Children := by
  simp [childrenOf, ha]

theorem walk_cons_iff {h : Heap} {a m : Ptr} {k : Nat} {rest : List Nat} :
    walk h a (k :: rest) = .ok m ↔
      ∃ c : Ptr, (childrenOf h a)[k]? = some c ∧ walk h c rest = .ok m := by
  constructor
  · intro hw
    unfold walk at hw
    split at hw
    · cases hw
    · rename_i nd hl
      split at hw
      · rename_i c hc
        exact ⟨c, by rw [childrenOf_get (get_of_load hl)]; exact hc, hw⟩
      · cases hw
  · rintro ⟨c, hc, hw⟩
    cases hg : h[a]? with
    | none => simp [childrenOf, hg] at hc
    | some nd =>
      rw [childrenOf_get hg] at hc
      unfold walk
      rw [load_of_get hg]
      simp only [hc]
      exact hw

theorem walk_le {h : Heap} (hinc : Increasing h) : ∀ (seq : List Nat) (a m : Ptr),
    walk h a seq = .ok m → a ≤ m := by
  intro seq
  induction seq with
  | nil =>
    intro a m hw
    simp [walk] at hw
    exact Nat.le_of_eq hw
  | cons k rest ih =>
    intro a m hw
    obtain ⟨c, hc, hw1⟩ := walk_cons_iff.mp hw
    cases hg : h[a]? with
    | none => simp [childrenOf, hg] at hc
    | some nd =>
      rw [childrenOf_get hg] at hc
      exact Nat.le_of_lt (Nat.lt_of_lt_of_le (hinc a nd hg c (List.getElem?_mem hc)) (ih c m hw1))

theorem walk_lt {h : Heap} (hinc : Increasing h) {k : Nat} {rest : List Nat} {a m : Ptr}
    (hw : walk h a (k :: rest) = .ok m) : a < m := by
  obtain ⟨c, hc, hw1⟩ := walk_cons_iff.mp hw
  cases hg : h[a]? with
  | none => simp [childrenOf, hg] at hc
  | some nd =>
    rw [childrenOf_get hg] at hc
    exact Nat.lt_of_lt_of_le (hinc a nd hg c (List.getElem?_mem hc)) (walk_le hinc rest c m hw1)

/-- The walk to a node reads the children of smaller addresses only. -/
theorem walk_agree {h h1 : Heap} (hinc : Increasing h) {node : Ptr}
    (hag : ∀ b : Ptr, b < node → childrenOf h1 b = childrenOf h b) :
    ∀ (seq : List Nat) (a : Ptr), walk h a seq = .ok node →
      walk h1 a seq = .ok node ∧ pathNodes h1 a seq = pathNodes h a seq ∧
        (Spine h a seq → Spine h1 a seq) := by
  intro seq
  induction seq with
  | nil =>
    intro a hw
    exact ⟨by simpa [walk] using hw, rfl, fun _ => trivial⟩
  | cons k rest ih =>
    intro a hw
    have hlt := walk_lt hinc hw
    obtain ⟨c, hc, hw1⟩ := walk_cons_iff.mp hw
    obtain ⟨i1, i2, i3⟩ := ih c hw1
    have hc1 : (childrenOf h1 a)[k]? = some c := by rw [hag a hlt]; exact hc
    refine ⟨walk_cons_iff.mpr ⟨c, hc1, i1⟩, ?_, ?_⟩
    · simp only [pathNodes, hc1, hc, i2]
    · rintro ⟨c2, hc2, hk, hsp⟩
      rw [hc] at hc2
      have e : c = c2 := Option.some.inj hc2
      subst e
      exact ⟨c, hc1, by rw [hag a hlt]; exact hk, i3 hsp⟩

theorem pathNodes_cons {h : Heap} {a c : Ptr} {k : Nat} (rest : List Nat)
    (hc : (childrenOf h a)[k]? = some c) :
    pathNodes h a (k :: rest) = c :: pathNodes h c rest := by
  simp only [pathNodes, hc]

theorem pathNodes_concat {h : Heap} : ∀ (seq : List Nat) (a node : Ptr) (k : Nat),
    walk h a seq = .ok node →
    pathNodes h a (seq ++ [k]) = pathNodes h a seq ++ pathNodes h node [k] := by
  intro seq
  induction seq with
  | nil =>
    intro a node k hw
    simp [walk] at hw
    subst hw
    simp [pathNodes]
  | cons i rest ih =>
    intro a node k hw
    obtain ⟨c, hc, hw1⟩ := walk_cons_iff.mp hw
    rw [List.cons_append, pathNodes_cons _ hc, pathNodes_cons _ hc, ih c node k hw1]
    rfl

theorem Spine_concat {h : Heap} : ∀ (seq : List Nat) (a node : Ptr) (k : Nat),
    walk h a seq = .ok node →
    (Spine h a (seq ++ [k]) ↔ Spine h a seq ∧ Spine h node [k]) := by
  intro seq
  induction seq with
  | nil =>
    intro a node k hw
    simp [walk] at hw
    subst hw
    simp [Spine]
  | cons i rest ih =>
    intro a node k hw
    obtain ⟨c, hc, hw1⟩ := walk_cons_iff.mp hw
    simp only [List.cons_append, Spine]
    constructor
    · rintro ⟨c2, hc2, hk, hsp⟩
      rw [hc] at hc2
      have e : c = c2 := Option.some.inj hc2
      subst e
      obtain ⟨s1, s2⟩ := (ih c node k hw1).mp hsp
      exact ⟨⟨c, hc, hk, s1⟩, s2⟩
    · rintro ⟨⟨c2, hc2, hk, hsp⟩, s2⟩
      rw [hc] at hc2
      have e : c = c2 := Option.some.inj hc2
      subst e
      exact ⟨c, hc, hk, (ih c node k hw1).mpr ⟨hsp, s2⟩⟩

/-- The nodes on the path lie between its start and its end. -/
theorem pathNodes_bounds {h : Heap} (hinc : Increasing h) : ∀ (seq : List Nat) (a m : Ptr),
    walk h a seq = .ok m → ∀ x ∈ pathNodes h a seq, a < x ∧ x ≤ m := by
  intro seq
  induction seq with
  | nil => intro a m _ x hx; simp [pathNodes] at hx
  | cons k rest ih =>
    intro a m hw x hx
    obtain ⟨c, hc, hw1⟩ := walk_cons_iff.mp hw
    simp only [pathNodes, hc] at hx
    have hac : a < c := by
      cases hg : h[a]? with
      | none => simp [childrenOf, hg] at hc
      | some nd =>
        rw [childrenOf_get hg] at hc
        exact hinc a nd hg c (List.getElem?_mem hc)
    rcases List.mem_cons.mp hx with e | hx1
    · rw [e]
      exact ⟨hac, walk_le hinc rest c m hw1⟩
    · obtain ⟨b1, b2⟩ := ih c m hw1 x hx1
      exact ⟨Nat.lt_trans hac b1, b2⟩

/-- Popping the last index of a path that leads somewhere. -/
theorem walk_pop {h : Heap} {seq : List Nat} {a node : Ptr} (hne : seq ≠ [])
    (hw : walk h a seq = .ok node) :
    ∃ (m : Ptr) (k : Nat), seq = seq.take (seq.length - 1) ++ [k] ∧
      walk h a (seq.take (seq.length - 1)) = .ok m ∧ (childrenOf h m)[k]? = some node := by
  have hsplit : seq = seq.take (seq.length - 1) ++ [seq.getLast hne] := by
    rw [← List.dropLast_eq_take]
    exact (List.dropLast_append_getLast hne).symm
  have hw0 := hw
  rw [hsplit] at hw
  obtain ⟨m, hm⟩ := walk_front _ _ _ _ hw
  rw [walk_concat _ _ _ _ hm] at hw
  obtain ⟨c, hc, hw1⟩ := walk_cons_iff.mp hw
  simp [walk] at hw1
  subst hw1
  exact ⟨m, seq.getLast hne, hsplit, hm, hc⟩

theorem Change.kids_mem {h : Heap} {node : Ptr} {nd nd1 x : Node}
    (ch : Change h node nd nd1 x) : ∀ c ∈ nd1.Children, c ∈ nd.Children ∨ c = h.length := by
  intro c hc
  rcases ch.kids with ⟨e, _⟩ | ⟨e, _⟩
  · rw [e] at hc; exact Or.inl hc
  · rw [e] at hc
    rcases List.mem_append.mp hc with h1 | h1
    · exact Or.inl h1
    · right; simpa using h1

theorem Change.kids_sub {h : Heap} {node : Ptr} {nd nd1 x : Node}
    (ch : Change h node nd nd1 x) : ∀ c ∈ nd.Children, c ∈ nd1.Children := by
  intro c hc
  rcases ch.kids with ⟨e, _⟩ | ⟨e, _⟩
  · rw [e]; exact hc
  · rw [e]; exact List.mem_append_left _ hc

theorem Change.kids_prefix {h : Heap} {node : Ptr} {nd nd1 x : Node}
    (ch : Change h node nd nd1 x) : nd.Children <+: nd1.Children := by
  rcases ch.kids with ⟨e, _⟩ | ⟨e, _⟩
  · rw [e]
  · rw [e]; exact List.prefix_append _ _

theorem Change.closed {h : Heap} {node : Ptr} {nd nd1 x : Node}
    (ch : Change h node nd nd1 x) (hcl : Closed h) : Closed (h.set node nd1 ++ [x]) :=
  Closed_step nd1 x ch.hn hcl ch.kids_mem ch.xkids

theorem Change.increasing {h : Heap} {node : Ptr} {nd nd1 x : Node}
    (ch : Change h node nd nd1 x) (hinc : Increasing h) :
    Increasing (h.set node nd1 ++ [x]) := by
  intro a n hg c hc
  rcases get_step_cases hg with ⟨ea, e, _⟩ | ⟨_, e⟩ | ⟨_, e⟩
  · subst e
    rcases ch.kids_mem c hc with h1 | h1
    · rw [ea]; exact hinc node nd ch.hn c h1
    · rw [h1, ea]; exact lt_of_get ch.hn
  · exact hinc a n e c hc
  · subst e
    rw [ch.xkids] at hc
    cases hc

theorem Change.sorted {h : Heap} {node : Ptr} {nd nd1 x : Node}
    (ch : Change h node nd nd1 x) (hcl : Closed h) (hso : SortedKids h) :
    SortedKids (h.set node nd1 ++ [x]) := by
  intro a n hg
  rcases get_step_cases hg with ⟨_, e, _⟩ | ⟨_, e⟩ | ⟨_, e⟩
  · subst e
    rcases ch.kids with ⟨e1, _⟩ | ⟨e1, _⟩
    · rw [e1]; exact hso node nd ch.hn
    · rw [e1, List.pairwise_append]
      refine ⟨hso node nd ch.hn, List.pairwise_singleton _ _, ?_⟩
      intro c hc d hd
      simp at hd
      rw [hd]
      exact hcl node nd ch.hn c hc
  · exact hso a n e
  · subst e
    rw [ch.xkids]
    exact List.Pairwise.nil

theorem Change.linksDown {h : Heap} {node : Ptr} {nd nd1 x : Node}
    (ch : Change h node nd nd1 x) (hd : LinksDown h) :
    LinksDown (h.set node nd1 ++ [x]) := by
  have old : ∀ (a : Ptr) (n : Node) (c : Ptr), h[a]? = some n → c ∈ n.Children →
      ∃ cn : Node, (h.set node nd1 ++ [x])[c]? = some cn ∧ cn.Parent = some a := by
    intro a n c ha hc
    obtain ⟨cn, g, hp⟩ := hd a n ha c hc
    by_cases e : c = node
    · subst e
      rw [ch.hn] at g
      have : nd = cn := Option.some.inj g
      subst this
      exact ⟨nd1, get_step_node _ _ (lt_of_get ch.hn), ch.parent.trans hp⟩
    · exact ⟨cn, by rw [get_step_old _ _ e (lt_of_get g)]; exact g, hp⟩
  intro a n hg c hc
  rcases get_step_cases hg with ⟨ea, e, _⟩ | ⟨_, e⟩ | ⟨_, e⟩
  · subst e
    rcases ch.kids with ⟨e1, _⟩ | ⟨e1, e2, _⟩
    · rw [e1] at hc
      rw [ea]
      exact old node nd c ch.hn hc
    · rw [e1] at hc
      rcases List.mem_append.mp hc with h1 | h1
      · rw [ea]
        exact old node nd c ch.hn h1
      · simp at h1
        rw [h1, ea]
        exact ⟨x, get_step_new _ _ _ _, e2⟩
  · exact old a n c e hc
  · subst e
    rw [ch.xkids] at hc
    cases hc

theorem Change.linksUp {h : Heap} {node : Ptr} {nd nd1 x : Node}
    (ch : Change h node nd nd1 x) (hu : LinksUp h) :
    LinksUp (h.set node nd1 ++ [x]) := by
  have old : ∀ (c : Ptr) (cn : Node) (p : Ptr), h[c]? = some cn → cn.Parent = some p →
      ∃ pn : Node, (h.set node nd1 ++ [x])[p]? = some pn ∧ c ∈ pn.Children := by
    intro c cn p hc hp
    obtain ⟨pn, g, hm⟩ := hu c cn p hc hp
    by_cases e : p = node
    · subst e
      rw [ch.hn] at g
      have : nd = pn := Option.some.inj g
      subst this
      exact ⟨nd1, get_step_node _ _ (lt_of_get ch.hn), ch.kids_sub c hm⟩
    · exact ⟨pn, by rw [get_step_old _ _ e (lt_of_get g)]; exact g, hm⟩
  intro c cn p hg hp
  rcases get_step_cases hg with ⟨ea, e, _⟩ | ⟨_, e⟩ | ⟨ea, e⟩
  · subst e
    rw [ea]
    exact old node nd p ch.hn (ch.parent.symm.trans hp)
  · exact old c cn p e hp
  · subst e
    rcases ch.kids with ⟨_, e2⟩ | ⟨e1, e2, _⟩
    · rw [e2] at hp; cases hp
    · rw [e2] at hp
      have : node = p := Option.some.inj hp
      subst this
      refine ⟨nd1, get_step_node _ _ (lt_of_get ch.hn), ?_⟩
      rw [e1, ea]
      simp

theorem Change.rooted {h : Heap} {node : Ptr} {nd nd1 x : Node}
    (ch : Change h node nd nd1 x) (hr : Rooted h) : Rooted (h.set node nd1 ++ [x]) := by
  obtain ⟨⟨d, hd, d1, d2, d3⟩, r2, r3⟩ := hr
  refine ⟨?_, ?_, ?_⟩
  · by_cases e : (0 : Ptr) = node
    · subst e
      rw [ch.hn] at hd
      have : nd = d := Option.some.inj hd
      subst this
      exact ⟨nd1, get_step_node _ _ (lt_of_get ch.hn), ch.typ.trans d1, ch.parent.trans d2,
        ch.tag.trans d3⟩
    · exact ⟨d, by rw [get_step_old _ _ e (lt_of_get hd)]; exact hd, d1, d2, d3⟩
  · intro a n hg ha
    rcases get_step_cases hg with ⟨ea, e, _⟩ | ⟨_, e⟩ | ⟨_, e⟩
    · subst e
      rw [ch.typ]
      exact r2 node nd ch.hn (ea ▸ ha)
    · exact r2 a n e ha
    · subst e
      exact ch.xtyp
  · intro a n hg hp
    rcases get_step_cases hg with ⟨_, e, _⟩ | ⟨_, e⟩ | ⟨_, e⟩
    · subst e
      rw [ch.typ]
      rw [ch.parent] at hp
      exact r3 node nd ch.hn hp
    · exact r3 a n e hp
    · subst e
      rcases ch.kids with ⟨_, e2⟩ | ⟨_, _, e3⟩
      · exact absurd e2 hp
      · exact e3

theorem countP_set {α : Type} (p : α → Bool) : ∀ (l : List α) (i : Nat) (v old : α),
    l[i]? = some old →
    List.countP p (l.set i v) + (if p old then 1 else 0) =
      List.countP p l + (if p v then 1 else 0) := by
  intro l
  induction l with
  | nil => intro i v old h; simp at h
  | cons a t ih =>
    intro i v old h
    cases i with
    | zero =>
      simp at h
      subst h
      simp only [List.set_cons_zero, List.countP_cons]
      omega
    | succ j =>
      simp at h
      have := ih j v old h
      simp only [List.set_cons_succ, List.countP_cons]
      omega

theorem openCount_change {h : Heap} {node : Ptr} {nd : Node} (nd1 x : Node)
    (hn : h[node]? = some nd) :
    openCount (h.set node nd1 ++ [x]) + (if isOpen nd then 1 else 0) =
      openCount h + (if isOpen nd1 then 1 else 0) + (if isOpen x then 1 else 0) := by
  unfold openCount
  have := countP_set isOpen h node nd1 nd hn
  rw [List.countP_append]
  simp only [List.countP_cons, List.countP_nil]
  omega

theorem afterInsert_heap (s : State) (node : Ptr) (nd : Node) (p : Pull) :
    (afterInsert s node nd p).heap =
      s.heap.set node { nd with Children := nd.Children ++ [s.heap.length] } ++
        [created s node nd p] := by
  have e : created s node nd p =
      { prep (passed p) (literal p) with
        Parent := some node
        Nth := (prep (passed p) (literal p)).Nth +
          (countTag s.heap nd.Children (prep (passed p) (literal p)).TagName + 1) } := by
    simp [created, prep_nth, literal_nth, prep_tag]
  rw [e]
  rfl

theorem afterClose_heap (s : State) (node : Ptr) (nd : Node) (p : Pull) :
    (afterClose s node nd p).heap =
      s.heap.set node { nd with Close := true } ++ [{ TagName := p.token.Data }] := rfl

theorem afterError_heap {s : State} {node : Ptr} {nd : Node} (hn : s.heap[node]? = some nd) :
    (afterError s).heap = s.heap.set node nd ++ [({} : Node)] := by
  rw [set_same hn]
  rfl

theorem literal_content {p : Pull} (hp : attaches p) : IsContent (literal p).Typ := by
  unfold attaches at hp
  unfold literal IsContent
  cases hT : p.token.Typ <;> rw [hT] at hp <;> simp at hp ⊢

theorem Change_insert {s : State} {node : Ptr} {nd : Node} {p : Pull}
    (hn : s.heap[node]? = some nd) (hp : attaches p) :
    Change s.heap node nd { nd with Children := nd.Children ++ [s.heap.length] }
      (created s node nd p) := by
  have hc : IsContent (created s node nd p).Typ := by
    rw [created_typ]
    exact literal_content hp
  refine ⟨hn, rfl, rfl, rfl, rfl, rfl, rfl, rfl, rfl, rfl, fun e => e, created_children s node nd p,
    ?_, Or.inr ⟨rfl, rfl, hc⟩⟩
  intro e
  rw [e] at hc
  rcases hc with h1 | h1 | h1 | h1 <;> cases h1

theorem Change_close {s : State} {node : Ptr} {nd : Node} (p : Pull)
    (hn : s.heap[node]? = some nd) :
    Change s.heap node nd { nd with Close := true } { TagName := p.token.Data } :=
  ⟨hn, rfl, rfl, rfl, rfl, rfl, rfl, rfl, rfl, rfl, fun _ => rfl, rfl,
    fun e => NodeType.noConfusion e, Or.inl ⟨rfl, rfl⟩⟩

theorem Change_error {s : State} {node : Ptr} {nd : Node} (hn : s.heap[node]? = some nd) :
    Change s.heap node nd nd {} :=
  ⟨hn, rfl, rfl, rfl, rfl, rfl, rfl, rfl, rfl, rfl, fun e => e, rfl,
    fun e => NodeType.noConfusion e, Or.inl ⟨rfl, rfl⟩⟩

theorem childrenOf_old {h : Heap} {node a : Ptr} (nd1 x : Node) (hne : a ≠ node)
    (ha : a < h.length) : childrenOf (h.set node nd1 ++ [x]) a = childrenOf h a := by
  unfold childrenOf
  rw [get_step_old _ _ hne ha]

theorem childrenOf_node {h : Heap} {node : Ptr} (nd1 x : Node) (hlt : node < h.length) :
    childrenOf (h.set node nd1 ++ [x]) node = nd1.Children := by
  unfold childrenOf
  rw [get_step_node _ _ hlt]

theorem passed_start {p : Pull} (h : passed p = TokenType.StartTagToken) :
    p.token.Typ = TokenType.StartTagToken ∧ p.token.Data ∉ voidNames := by
  unfold passed at h
  cases hT : p.token.Typ <;> rw [hT] at h <;> simp at h
  exact ⟨rfl, h⟩

theorem isOpen_literal {p : Pull} (hp : attaches p) :
    isOpen (literal p) = true ↔ passed p = TokenType.StartTagToken := by
  unfold attaches at hp
  unfold isOpen literal passed
  cases hT : p.token.Typ <;> rw [hT] at hp <;> simp at hp ⊢

theorem isOpen_created (s : State) (node : Ptr) (nd : Node) (p : Pull) :
    isOpen (created s node nd p) = isOpen (literal p) := by
  unfold isOpen
  rw [created_typ, created_close]

theorem Shape_init : Shape initState := by
  have hg : ∀ (a : Ptr) (n : Node), initState.heap[a]? = some n →
      a = 0 ∧ n = { Typ := NodeType.DocumentNode } := by
    intro a n hg
    have ha : a < 1 := lt_of_get hg
    have ha0 : a = 0 := Nat.lt_one_iff.mp ha
    subst ha0
    simp [initState] at hg
    exact ⟨rfl, hg.symm⟩
  refine ⟨?_, ?_, ?_, ?_, ?_, trivial, ?_, ?_, rfl⟩
  · intro a n h c hc
    obtain ⟨_, e⟩ := hg a n h
    subst e
    cases hc
  · intro a n h
    obtain ⟨_, e⟩ := hg a n h
    subst e
    exact List.Pairwise.nil
  · intro a n h c hc
    obtain ⟨_, e⟩ := hg a n h
    subst e
    cases hc
  · intro c cn p h hp
    obtain ⟨_, e⟩ := hg c cn h
    subst e
    cases hp
  · refine ⟨⟨_, rfl, rfl, rfl, rfl⟩, ?_, ?_⟩
    · intro a n h ha
      exact absurd (hg a n h).1 ha
    · intro a n h hp
      obtain ⟨_, e⟩ := hg a n h
      subst e
      exact absurd rfl hp
  · intro a n h
    obtain ⟨_, e⟩ := hg a n h
    subst e
    simp [isOpen, pathNodes, initState]
  · intro a n h ho
    obtain ⟨_, e⟩ := hg a n h
    subst e
    simp [isOpen] at ho

theorem literal_tag_start {p : Pull} (hT : p.token.Typ = TokenType.StartTagToken) :
    (literal p).TagName = p.token.Data := by
  simp [literal, hT]

theorem Shape_afterInsert {s : State} {node : Ptr} {nd : Node} {p : Pull} (hi : Inv s)
    (hsx : Shape s) (hw : walk s.heap 0 s.sequence = .ok node) (hn : s.heap[node]? = some nd)
    (hp : attaches p) : Shape (afterInsert s node nd p) := by
  have ch := Change_insert hn hp
  have hh := afterInsert_heap s node nd p
  have hlt : node < s.heap.length := lt_of_get hn
  have hag : ∀ b : Ptr, b < node →
      childrenOf (afterInsert s node nd p).heap b = childrenOf s.heap b := by
    intro b hb
    rw [hh]
    exact childrenOf_old _ _ (Nat.ne_of_lt hb) (Nat.lt_trans hb hlt)
  obtain ⟨w1, w2, w3⟩ := walk_agree hsx.inc hag s.sequence 0 hw
  have hbound : ∀ x ∈ pathNodes s.heap 0 s.sequence, x < s.heap.length :=
    fun x hx => Nat.lt_of_le_of_lt (pathNodes_bounds hsx.inc _ _ _ hw x hx).2 hlt
  have hkids : childrenOf (afterInsert s node nd p).heap node =
      nd.Children ++ [s.heap.length] := by
    rw [hh]
    exact childrenOf_node _ _ hlt
  have hlast : (childrenOf (afterInsert s node nd p).heap node)[nd.Children.length]? =
      some s.heap.length := by
    rw [hkids]
    simp
  -- the path and its nodes after the round
  have hseq : (afterInsert s node nd p).sequence =
      if passed p = TokenType.StartTagToken then s.sequence ++ [nd.Children.length]
      else s.sequence := rfl
  have hpn : pathNodes (afterInsert s node nd p).heap 0 (afterInsert s node nd p).sequence =
      pathNodes s.heap 0 s.sequence ++
        (if passed p = TokenType.StartTagToken then [s.heap.length] else []) := by
    rw [hseq]
    by_cases e : passed p = TokenType.StartTagToken
    · simp only [e, if_true]
      rw [pathNodes_concat _ _ _ _ w1, w2, pathNodes_cons _ hlast]
      rfl
    · simp only [e, if_false, List.append_nil]
      exact w2
  have hopen : isOpen ({ nd with Children := nd.Children ++ [s.heap.length] } : Node) =
      isOpen nd := rfl
  refine ⟨?_, ?_, ?_, ?_, ?_, ?_, ?_, ?_, ?_⟩
  · rw [hh]; exact ch.increasing hsx.inc
  · rw [hh]; exact ch.sorted hi.closed hsx.sorted
  · rw [hh]; exact ch.linksDown hsx.down
  · rw [hh]; exact ch.linksUp hsx.up
  · rw [hh]; exact ch.rooted hsx.rooted
  · rw [hseq]
    by_cases e : passed p = TokenType.StartTagToken
    · simp only [e, if_true]
      refine (Spine_concat _ _ _ _ w1).mpr ⟨w3 hsx.spine, s.heap.length, hlast, ?_, trivial⟩
      rw [hkids]
      simp
    · simp only [e, if_false]
      exact w3 hsx.spine
  · intro a n hg
    rw [hpn, List.mem_append]
    rw [hh] at hg
    rcases get_step_cases hg with ⟨ea, e, _⟩ | ⟨_, e⟩ | ⟨ea, e⟩
    · subst e
      rw [hopen, ea, hsx.opened node nd hn]
      constructor
      · exact Or.inl
      · rintro (h1 | h1)
        · exact h1
        · split at h1
          · simp at h1
            exact absurd h1 (Nat.ne_of_lt hlt)
          · cases h1
    · rw [hsx.opened a n e]
      constructor
      · exact Or.inl
      · rintro (h1 | h1)
        · exact h1
        · split at h1
          · simp at h1
            exact absurd h1 (Nat.ne_of_lt (lt_of_get e))
          · cases h1
    · subst e
      rw [isOpen_created, isOpen_literal hp, ea]
      constructor
      · intro h1
        right
        simp [h1]
      · rintro (h1 | h1)
        · exact absurd (hbound _ h1) (Nat.lt_irrefl _)
        · split at h1
          · assumption
          · cases h1
  · intro a n hg ho
    rw [hh] at hg
    rcases get_step_cases hg with ⟨_, e, _⟩ | ⟨_, e⟩ | ⟨_, e⟩
    · subst e
      exact hsx.nonvoid node nd hn ho
    · exact hsx.nonvoid a n e ho
    · subst e
      rw [isOpen_created, isOpen_literal hp] at ho
      obtain ⟨hT, hv⟩ := passed_start ho
      rw [created_tag, literal_tag_start hT]
      exact hv
  · have hc := openCount_change { nd with Children := nd.Children ++ [s.heap.length] }
      (created s node nd p) hn
    rw [← hh, hopen, isOpen_created] at hc
    have hcount := hsx.count
    rw [hseq]
    by_cases e : passed p = TokenType.StartTagToken
    · have ho : isOpen (literal p) = true := (isOpen_literal hp).mpr e
      simp only [e, if_true, List.length_append, List.length_singleton]
      rw [ho] at hc
      simp only [if_true] at hc
      omega
    · have ho : isOpen (literal p) = false := by
        cases h1 : isOpen (literal p)
        · rfl
        · exact absurd ((isOpen_literal hp).mp h1) e
      simp only [e, if_false]
      rw [ho] at hc
      simp only [Bool.false_eq_true, if_false] at hc
      omega

theorem Shape_afterClose {s : State} {node : Ptr} {nd : Node} (p : Pull) (hi : Inv s)
    (hsx : Shape s) (hw : walk s.heap 0 s.sequence = .ok node) (hn : s.heap[node]? = some nd)
    (hne : s.sequence ≠ []) : Shape (afterClose s node nd p) := by
  have ch := Change_close p hn
  have hh := afterClose_heap s node nd p
  have hlt : node < s.heap.length := lt_of_get hn
  obtain ⟨m, k, hsplit, hm, hk⟩ := walk_pop hne hw
  have hmn : m < node := by
    cases hg : s.heap[m]? with
    | none => simp [childrenOf, hg] at hk
    | some mn =>
      rw [childrenOf_get hg] at hk
      exact hsx.inc m mn hg node (List.getElem?_mem hk)
  have hpn : pathNodes s.heap 0 s.sequence =
      pathNodes s.heap 0 (s.sequence.take (s.sequence.length - 1)) ++ [node] := by
    conv_lhs => rw [hsplit]
    rw [pathNodes_concat _ _ _ _ hm, pathNodes_cons _ hk]
    rfl
  have hlen : s.sequence.length = (s.sequence.take (s.sequence.length - 1)).length + 1 := by
    conv_lhs => rw [hsplit]
    simp
  have hag : ∀ b : Ptr, b < m →
      childrenOf (afterClose s node nd p).heap b = childrenOf s.heap b := by
    intro b hb
    rw [hh]
    exact childrenOf_old _ _ (Nat.ne_of_lt (Nat.lt_trans hb hmn))
      (Nat.lt_trans hb (Nat.lt_trans hmn hlt))
  obtain ⟨_, w2, w3⟩ := walk_agree hsx.inc hag _ 0 hm
  have hsp0 : Spine s.heap 0 (s.sequence.take (s.sequence.length - 1)) := by
    have := hsx.spine
    rw [hsplit] at this
    exact ((Spine_concat _ _ _ _ hm).mp this).1
  have hb0 : ∀ x ∈ pathNodes s.heap 0 (s.sequence.take (s.sequence.length - 1)), x < node :=
    fun x hx => Nat.lt_of_le_of_lt (pathNodes_bounds hsx.inc _ _ _ hm x hx).2 hmn
  have hseq : (afterClose s node nd p).sequence = s.sequence.take (s.sequence.length - 1) :=
    rfl
  have hnd : isOpen nd = true := by
    rw [hsx.opened node nd hn, hpn]
    simp
  have hcl : isOpen ({ nd with Close := true } : Node) = false := by
    simp [isOpen]
  refine ⟨?_, ?_, ?_, ?_, ?_, ?_, ?_, ?_, ?_⟩
  · rw [hh]; exact ch.increasing hsx.inc
  · rw [hh]; exact ch.sorted hi.closed hsx.sorted
  · rw [hh]; exact ch.linksDown hsx.down
  · rw [hh]; exact ch.linksUp hsx.up
  · rw [hh]; exact ch.rooted hsx.rooted
  · rw [hseq]
    exact w3 hsp0
  · intro a n hg
    rw [hseq, w2]
    rw [hh] at hg
    rcases get_step_cases hg with ⟨ea, e, _⟩ | ⟨hna, e⟩ | ⟨ea, e⟩
    · subst e
      rw [hcl, ea]
      constructor
      · intro h1; cases h1
      · intro h1
        exact absurd (hb0 _ h1) (Nat.lt_irrefl _)
    · rw [hsx.opened a n e, hpn, List.mem_append]
      constructor
      · rintro (h1 | h1)
        · exact h1
        · simp at h1
          exact absurd h1 hna
      · exact Or.inl
    · subst e
      rw [ea]
      constructor
      · intro h1
        simp [isOpen] at h1
      · intro h1
        exact absurd (Nat.lt_trans (hb0 _ h1) hlt) (Nat.lt_irrefl _)
  · intro a n hg ho
    rw [hh] at hg
    rcases get_step_cases hg with ⟨_, e, _⟩ | ⟨_, e⟩ | ⟨_, e⟩
    · subst e
      rw [hcl] at ho
      cases ho
    · exact hsx.nonvoid a n e ho
    · subst e
      simp [isOpen] at ho
  · have hc := openCount_change { nd with Close := true } { TagName := p.token.Data } hn
    rw [← hh, hnd, hcl] at hc
    have hph : isOpen ({ TagName := p.token.Data } : Node) = false := by simp [isOpen]
    rw [hph] at hc
    simp only [if_true, Bool.false_eq_true, if_false] at hc
    have hcount := hsx.count
    rw [hseq]
    omega

theorem Shape_afterError {s : State} {node : Ptr} {nd : Node} (hi : Inv s)
    (hsx : Shape s) (hw : walk s.heap 0 s.sequence = .ok node) (hn : s.heap[node]? = some nd) :
    Shape (afterError s) := by
  have ch := Change_error hn
  have hh := afterError_heap hn
  have hlt : node < s.heap.length := lt_of_get hn
  have hag : ∀ b : Ptr, b < node → childrenOf (afterError s).heap b = childrenOf s.heap b := by
    intro b hb
    rw [hh]
    exact childrenOf_old _ _ (Nat.ne_of_lt hb) (Nat.lt_trans hb hlt)
  obtain ⟨_, w2, w3⟩ := walk_agree hsx.inc hag s.sequence 0 hw
  have hbound : ∀ x ∈ pathNodes s.heap 0 s.sequence, x < s.heap.length :=
    fun x hx => Nat.lt_of_le_of_lt (pathNodes_bounds hsx.inc _ _ _ hw x hx).2 hlt
  have hseq : (afterError s).sequence = s.sequence := rfl
  refine ⟨?_, ?_, ?_, ?_, ?_, ?_, ?_, ?_, ?_⟩
  · rw [hh]; exact ch.increasing hsx.inc
  · rw [hh]; exact ch.sorted hi.closed hsx.sorted
  · rw [hh]; exact ch.linksDown hsx.down
  · rw [hh]; exact ch.linksUp hsx.up
  · rw [hh]; exact ch.rooted hsx.rooted
  · rw [hseq]
    exact w3 hsx.spine
  · intro a n hg
    rw [hseq, w2]
    rw [hh] at hg
    rcases get_step_cases hg with ⟨ea, e, _⟩ | ⟨_, e⟩ | ⟨ea, e⟩
    · subst e
      rw [ea]
      exact hsx.opened node n hn
    · exact hsx.opened a n e
    · subst e
      rw [ea]
      constructor
      · intro h1
        simp [isOpen] at h1
      · intro h1
        exact absurd (hbound _ h1) (Nat.lt_irrefl _)
  · intro a n hg ho
    rw [hh] at hg
    rcases get_step_cases hg with ⟨_, e, _⟩ | ⟨_, e⟩ | ⟨_, e⟩
    · subst e
      exact hsx.nonvoid node n hn ho
    · exact hsx.nonvoid a n e ho
    · subst e
      simp [isOpen] at ho
  · have hc := openCount_change nd {} hn
    rw [← hh] at hc
    have hph : isOpen ({} : Node) = false := by simp [isOpen]
    rw [hph] at hc
    simp only [Bool.false_eq_true, if_false] at hc
    have hcount := hsx.count
    rw [hseq]
    omega

/-- A round of the loop that ends without a panic keeps the shape. -/
theorem Shape_step {s s1 : State} {err err1 : GoError} {p : Pull} (hi : Inv s) (hsx : Shape s)
    (hs : iteration 0 s err p = .ok (Flow.next s1 err1)) : Shape s1 := by
  obtain ⟨node, nd, hw, hn, h⟩ := step_cases hi hs
  rcases h with ⟨_, _, e, _⟩ | ⟨_, e, _⟩ | ⟨_, _, hne, e, _⟩ | ⟨hp, e, _⟩
  · rw [e]; exact hsx
  · rw [e]; exact Shape_afterError hi hsx hw hn
  · rw [e]; exact Shape_afterClose p hi hsx hw hn hne
  · rw [e]; exact Shape_afterInsert hi hsx hw hn hp

/-- Every state of the builder has the shape. -/
theorem Reachable_shape {s : State} (hr : Reachable s) : Shape s := by
  induction hr with
  | init => exact Shape_init
  | step hr0 hs ih => exact Shape_step (Reachable_inv hr0) ih hs

theorem preorder_succ (h : Heap) (f : Nat) (a : Ptr) :
    preorder h (f + 1) a = a :: (childrenOf h a).flatMap (fun c => preorder h f c) := rfl

theorem flatMap_congr_mem {α β : Type} {l : List α} {f g : α → List β}
    (hfg : ∀ x ∈ l, f x = g x) : l.flatMap f = l.flatMap g := by
  induction l with
  | nil => rfl
  | cons a t ih =>
    rw [List.flatMap_cons, List.flatMap_cons, hfg a (List.mem_cons_self _ _),
      ih (fun x hx => hfg x (List.mem_cons_of_mem _ hx))]

/-- The listing reads the children of the nodes it lists, and nothing else. -/
theorem preorder_congr {h h1 : Heap} : ∀ (f : Nat) (a : Ptr),
    (∀ b ∈ preorder h f a, childrenOf h1 b = childrenOf h b) →
    preorder h1 f a = preorder h f a := by
  intro f
  induction f with
  | zero => intro a _; rfl
  | succ f ih =>
    intro a hb
    rw [preorder_succ, preorder_succ]
    have ha : childrenOf h1 a = childrenOf h a := hb a (by rw [preorder_succ]; simp)
    rw [ha]
    congr 1
    apply flatMap_congr_mem
    intro c hc
    apply ih
    intro b hbc
    apply hb
    rw [preorder_succ]
    refine List.mem_cons_of_mem _ (List.mem_flatMap.mpr ⟨c, hc, hbc⟩)

/-- With fuel for the whole store the listing is complete: more fuel lists
the same. -/
theorem preorder_stable {h : Heap} (hcl : Closed h) (hinc : Increasing h) : ∀ (f : Nat) (a : Ptr),
    a < h.length → h.length ≤ a + f → preorder h (f + 1) a = preorder h f a := by
  intro f
  induction f with
  | zero =>
    intro a ha hf
    exact absurd ha (Nat.not_lt_of_le hf)
  | succ f ih =>
    intro a ha hf
    rw [preorder_succ h (f + 1), preorder_succ h f]
    congr 1
    apply flatMap_congr_mem
    intro c hc
    obtain ⟨n, hn⟩ : ∃ n, h[a]? = some n := ⟨_, List.getElem?_eq_getElem ha⟩
    rw [childrenOf_get hn] at hc
    have h1 : @LT.lt Nat _ a c := hinc a n hn c hc
    have h2 : c < h.length := hcl a n hn c hc
    have hf1 : @LE.le Nat _ h.length (a + (f + 1)) := hf
    exact ih c h2 (show @LE.le Nat _ h.length (c + f) by omega)

theorem preorder_stable_add {h : Heap} (hcl : Closed h) (hinc : Increasing h) (a : Ptr)
    (ha : a < h.length) (f : Nat) (hf : h.length ≤ a + f) (k : Nat) :
    preorder h (f + k) a = preorder h f a := by
  induction k with
  | zero => rfl
  | succ k ih =>
    have hf1 : @LE.le Nat _ h.length (a + f) := hf
    rw [← Nat.add_assoc, preorder_stable hcl hinc (f + k) a ha
      (show @LE.le Nat _ h.length (a + (f + k)) by omega), ih]

theorem walk_length_le {h : Heap} (hinc : Increasing h) : ∀ (seq : List Nat) (a m : Ptr),
    walk h a seq = .ok m → a + seq.length ≤ m := by
  intro seq
  induction seq with
  | nil =>
    intro a m hw
    have := walk_le hinc [] a m hw
    simpa using this
  | cons k rest ih =>
    intro a m hw
    obtain ⟨c, hc, hw1⟩ := walk_cons_iff.mp hw
    have hac : @LT.lt Nat _ a c := by
      cases hg : h[a]? with
      | none => simp [childrenOf, hg] at hc
      | some nd =>
        rw [childrenOf_get hg] at hc
        exact hinc a nd hg c (List.getElem?_mem hc)
    have h2 : @LE.le Nat _ (c + rest.length) m := ih c m hw1
    simp only [List.length_cons]
    show @LE.le Nat _ (a + (rest.length + 1)) m
    omega

theorem last_child_split {l : List Ptr} {k : Nat} {c : Ptr} (hk : l[k]? = some c)
    (hl : k + 1 = l.length) : l = l.take k ++ [c] := by
  have h1 : l.take (k + 1) = l := List.take_of_length_le (by omega)
  rw [List.take_succ, hk] at h1
  exact h1.symm

theorem preorder_self (h : Heap) (f : Nat) (a : Ptr) : a ∈ preorder h (f + 1) a := by
  rw [preorder_succ]
  exact List.mem_cons_self _ _

/-- Appending a new leaf below the node at the end of a path along last
children appends it to the pre-order listing. -/
theorem preorder_insert {h h1 : Heap} {node new : Ptr} (hinc : Increasing h)
    (hold : ∀ b : Ptr, b ≠ node → b ≠ new → childrenOf h1 b = childrenOf h b)
    (hnode : childrenOf h1 node = childrenOf h node ++ [new])
    (hnew : childrenOf h1 new = []) :
    ∀ (seq : List Nat) (a : Ptr) (f : Nat), walk h a seq = .ok node → Spine h a seq →
      (preorder h f a).Pairwise (fun x y => x < y) → new ∉ preorder h f a →
      seq.length + 2 ≤ f → preorder h1 f a = preorder h f a ++ [new] := by
  intro seq
  induction seq with
  | nil =>
    intro a f hw _ hso hfresh hf
    simp [walk] at hw
    subst hw
    obtain ⟨f1, rfl⟩ : ∃ f1, f = f1 + 1 := ⟨f - 1, by simp at hf; omega⟩
    obtain ⟨f2, rfl⟩ : ∃ f2, f1 = f2 + 1 := ⟨f1 - 1, by simp at hf; omega⟩
    rw [preorder_succ h1 (f2 + 1), preorder_succ h (f2 + 1), hnode, List.flatMap_append]
    have hleaf : [new].flatMap (fun c => preorder h1 (f2 + 1) c) = [new] := by
      simp [preorder_succ, hnew]
    rw [hleaf]
    have hsame : (childrenOf h a).flatMap (fun c => preorder h1 (f2 + 1) c) =
        (childrenOf h a).flatMap (fun c => preorder h (f2 + 1) c) := by
      apply flatMap_congr_mem
      intro c hc
      apply preorder_congr
      intro b hb
      have hmem : b ∈ (childrenOf h a).flatMap (fun c => preorder h (f2 + 1) c) :=
        List.mem_flatMap.mpr ⟨c, hc, hb⟩
      rw [preorder_succ h (f2 + 1)] at hso hfresh
      refine hold b ?_ ?_
      · exact Nat.ne_of_gt ((List.pairwise_cons.mp hso).1 b hmem)
      · intro e
        exact hfresh (e ▸ List.mem_cons_of_mem _ hmem)
    rw [hsame]
    simp
  | cons k rest ih =>
    intro a f hw hsp hso hfresh hf
    have han : a < node := walk_lt hinc hw
    obtain ⟨c, hc, hw1⟩ := walk_cons_iff.mp hw
    obtain ⟨c2, hc2, hk, hsp1⟩ := hsp
    rw [hc] at hc2
    have e : c = c2 := Option.some.inj hc2
    subst e
    obtain ⟨f1, rfl⟩ : ∃ f1, f = f1 + 1 := ⟨f - 1, by simp at hf; omega⟩
    obtain ⟨f2, rfl⟩ : ∃ f2, f1 = f2 + 1 := ⟨f1 - 1, by simp at hf; omega⟩
    have hsplit := last_child_split hc hk
    have hanew : a ≠ new := by
      intro e
      exact hfresh (e ▸ preorder_self h _ a)
    have hpre : preorder h (f2 + 1 + 1) a =
        a :: ((childrenOf h a).take k).flatMap (fun c => preorder h (f2 + 1) c) ++
          preorder h (f2 + 1) c := by
      rw [preorder_succ h (f2 + 1)]
      conv_lhs => rw [hsplit]
      rw [List.flatMap_append]
      simp
    have hpre1 : preorder h1 (f2 + 1 + 1) a =
        a :: ((childrenOf h a).take k).flatMap (fun c => preorder h1 (f2 + 1) c) ++
          preorder h1 (f2 + 1) c := by
      rw [preorder_succ h1 (f2 + 1), hold a (Nat.ne_of_lt han) hanew]
      conv_lhs => rw [hsplit]
      rw [List.flatMap_append]
      simp
    rw [hpre] at hso hfresh
    have hso2 := (List.pairwise_cons.mp hso).2
    obtain ⟨_, hsoc, hcross⟩ := List.pairwise_append.mp hso2
    have hfc : new ∉ preorder h (f2 + 1) c := by
      intro hm
      exact hfresh (List.mem_cons_of_mem _ (List.mem_append_right _ hm))
    have hih := ih c (f2 + 1) hw1 hsp1 hsoc hfc (by simp at hf ⊢; omega)
    have hsame : ((childrenOf h a).take k).flatMap (fun c => preorder h1 (f2 + 1) c) =
        ((childrenOf h a).take k).flatMap (fun c => preorder h (f2 + 1) c) := by
      apply flatMap_congr_mem
      intro x hx
      apply preorder_congr
      intro b hb
      have hmem : b ∈ ((childrenOf h a).take k).flatMap (fun c => preorder h (f2 + 1) c) :=
        List.mem_flatMap.mpr ⟨x, hx, hb⟩
      refine hold b ?_ ?_
      · have h1 : b < c := hcross b hmem c (preorder_self h f2 c)
        have h2 : c ≤ node := walk_le hinc rest c node hw1
        exact Nat.ne_of_lt (Nat.lt_of_lt_of_le h1 h2)
      · intro e
        exact hfresh (e ▸ List.mem_cons_of_mem _ (List.mem_append_left _ hmem))
    rw [hpre1, hpre, hsame, hih]
    simp

theorem Trace_reachable {s : State} {toks : List Pull} {born : List (Ptr × Nat)}
    (h : Trace s toks born) : Reachable s := by
  induction h with
  | init => exact Reachable.init
  | step _ hs ih => exact Reachable.step ih hs

theorem Reachable_trace {s : State} (hr : Reachable s) :
    ∃ (toks : List Pull) (born : List (Ptr × Nat)), Trace s toks born := by
  induction hr with
  | init => exact ⟨[], [], Trace.init⟩
  | step _ hs ih =>
    obtain ⟨toks, born, ht⟩ := ih
    exact ⟨_, _, Trace.step ht hs⟩

/-- What a round leaves of the nodes that were in the store. -/
theorem Change.frame {h : Heap} {node : Ptr} {nd nd1 x : Node} (ch : Change h node nd nd1 x)
    {a : Ptr} {n : Node} (ha : h[a]? = some n) :
    ∃ n1 : Node, (h.set node nd1 ++ [x])[a]? = some n1 ∧ n1.Typ = n.Typ ∧
      n1.DataAtom = n.DataAtom ∧ n1.TagName = n.TagName ∧ n1.Text = n.Text ∧
      n1.Attr = n.Attr ∧ n1.ID = n.ID ∧ n1.Class = n.Class ∧ n1.Nth = n.Nth ∧
      n1.Parent = n.Parent ∧ n.Children <+: n1.Children ∧
      (n.Close = true → n1.Close = true) ∧ (a ≠ node → n1 = n) ∧ (a = node → n1 = nd1) := by
  by_cases e : a = node
  · subst e
    rw [ch.hn] at ha
    have : nd = n := Option.some.inj ha
    subst this
    exact ⟨nd1, get_step_node _ _ (lt_of_get ch.hn), ch.typ, ch.atom, ch.tag, ch.text, ch.attr,
      ch.id, ch.cls, ch.nth, ch.parent, ch.kids_prefix, ch.close, fun hne => absurd rfl hne,
      fun _ => rfl⟩
  · exact ⟨n, by rw [get_step_old _ _ e (lt_of_get ha)]; exact ha, rfl, rfl, rfl, rfl, rfl, rfl,
      rfl, rfl, rfl, List.prefix_refl _, fun h => h, fun _ => rfl, fun h => absurd h e⟩

theorem created_text (s : State) (node : Ptr) (nd : Node) (p : Pull) :
    (created s node nd p).Text = (literal p).Text := by
  show (prep (passed p) (literal p)).Text = _
  rw [prep_text]

theorem created_attr (s : State) (node : Ptr) (nd : Node) (p : Pull) :
    (created s node nd p).Attr = (literal p).Attr := by
  show (prep (passed p) (literal p)).Attr = _
  rw [prep_attr]

theorem view_created (s : State) (node : Ptr) (nd : Node) (p : Pull) :
    view (created s node nd p) = view (literal p) := by
  unfold view
  rw [created_typ, created_tag, created_text, created_attr]

theorem Origin_init : Origin initState.heap [] [] := by
  refine ⟨List.Pairwise.nil, ?_, ?_, ?_, ?_, ?_⟩
  · intro x hx; cases hx
  · intro x hx; cases hx
  · intro i p h; simp at h
  · intro a n hg hp
    have ha : a < 1 := lt_of_get hg
    have ha0 : a = 0 := Nat.lt_one_iff.mp ha
    subst ha0
    simp [initState] at hg
    subst hg
    exact absurd rfl hp
  · rfl

theorem get_snoc_old {α : Type} {l : List α} {i : Nat} (x : α) (hi : i < l.length) :
    (l ++ [x])[i]? = l[i]? :=
  List.getElem?_append_left hi

/-- One more token that attaches nothing. -/
theorem Origin_token {h : Heap} {toks : List Pull} {born : List (Ptr × Nat)} {p : Pull}
    (ho : Origin h toks born) (hp : ¬ attaches p) : Origin h (toks ++ [p]) born := by
  refine ⟨ho.sorted, ?_, ?_, ?_, ho.attached, ho.listing⟩
  · intro x hx
    obtain ⟨r1, r2, r3⟩ := ho.range x hx
    exact ⟨r1, r2, by rw [List.length_append]; exact Nat.lt_succ_of_lt r3⟩
  · intro x hx
    obtain ⟨q, n, t1, t2⟩ := ho.token x hx
    exact ⟨q, n, by rw [get_snoc_old _ (ho.range x hx).2.2]; exact t1, t2⟩
  · intro i q hq hqa
    by_cases hi : i < toks.length
    · rw [get_snoc_old _ hi] at hq
      exact ho.all i q hq hqa
    · have hlt := (List.getElem?_eq_some.mp hq).1
      rw [List.length_append, List.length_singleton] at hlt
      have e : i = toks.length := by omega
      subst e
      simp at hq
      subst hq
      exact absurd hqa hp

/-- A round that attaches nothing: the tree is as it was. -/
theorem Origin_quiet {h : Heap} {toks : List Pull} {born : List (Ptr × Nat)} {node : Ptr}
    {nd nd1 x : Node} (ho : Origin h toks born) (hcl : Closed h) (hinc : Increasing h)
    (ch : Change h node nd nd1 x) (hk : nd1.Children = nd.Children) (hx : x.Parent = none) :
    Origin (h.set node nd1 ++ [x]) toks born := by
  have hlen : (h.set node nd1 ++ [x]).length = h.length + 1 := by simp
  have hkids : ∀ b : Ptr, childrenOf (h.set node nd1 ++ [x]) b = childrenOf h b := by
    intro b
    unfold childrenOf
    cases hg : (h.set node nd1 ++ [x])[b]? with
    | none =>
      have : h.length + 1 ≤ b := by
        have := List.getElem?_eq_none_iff.mp hg
        rwa [hlen] at this
      rw [List.getElem?_eq_none (Nat.le_of_succ_le this)]
    | some n =>
      rcases get_step_cases hg with ⟨ea, e, _⟩ | ⟨_, e⟩ | ⟨ea, e⟩
      · rw [ea, ch.hn, e]
        exact hk
      · rw [e]
      · rw [ea, List.getElem?_eq_none (Nat.le_refl _), e]
        exact ch.xkids
  refine ⟨ho.sorted, ?_, ?_, ho.all, ?_, ?_⟩
  · intro y hy
    obtain ⟨r1, r2, r3⟩ := ho.range y hy
    exact ⟨r1, by rw [hlen]; exact Nat.lt_succ_of_lt r2, r3⟩
  · intro y hy
    obtain ⟨q, n, t1, t2, t3, t4, t5, t6⟩ := ho.token y hy
    obtain ⟨n1, g1, f1, _, f2, f3, f4, _, _, _, f5, _, f6, _⟩ := ch.frame t3
    refine ⟨q, n1, t1, t2, g1, ?_, by rw [f5]; exact t5, fun hc => f6 (t6 hc)⟩
    rw [← t4]
    unfold view
    rw [f1, f2, f3, f4]
  · intro a n hg hp
    rcases get_step_cases hg with ⟨ea, e, _⟩ | ⟨_, e⟩ | ⟨_, e⟩
    · subst e
      rw [ea]
      rw [ch.parent] at hp
      exact ho.attached node nd ch.hn hp
    · exact ho.attached a n e hp
    · subst e
      exact absurd hx hp
  · rw [hlen, preorder_congr _ _ (fun b _ => hkids b)]
    have h0 : 0 < h.length := Nat.lt_of_le_of_lt (Nat.zero_le _) (lt_of_get ch.hn)
    rw [preorder_stable hcl hinc h.length 0 h0 (by simp)]
    exact ho.listing

/-- A round that attaches a node: the node is the last entry of the birth
list and the last node of the pre-order listing. -/
theorem Origin_insert {s : State} {toks : List Pull} {born : List (Ptr × Nat)} {node : Ptr}
    {nd : Node} {p : Pull} (ho : Origin s.heap toks born) (hi : Inv s) (hsx : Shape s)
    (hw : walk s.heap 0 s.sequence = .ok node) (hn : s.heap[node]? = some nd)
    (hp : attaches p) :
    Origin (afterInsert s node nd p).heap (toks ++ [p])
      (born ++ [(s.heap.length, toks.length)]) := by
  have ch := Change_insert hn hp
  have hh := afterInsert_heap s node nd p
  have hlt : node < s.heap.length := lt_of_get hn
  have h0 : 0 < s.heap.length := Nat.lt_of_le_of_lt (Nat.zero_le _) hlt
  have hlen : (afterInsert s node nd p).heap.length = s.heap.length + 1 := by
    rw [hh]; simp
  have hnew : (afterInsert s node nd p).heap[s.heap.length]? = some (created s node nd p) := by
    rw [hh]; exact get_step_new _ _ _ _
  refine ⟨?_, ?_, ?_, ?_, ?_, ?_⟩
  · rw [List.pairwise_append]
    refine ⟨ho.sorted, List.pairwise_singleton _ _, ?_⟩
    intro x hx y hy
    simp at hy
    subst hy
    exact ⟨(ho.range x hx).2.1, (ho.range x hx).2.2⟩
  · intro x hx
    rw [hlen, List.length_append, List.length_singleton]
    rcases List.mem_append.mp hx with h1 | h1
    · obtain ⟨r1, r2, r3⟩ := ho.range x h1
      exact ⟨r1, Nat.lt_succ_of_lt r2, Nat.lt_succ_of_lt r3⟩
    · simp at h1
      subst h1
      exact ⟨h0, Nat.lt_succ_self _, Nat.lt_succ_self _⟩
  · intro x hx
    rcases List.mem_append.mp hx with h1 | h1
    · obtain ⟨q, n, t1, t2, t3, t4, t5, t6⟩ := ho.token x h1
      obtain ⟨n1, g1, f1, _, f2, f3, f4, _, _, _, f5, _, f6, _⟩ := ch.frame t3
      refine ⟨q, n1, by rw [get_snoc_old _ (ho.range x h1).2.2]; exact t1, t2,
        by rw [hh]; exact g1, ?_, by rw [f5]; exact t5, fun hc => f6 (t6 hc)⟩
      rw [← t4]
      unfold view
      rw [f1, f2, f3, f4]
    · simp at h1
      subst h1
      refine ⟨p, created s node nd p, by simp, hp, hnew, view_created s node nd p, ?_,
        fun hc => by rw [created_close]; exact hc⟩
      intro e
      cases e
  · intro i q hq hqa
    rw [List.map_append, List.mem_append]
    by_cases hi1 : i < toks.length
    · rw [get_snoc_old _ hi1] at hq
      exact Or.inl (ho.all i q hq hqa)
    · have hlt1 := (List.getElem?_eq_some.mp hq).1
      rw [List.length_append, List.length_singleton] at hlt1
      have e : i = toks.length := by omega
      right
      simp [e]
  · intro a n hg hpar
    rw [List.map_append, List.mem_append]
    rw [hh] at hg
    rcases get_step_cases hg with ⟨ea, e, _⟩ | ⟨_, e⟩ | ⟨ea, _⟩
    · subst e
      rw [ea]
      exact Or.inl (ho.attached node nd hn hpar)
    · exact Or.inl (ho.attached a n e hpar)
    · right
      simp [ea]
  · have hold : ∀ b : Ptr, b ≠ node → b ≠ s.heap.length →
        childrenOf (afterInsert s node nd p).heap b = childrenOf s.heap b := by
      intro b hb1 hb2
      by_cases hb : b < s.heap.length
      · rw [hh]
        exact childrenOf_old _ _ hb1 hb
      · have hge : s.heap.length + 1 ≤ b :=
          Nat.succ_le_of_lt (Nat.lt_of_le_of_ne (Nat.le_of_not_lt hb) (Ne.symm hb2))
        unfold childrenOf
        rw [List.getElem?_eq_none (by rw [hlen]; exact hge),
          List.getElem?_eq_none (Nat.le_of_succ_le hge)]
    have hnode : childrenOf (afterInsert s node nd p).heap node =
        childrenOf s.heap node ++ [s.heap.length] := by
      rw [hh, childrenOf_node _ _ hlt, childrenOf_get hn]
    have hleaf : childrenOf (afterInsert s node nd p).heap s.heap.length = [] := by
      unfold childrenOf
      rw [hnew]
      exact created_children s node nd p
    have hst : preorder s.heap (s.heap.length + 1) 0 = 0 :: born.map Prod.fst := by
      rw [preorder_stable hi.closed hsx.inc s.heap.length 0 h0 (by simp)]
      exact ho.listing
    have hsorted : (preorder s.heap (s.heap.length + 1) 0).Pairwise (fun x y => x < y) := by
      rw [hst, List.pairwise_cons]
      constructor
      · intro a ha
        obtain ⟨x, hx, e⟩ := List.mem_map.mp ha
        rw [← e]
        exact (ho.range x hx).1
      · rw [List.pairwise_map]
        exact ho.sorted.imp (fun hxy => hxy.1)
    have hfresh : s.heap.length ∉ preorder s.heap (s.heap.length + 1) 0 := by
      rw [hst]
      intro hm
      rcases List.mem_cons.mp hm with e | hm1
      · exact absurd e (Nat.ne_of_gt h0)
      · obtain ⟨x, hx, e⟩ := List.mem_map.mp hm1
        have := (ho.range x hx).2.1
        rw [e] at this
        exact absurd this (Nat.lt_irrefl _)
    have hfuel : s.sequence.length + 2 ≤ s.heap.length + 1 := by
      have h1 : @LE.le Nat _ (0 + s.sequence.length) node := walk_length_le hsx.inc _ _ _ hw
      have h2 : @LT.lt Nat _ node s.heap.length := hlt
      omega
    rw [hlen, preorder_insert hsx.inc hold hnode hleaf s.sequence 0 (s.heap.length + 1) hw
      hsx.spine hsorted hfresh hfuel, hst]
    simp

theorem not_attaches_of_typ {p : Pull}
    (h : (p.token.Typ = TokenType.TextToken ∧ (trimmed p).length = 0) ∨
      p.token.Typ = TokenType.ErrorToken ∨ p.token.Typ = TokenType.EndTagToken) :
    ¬ attaches p := by
  unfold attaches
  rcases h with ⟨h1, h2⟩ | h1 | h1 <;> rw [h1] <;> simp
  exact h2

/-- The birth list of a trace is right. -/
theorem Trace_origin {s : State} {toks : List Pull} {born : List (Ptr × Nat)}
    (ht : Trace s toks born) : Origin s.heap toks born := by
  induction ht with
  | init => exact Origin_init
  | step ht hs ih =>
    rename_i s s1 err err1 p toks born
    have hr := Trace_reachable ht
    have hi := Reachable_inv hr
    have hsx := Reachable_shape hr
    obtain ⟨node, nd, hw, hn, hc⟩ := step_cases hi hs
    rcases hc with ⟨h1, h2, e, _⟩ | ⟨h1, e, _⟩ | ⟨h1, _, _, e, _⟩ | ⟨h1, e, _⟩
    · have hna := not_attaches_of_typ (Or.inl ⟨h1, h2⟩)
      rw [if_neg hna, e]
      exact Origin_token ih hna
    · have hna : ¬ attaches p := not_attaches_of_typ (Or.inr (Or.inl h1))
      rw [if_neg hna, e, afterError_heap hn]
      exact Origin_token (Origin_quiet ih hi.closed hsx.inc (Change_error hn) rfl rfl) hna
    · have hna : ¬ attaches p := not_attaches_of_typ (Or.inr (Or.inr h1))
      rw [if_neg hna, e, afterClose_heap]
      exact Origin_token (Origin_quiet ih hi.closed hsx.inc (Change_close p hn) rfl rfl) hna
    · rw [if_pos h1, e]
      exact Origin_insert ih hi hsx hw hn h1

theorem addAndNext_not_ret {h : Heap} {child : Ptr} {tt : TokenType} {seq : List Nat}
    {err e : GoError} : addAndNext 0 h child tt seq err ≠ .ok (Flow.ret e) := by
  unfold addAndNext
  split
  · intro h1; cases h1
  · intro h1; cases h1

/-- A round returns from `parse` only with an error that is not nil. -/
theorem iteration_ret {s : State} {err e : GoError} {p : Pull}
    (h : iteration 0 s err p = .ok (Flow.ret e)) : e ≠ GoError.nil := by
  unfold iteration at h
  split at h
  · split at h
    · rename_i hc
      cases h
      exact hc.1
    · exact absurd h addAndNext_not_ret
  · simp only at h
    split at h
    · cases h
    · exact absurd h addAndNext_not_ret
  · simp only at h
    split at h
    · cases h
    · exact absurd h addAndNext_not_ret
  · exact absurd h addAndNext_not_ret
  · exact absurd h addAndNext_not_ret
  · exact absurd h addAndNext_not_ret
  · exact absurd h addAndNext_not_ret

theorem parseLoop_eof (r : List Pull) (s : State) :
    parseLoop 0 r s GoError.EOF = .ok (s, GoError.nil) := by
  cases r <;> simp [parseLoop]

/-- A loop that ends without an error has run the rounds on the tokens of
`pulled`. -/
theorem parseLoop_trace : ∀ (r : List Pull) (s : State) (err : GoError) (toks : List Pull)
    (born : List (Ptr × Nat)) (s1 : State), err ≠ GoError.EOF → Trace s toks born →
    parseLoop 0 r s err = .ok (s1, GoError.nil) →
    ∃ born1 : List (Ptr × Nat), Trace s1 (toks ++ pulled r) born1 := by
  intro r
  induction r with
  | nil =>
    intro s err toks born s1 he ht hp
    unfold parseLoop at hp
    rw [if_neg he] at hp
    cases hit : iteration 0 s err eofPull with
    | error f => rw [hit] at hp; cases hp
    | ok fl =>
      rw [hit] at hp
      cases fl with
      | ret e =>
        simp only [Except.ok.injEq, Prod.mk.injEq] at hp
        exact absurd hp.2 (iteration_ret hit)
      | next s2 err2 =>
        simp only [Except.ok.injEq, Prod.mk.injEq] at hp
        rw [← hp.1]
        exact ⟨_, Trace.step ht hit⟩
  | cons p rest ih =>
    intro s err toks born s1 he ht hp
    unfold parseLoop at hp
    rw [if_neg he] at hp
    cases hit : iteration 0 s err p with
    | error f => rw [hit] at hp; cases hp
    | ok fl =>
      rw [hit] at hp
      cases fl with
      | ret e =>
        simp only [Except.ok.injEq, Prod.mk.injEq] at hp
        exact absurd hp.2 (iteration_ret hit)
      | next s2 err2 =>
        simp only at hp
        have ht2 := Trace.step ht hit
        obtain ⟨node, nd, _, _, hc⟩ := step_cases (Reachable_inv (Trace_reachable ht)) hit
        have hcase : (p.token.Typ = TokenType.ErrorToken ∧ err2 = p.err) ∨
            (p.token.Typ ≠ TokenType.ErrorToken ∧ err2 = err) := by
          rcases hc with ⟨h1, _, _, e⟩ | ⟨h1, _, e, _⟩ | ⟨h1, _, _, _, e⟩ | ⟨h1, _, e⟩
          · exact Or.inr ⟨by rw [h1]; decide, e⟩
          · exact Or.inl ⟨h1, e⟩
          · exact Or.inr ⟨by rw [h1]; decide, e⟩
          · refine Or.inr ⟨?_, e⟩
            intro h2
            unfold attaches at h1
            rw [h2] at h1
            exact h1
        by_cases hend : p.token.Typ = TokenType.ErrorToken ∧ p.err = GoError.EOF
        · have e2 : err2 = GoError.EOF := by
            rcases hcase with ⟨_, e⟩ | ⟨h1, _⟩
            · rw [e]; exact hend.2
            · exact absurd hend.1 h1
          rw [e2, parseLoop_eof] at hp
          simp only [Except.ok.injEq, Prod.mk.injEq] at hp
          rw [← hp.1]
          have : pulled (p :: rest) = [p] := by
            unfold pulled
            rw [if_pos hend]
          rw [this]
          exact ⟨_, ht2⟩
        · have e2 : err2 ≠ GoError.EOF := by
            rcases hcase with ⟨h1, e⟩ | ⟨_, e⟩
            · rw [e]
              exact fun h2 => hend ⟨h1, h2⟩
            · rw [e]; exact he
          obtain ⟨born1, ht3⟩ := ih s2 err2 _ _ s1 e2 ht2 hp
          have : pulled (p :: rest) = p :: pulled rest := by
            conv_lhs => unfold pulled
            rw [if_neg hend]
          rw [this]
          refine ⟨born1, ?_⟩
          rw [List.append_assoc] at ht3
          exact ht3

/-- A build that succeeds returns the Document of the state reached by the
rounds on the tokens pulled. -/
theorem ParseHtml_trace {r : List Pull} {h : Heap} {d : Ptr} {e : GoError}
    (hp : ParseHtml r = .ok (some (h, d), e)) :
    d = 0 ∧ e = GoError.nil ∧
      ∃ (seq : List Nat) (born : List (Ptr × Nat)), Trace ⟨h, seq⟩ (pulled r) born := by
  rw [ParseHtml_eq] at hp
  cases hl : parseLoop 0 r initState GoError.nil with
  | error f => rw [hl] at hp; cases hp
  | ok res =>
    obtain ⟨s1, e1⟩ := res
    rw [hl] at hp
    simp only at hp
    by_cases he : e1 = GoError.nil
    · subst he
      simp only [ne_eq, not_true_eq_false, if_false] at hp
      simp only [Except.ok.injEq, Prod.mk.injEq, Option.some.injEq] at hp
      obtain ⟨⟨h1, h2⟩, h3⟩ := hp
      obtain ⟨born1, ht⟩ := parseLoop_trace r initState GoError.nil [] [] s1
        (fun h => GoError.noConfusion h) Trace.init hl
      rw [List.nil_append] at ht
      refine ⟨h2.symm, h3.symm, s1.sequence, born1, ?_⟩
      rw [← h1]
      exact ht
    · rw [if_pos he] at hp
      simp at hp

theorem walk_mem_path {h : Heap} : ∀ (seq : List Nat) (a node : Ptr),
    walk h a seq = .ok node → seq ≠ [] → node ∈ pathNodes h a seq := by
  intro seq
  induction seq with
  | nil => intro _ _ _ hne; exact absurd rfl hne
  | cons k rest ih =>
    intro a node hw _
    obtain ⟨c, hc, hw1⟩ := walk_cons_iff.mp hw
    rw [pathNodes_cons rest hc]
    cases rest with
    | nil =>
      simp [walk] at hw1
      rw [hw1]
      exact List.mem_cons_self _ _
    | cons k1 rest1 =>
      exact List.mem_cons_of_mem _ (ih c node hw1 (List.cons_ne_nil _ _))

theorem isOpen_iff (n : Node) :
    isOpen n = true ↔ n.Typ = NodeType.ElementNode ∧ n.Close = false := by
  unfold isOpen
  simp

/-- What a round leaves of a node that was in the store, and the two changes
it can make to it. -/
theorem step_frame {s s1 : State} {err err1 : GoError} {p : Pull} (hr : Reachable s)
    (hs : iteration 0 s err p = .ok (Flow.next s1 err1)) {a : Ptr} {n : Node}
    (ha : s.heap[a]? = some n) :
    ∃ n1 : Node, s1.heap[a]? = some n1 ∧ n1.Typ = n.Typ ∧ n1.DataAtom = n.DataAtom ∧
      n1.TagName = n.TagName ∧ n1.Text = n.Text ∧ n1.Attr = n.Attr ∧ n1.ID = n.ID ∧
      n1.Class = n.Class ∧ n1.Nth = n.Nth ∧ n1.Parent = n.Parent ∧
      n.Children <+: n1.Children ∧ (n.Close = true → n1.Close = true) ∧
      (n1.Children ≠ n.Children → attaches p ∧ walk s.heap 0 s.sequence = .ok a ∧
        n1.Children = n.Children ++ [s.heap.length]) ∧
      (n1.Close ≠ n.Close → p.token.Typ = TokenType.EndTagToken ∧
        walk s.heap 0 s.sequence = .ok a ∧ n.Typ = NodeType.ElementNode ∧
        n.TagName = p.token.Data ∧ n.Close = false ∧ n1.Close = true) := by
  have hi := Reachable_inv hr
  have hsx := Reachable_shape hr
  obtain ⟨node, nd, hw, hn, hc⟩ := step_cases hi hs
  have hsame : ∀ h1 : Heap, h1[a]? = some n → ∃ n1 : Node, h1[a]? = some n1 ∧ n1.Typ = n.Typ ∧
      n1.DataAtom = n.DataAtom ∧
      n1.TagName = n.TagName ∧ n1.Text = n.Text ∧ n1.Attr = n.Attr ∧ n1.ID = n.ID ∧
      n1.Class = n.Class ∧ n1.Nth = n.Nth ∧ n1.Parent = n.Parent ∧
      n.Children <+: n1.Children ∧ (n.Close = true → n1.Close = true) ∧
      (n1.Children ≠ n.Children → attaches p ∧ walk s.heap 0 s.sequence = .ok a ∧
        n1.Children = n.Children ++ [s.heap.length]) ∧
      (n1.Close ≠ n.Close → p.token.Typ = TokenType.EndTagToken ∧
        walk s.heap 0 s.sequence = .ok a ∧ n.Typ = NodeType.ElementNode ∧
        n.TagName = p.token.Data ∧ n.Close = false ∧ n1.Close = true) :=
    fun h1 g => ⟨n, g, rfl, rfl, rfl, rfl, rfl, rfl, rfl, rfl, rfl, List.prefix_refl _,
      fun h => h, fun h => absurd rfl h, fun h => absurd rfl h⟩
  rcases hc with ⟨_, _, e, _⟩ | ⟨_, e, _⟩ | ⟨hT, htag, hne, e, _⟩ | ⟨h1, e, _⟩
  · rw [e]
    exact hsame _ ha
  · obtain ⟨n1, g, _, _, _, _, _, _, _, _, _, _, _, f12, f13⟩ := (Change_error hn).frame ha
    rw [e, afterError_heap hn]
    apply hsame
    by_cases hane : a = node
    · have e1 := f13 hane
      rw [hane, hn] at ha
      rw [g, e1, ← Option.some.inj ha]
    · rw [g, f12 hane]
  · obtain ⟨n1, g, f1, f2, f3, f4, f5, f6, f7, f8, f9, f10, f11, f12, f13⟩ :=
      (Change_close p hn).frame ha
    rw [e, afterClose_heap]
    by_cases hane : a = node
    · have e1 := f13 hane
      have e2 : nd = n := by
        rw [hane, hn] at ha
        exact Option.some.inj ha
      have hop := (hsx.opened node nd hn).mpr (walk_mem_path _ _ _ hw hne)
      rw [isOpen_iff] at hop
      refine ⟨n1, g, f1, f2, f3, f4, f5, f6, f7, f8, f9, f10, f11, ?_, ?_⟩
      · intro hk
        rw [e1, ← e2] at hk
        exact absurd rfl hk
      · intro _
        rw [hane, ← e2]
        exact ⟨hT, hw, hop.1, htag, hop.2, by rw [e1]⟩
    · have e1 := f12 hane
      rw [e1] at g
      exact hsame _ g
  · obtain ⟨n1, g, f1, f2, f3, f4, f5, f6, f7, f8, f9, f10, f11, f12, f13⟩ :=
      (Change_insert hn h1).frame ha
    rw [e, afterInsert_heap]
    by_cases hane : a = node
    · have e1 := f13 hane
      have e2 : nd = n := by
        rw [hane, hn] at ha
        exact Option.some.inj ha
      refine ⟨n1, g, f1, f2, f3, f4, f5, f6, f7, f8, f9, f10, f11, ?_, ?_⟩
      · intro _
        rw [hane, ← e2]
        exact ⟨h1, hw, by rw [e1]⟩
      · intro hk
        rw [e1, ← e2] at hk
        exact absurd rfl hk
    · have e1 := f12 hane
      rw [e1] at g
      exact hsame _ g

theorem step_view {s s1 : State} {err err1 : GoError} {p : Pull} (hr : Reachable s)
    (hs : iteration 0 s err p = .ok (Flow.next s1 err1)) {a : Ptr} (ha : a < s.heap.length) :
    (s1.heap[a]?).map view = (s.heap[a]?).map view := by
  have hg : s.heap[a]? = some (s.heap[a]) := List.getElem?_eq_getElem ha
  obtain ⟨n1, g, f1, _, f3, f4, f5, _⟩ := step_frame hr hs hg
  rw [g, hg]
  simp only [Option.map_some', view, f1, f3, f4, f5]

/-- The nodes of the birth list carry, in order, what the attaching tokens
carried. -/
theorem Trace_views {s : State} {toks : List Pull} {born : List (Ptr × Nat)}
    (ht : Trace s toks born) :
    born.map (fun x => (s.heap[x.1]?).map view) =
      (toks.filter (fun p => decide (attaches p))).map (fun p => some (view (literal p))) := by
  induction ht with
  | init => rfl
  | step ht hs ih =>
    rename_i s s1 err err1 p toks born
    have hi := Trace_reachable ht
    have ho := Trace_origin ht
    have hold : born.map (fun x => (s1.heap[x.1]?).map view) =
        born.map (fun x => (s.heap[x.1]?).map view) := by
      apply List.map_congr_left
      intro x hx
      exact step_view hi hs (ho.range x hx).2.1
    rw [List.filter_append]
    by_cases hp : attaches p
    · rw [if_pos hp, List.map_append, hold, ih]
      obtain ⟨node, nd, _, _, g, _, gn, _⟩ := round_attaches err (Trace_reachable ht) hp
      rw [g] at hs
      have e1 : s1 = afterInsert s node nd p := by
        simp only [Except.ok.injEq, Flow.next.injEq] at hs
        exact hs.1.symm
      simp only [List.map_cons, List.map_nil, List.filter_cons, hp, decide_True, if_true,
        List.filter_nil, List.map_append]
      rw [e1, gn]
      simp only [Option.map_some', view_created]
    · rw [if_neg hp, hold, ih]
      simp [hp]

theorem pairwise_both {l : List (Ptr × Nat)}
    (hl : l.Pairwise (fun x y => x.1 < y.1 ∧ x.2 < y.2)) {x y : Ptr × Nat} (hx : x ∈ l)
    (hy : y ∈ l) (hxy : x.1 < y.1) : x.2 < y.2 := by
  induction l with
  | nil => cases hx
  | cons z rest ih =>
    rw [List.pairwise_cons] at hl
    rcases List.mem_cons.mp hx with ex | hx1
    · rcases List.mem_cons.mp hy with ey | hy1
      · rw [ex, ey] at hxy
        exact absurd hxy (Nat.lt_irrefl _)
      · rw [ex]
        exact (hl.1 y hy1).2
    · rcases List.mem_cons.mp hy with ey | hy1
      · rw [ey] at hxy
        exact absurd hxy (Nat.lt_asymm (hl.1 x hx1).1)
      · exact ih hl.2 hx1 hy1

/-- Two children of a node: the one listed first was created by the earlier
token. -/
theorem Trace_children_order {s : State} {toks : List Pull} {born : List (Ptr × Nat)}
    (ht : Trace s toks born) {a : Ptr} {n : Node} (ha : s.heap[a]? = some n) {i j : Nat}
    {c1 c2 : Ptr} (h1 : n.Children[i]? = some c1) (h2 : n.Children[j]? = some c2)
    (hij : i < j) :
    ∃ t1 t2 : Nat, (c1, t1) ∈ born ∧ (c2, t2) ∈ born ∧ t1 < t2 := by
  have hsx := Reachable_shape (Trace_reachable ht)
  have ho := Trace_origin ht
  have hm1 : c1 ∈ n.Children := List.getElem?_mem h1
  have hm2 : c2 ∈ n.Children := List.getElem?_mem h2
  have hin : ∀ c ∈ n.Children, ∃ t : Nat, (c, t) ∈ born := by
    intro c hc
    obtain ⟨cn, g, hpar⟩ := hsx.down a n ha c hc
    have := ho.attached c cn g (by rw [hpar]; exact fun e => Option.noConfusion e)
    obtain ⟨x, hx, e⟩ := List.mem_map.mp this
    exact ⟨x.2, by rw [← e]; exact hx⟩
  obtain ⟨t1, b1⟩ := hin c1 hm1
  obtain ⟨t2, b2⟩ := hin c2 hm2
  have hlt : c1 < c2 := by
    obtain ⟨hi1, e1⟩ := List.getElem?_eq_some.mp h1
    obtain ⟨hj1, e2⟩ := List.getElem?_eq_some.mp h2
    rw [← e1, ← e2]
    exact List.pairwise_iff_getElem.mp (hsx.sorted a n ha) i j hi1 hj1 hij
  exact ⟨t1, t2, b1, b2, pairwise_both ho.sorted b1 b2 hlt⟩

theorem Below_mono {h h1 : Heap} (hk : ∀ b : Ptr, childrenOf h b ⊆ childrenOf h1 b) {E x : Ptr}
    (hb : Below h E x) : Below h1 E x := by
  induction hb with
  | child hx => exact Below.child (hk _ hx)
  | deeper _ hx ih => exact Below.deeper ih (hk _ hx)

theorem Below_kids {h : Heap} {E x : Ptr} (hb : Below h E x) : childrenOf h E ≠ [] := by
  induction hb with
  | child hx => exact List.ne_nil_of_mem hx
  | deeper _ _ ih => exact ih

theorem Below_head {h : Heap} {E y x : Ptr} (hy : y ∈ childrenOf h E) (hb : Below h y x) :
    Below h E x := by
  induction hb with
  | child hx => exact Below.deeper (Below.child hy) hx
  | deeper _ hx ih => exact Below.deeper ih hx

theorem walk_below {h : Heap} {node : Ptr} : ∀ (seq : List Nat) (c : Ptr),
    walk h c seq = .ok node → c = node ∨ Below h c node := by
  intro seq
  induction seq with
  | nil =>
    intro c hw
    simp [walk] at hw
    exact Or.inl hw
  | cons k rest ih =>
    intro c hw
    obtain ⟨c1, hc, hw1⟩ := walk_cons_iff.mp hw
    have hm : c1 ∈ childrenOf h c := List.getElem?_mem hc
    rcases ih c1 hw1 with e | hb
    · rw [← e]
      exact Or.inr (Below.child hm)
    · exact Or.inr (Below_head hm hb)

/-- The node the walk ends at is a node of the path or lies below it. -/
theorem path_below {h : Heap} {node : Ptr} : ∀ (seq : List Nat) (a : Ptr),
    walk h a seq = .ok node → ∀ x ∈ pathNodes h a seq, x = node ∨ Below h x node := by
  intro seq
  induction seq with
  | nil =>
    intro a _ x hx
    simp [pathNodes] at hx
  | cons k rest ih =>
    intro a hw x hx
    obtain ⟨c1, hc, hw1⟩ := walk_cons_iff.mp hw
    rw [pathNodes_cons rest hc] at hx
    rcases List.mem_cons.mp hx with e | hx1
    · rw [e]
      exact walk_below rest c1 hw1
    · exact ih c1 hw1 x hx1

theorem step_kids {s s1 : State} {err err1 : GoError} {p : Pull} (hr : Reachable s)
    (hs : iteration 0 s err p = .ok (Flow.next s1 err1)) (b : Ptr) :
    childrenOf s.heap b ⊆ childrenOf s1.heap b := by
  cases hg : s.heap[b]? with
  | none =>
    intro x hx
    simp [childrenOf, hg] at hx
  | some n =>
    obtain ⟨n1, g, _, _, _, _, _, _, _, _, _, hpre, _⟩ := step_frame hr hs hg
    rw [childrenOf_get hg, childrenOf_get g]
    exact hpre.subset

/-- While the element at `E` stays open, the nodes that are attached lie below
it, and the first of them is its first child. -/
theorem Inside_below {E : Ptr} {s s2 : State} {name : String} {qs : List Pull}
    {made : List Ptr} (hr : Reachable s)
    (hE : ∃ n : Node, s.heap[E]? = some n ∧ n.Typ = NodeType.ElementNode ∧ n.TagName = name ∧
      n.Children = [])
    (hin : Inside E s qs made s2) :
    Reachable s2 ∧
    (∃ n : Node, s2.heap[E]? = some n ∧ n.Typ = NodeType.ElementNode ∧ n.TagName = name ∧
      n.Children.head? = made.head?) ∧
    ∀ x ∈ made, Below s2.heap E x := by
  induction hin with
  | nil =>
    obtain ⟨n, g, h1, h2, h3⟩ := hE
    exact ⟨hr, ⟨n, g, h1, h2, by rw [h3]⟩, fun x hx => absurd hx (List.not_mem_nil _)⟩
  | step hin1 hs hopen ih =>
    rename_i s1 s3 err err1 q qs made
    obtain ⟨hr1, ⟨n, g, hty, htag, hhead⟩, hbel⟩ := ih
    obtain ⟨n2, g2, hcl2⟩ := hopen
    obtain ⟨n1, g1, f1, _, f3, _, _, _, _, _, _, _, f11, f12, _⟩ := step_frame hr1 hs g
    have e12 : n2 = n1 := by
      rw [g1] at g2
      exact (Option.some.inj g2).symm
    subst e12
    have hcl : n.Close = false := by
      cases hc : n.Close with
      | false => rfl
      | true => rw [f11 hc] at hcl2; cases hcl2
    have hpath : E ∈ pathNodes s1.heap 0 s1.sequence :=
      ((Reachable_shape hr1).opened E n g).mp ((isOpen_iff n).mpr ⟨hty, hcl⟩)
    have hbel2 : ∀ x ∈ made, Below s3.heap E x :=
      fun x hx => Below_mono (step_kids hr1 hs) (hbel x hx)
    refine ⟨Reachable.step hr1 hs, ?_, ?_⟩
    · refine ⟨n2, g1, by rw [f1]; exact hty, by rw [f3]; exact htag, ?_⟩
      by_cases hp : attaches q
      · rw [if_pos hp, List.head?_append]
        by_cases hk : n2.Children = n.Children
        · -- the node was attached further down: `E` had a child already
          obtain ⟨node, nd, hw, hn, hit, _, _, gnode, _⟩ := round_attaches err hr1 hp
          have hne : E ≠ node := by
            intro e
            rw [hit] at hs
            simp only [Except.ok.injEq, Flow.next.injEq] at hs
            rw [hs.1, ← e, g1] at gnode
            have e3 := Option.some.inj gnode
            rw [e] at g
            rw [hn] at g
            have e4 := Option.some.inj g
            rw [e3, e4] at hk
            simp at hk
          rcases path_below _ _ hw E hpath with e | hb
          · exact absurd e hne
          · have hkids := Below_kids hb
            rw [childrenOf_get g] at hkids
            rw [hk, hhead]
            cases hm : made.head? with
            | none =>
              rw [hm] at hhead
              exact absurd (List.head?_eq_none_iff.mp hhead) hkids
            | some v => rfl
        · obtain ⟨_, _, e⟩ := f12 hk
          rw [e, List.head?_append, hhead]
      · rw [if_neg hp]
        have hk : n2.Children = n.Children := by
          by_contra hk
          exact hp (f12 hk).1
        rw [hk]
        exact hhead
    · by_cases hp : attaches q
      · rw [if_pos hp]
        intro x hx
        rcases List.mem_append.mp hx with hx1 | hx1
        · exact hbel2 x hx1
        · simp at hx1
          subst hx1
          obtain ⟨node, nd, hw, hn, hit, _, _, gnode, _⟩ := round_attaches err hr1 hp
          rw [hit] at hs
          simp only [Except.ok.injEq, Flow.next.injEq] at hs
          rw [hs.1] at gnode
          have hmem : s1.heap.length ∈ childrenOf s3.heap node := by
            rw [childrenOf_get gnode]
            simp
          rcases path_below _ _ hw E hpath with e | hb
          · rw [e]
            exact Below.child hmem
          · refine Below.deeper (Below_mono ?_ hb) hmem
            intro b
            have := step_kids hr1 hit b
            rw [hs.1] at this
            exact this
      · rw [if_neg hp]
        exact hbel2

theorem Later_reachable {s s2 : State} (hr : Reachable s) (hl : Later s s2) : Reachable s2 := by
  induction hl with
  | refl => exact hr
  | step _ hs ih => exact Reachable.step ih hs

/-- What the later rounds leave of a node of the store. -/
theorem Later_frame {s s2 : State} (hr : Reachable s) (hl : Later s s2) {a : Ptr} {n : Node}
    (ha : s.heap[a]? = some n) :
    ∃ n2 : Node, s2.heap[a]? = some n2 ∧ n2.Typ = n.Typ ∧ n2.TagName = n.TagName ∧
      n2.Text = n.Text ∧ n2.Attr = n.Attr ∧ n2.ID = n.ID ∧ n2.Class = n.Class ∧
      n2.Nth = n.Nth ∧ n2.Parent = n.Parent ∧ n.Children <+: n2.Children ∧
      (n.Close = true → n2.Close = true) := by
  induction hl with
  | refl =>
    exact ⟨n, ha, rfl, rfl, rfl, rfl, rfl, rfl, rfl, rfl, List.prefix_refl _, fun h => h⟩
  | step hl1 hs ih =>
    obtain ⟨n1, g1, a1, a2, a3, a4, a5, a6, a7, a8, a9, a10⟩ := ih
    obtain ⟨n2, g2, b1, _, b2, b3, b4, b5, b6, b7, b8, b9, b10, _⟩ :=
      step_frame (Later_reachable hr hl1) hs g1
    exact ⟨n2, g2, b1.trans a1, b2.trans a2, b3.trans a3, b4.trans a4, b5.trans a5,
      b6.trans a6, b7.trans a7, b8.trans a8, a9.trans b9, fun h => b10 (a10 h)⟩

theorem pathNodes_length {h : Heap} : ∀ (seq : List Nat) (a : Ptr), Spine h a seq →
    (pathNodes h a seq).length = seq.length := by
  intro seq
  induction seq with
  | nil => intro _ _; rfl
  | cons k rest ih =>
    intro a hs
    obtain ⟨c, hc, _, hs1⟩ := hs
    rw [pathNodes_cons rest hc, List.length_cons, List.length_cons, ih c hs1]

theorem path_child {h : Heap} {x : Ptr} : ∀ (seq : List Nat) (a : Ptr),
    x ∈ pathNodes h a seq → ∃ b : Ptr, x ∈ childrenOf h b := by
  intro seq
  induction seq with
  | nil => intro a hx; simp [pathNodes] at hx
  | cons k rest ih =>
    intro a hx
    cases hc : (childrenOf h a)[k]? with
    | none => simp [pathNodes, hc] at hx
    | some c =>
      rw [pathNodes_cons rest hc] at hx
      rcases List.mem_cons.mp hx with e | hx1
      · exact ⟨a, by rw [e]; exact List.getElem?_mem hc⟩
      · exact ih c hx1

/-- The nodes on the path were created by StartTag tokens whose name is not
void. -/
theorem Trace_open_origin {s : State} {toks : List Pull} {born : List (Ptr × Nat)}
    (ht : Trace s toks born) {a : Ptr} (ha : a ∈ pathNodes s.heap 0 s.sequence) :
    ∃ (t : Nat) (p : Pull), (a, t) ∈ born ∧ toks[t]? = some p ∧
      p.token.Typ = TokenType.StartTagToken ∧ p.token.Data ∉ voidNames ∧
      tagOf s.heap a = p.token.Data := by
  have hr := Trace_reachable ht
  have hsx := Reachable_shape hr
  have ho := Trace_origin ht
  obtain ⟨b, hb⟩ := path_child _ _ ha
  cases hgb : s.heap[b]? with
  | none => simp [childrenOf, hgb] at hb
  | some nb =>
    rw [childrenOf_get hgb] at hb
    obtain ⟨n, g, hpar⟩ := hsx.down b nb hgb a hb
    have hop := (hsx.opened a n g).mpr ha
    rw [isOpen_iff] at hop
    have hat := ho.attached a n g (by rw [hpar]; exact fun e => Option.noConfusion e)
    obtain ⟨x, hx, ex⟩ := List.mem_map.mp hat
    obtain ⟨p, n1, t1, t2, t3, t4, _, t6⟩ := ho.token x hx
    have e1 : n1 = n := by
      rw [ex, g] at t3
      exact (Option.some.inj t3).symm
    subst e1
    have hty : (literal p).Typ = NodeType.ElementNode := by
      have := congrArg (fun v => v.1) t4
      simp only [view] at this
      rw [← this]
      exact hop.1
    have htag : n1.TagName = (literal p).TagName := by
      have := congrArg (fun v => v.2.1) t4
      simpa only [view] using this
    have hcl : (literal p).Close ≠ true := by
      intro hc
      have := t6 hc
      rw [hop.2] at this
      cases this
    have hx2 : (a, x.2) ∈ born := by
      rw [← ex]
      exact hx
    have htagOf : tagOf s.heap a = n1.TagName := by
      simp [tagOf, g]
    refine ⟨x.2, p, hx2, t1, ?_⟩
    unfold attaches at t2
    unfold literal at hty hcl htag
    cases hT : p.token.Typ <;> rw [hT] at t2 hty hcl htag <;> simp at t2 hty hcl htag
    exact ⟨rfl, hcl, by rw [htagOf, htag]⟩

theorem Nested_mono {s s1 : State} {err err1 : GoError} {p : Pull} (hr : Reachable s)
    (hs : iteration 0 s err p = .ok (Flow.next s1 err1)) {E x : Ptr}
    (hb : Nested s.heap E x) : Nested s1.heap E x := by
  induction hb with
  | child hx => exact Nested.child (step_kids hr hs _ hx)
  | deeper _ hg hty hnv hx ih =>
    obtain ⟨n1, g1, f1, _, f3, _⟩ := step_frame hr hs hg
    exact Nested.deeper ih g1 (by rw [f1]; exact hty) (by rw [f3]; exact hnv)
      (step_kids hr hs _ hx)

theorem Below_lt {h : Heap} (hinc : Increasing h) {E x : Ptr} (hb : Below h E x) : E < x := by
  have hkid : ∀ (a c : Ptr), c ∈ childrenOf h a → a < c := by
    intro a c hc
    cases hg : h[a]? with
    | none => simp [childrenOf, hg] at hc
    | some n =>
      rw [childrenOf_get hg] at hc
      exact hinc a n hg c hc
  induction hb with
  | child hx => exact hkid _ _ hx
  | deeper _ hx ih => exact Nat.lt_trans ih (hkid _ _ hx)

theorem Below_listed {h : Heap} {E x : Ptr} (hb : Below h E x) :
    ∃ (y : Ptr) (n : Node), h[y]? = some n ∧ x ∈ n.Children := by
  have hkid : ∀ (a c : Ptr), c ∈ childrenOf h a → ∃ (y : Ptr) (n : Node), h[y]? = some n ∧
      c ∈ n.Children := by
    intro a c hc
    cases hg : h[a]? with
    | none => simp [childrenOf, hg] at hc
    | some n =>
      rw [childrenOf_get hg] at hc
      exact ⟨a, n, hg, hc⟩
  cases hb with
  | child hx => exact hkid _ _ hx
  | deeper _ hx => exact hkid _ _ hx

/-- The node allocated in a round that attaches nothing has no parent. -/
theorem step_new_cell {s s1 : State} {err err1 : GoError} {p : Pull} (hr : Reachable s)
    (hs : iteration 0 s err p = .ok (Flow.next s1 err1)) (hp : ¬ attaches p) {a : Ptr}
    {n : Node} (ha : s1.heap[a]? = some n) (hge : s.heap.length ≤ a) : n.Parent = none := by
  obtain ⟨node, nd, _, hn, hc⟩ := step_cases (Reachable_inv hr) hs
  rcases hc with ⟨_, _, e, _⟩ | ⟨_, e, _⟩ | ⟨_, _, _, e, _⟩ | ⟨h1, _⟩
  · rw [e] at ha
    exact absurd (lt_of_get ha) (Nat.not_lt_of_le hge)
  · rw [e, afterError_heap hn] at ha
    rcases get_step_cases ha with ⟨_, _, hlt⟩ | ⟨_, e1⟩ | ⟨_, e1⟩
    · exact absurd hlt (Nat.not_lt_of_le hge)
    · exact absurd (lt_of_get e1) (Nat.not_lt_of_le hge)
    · rw [e1]
  · rw [e, afterClose_heap] at ha
    rcases get_step_cases ha with ⟨_, _, hlt⟩ | ⟨_, e1⟩ | ⟨_, e1⟩
    · exact absurd hlt (Nat.not_lt_of_le hge)
    · exact absurd (lt_of_get e1) (Nat.not_lt_of_le hge)
    · rw [e1]
  · exact absurd h1 hp

/-- Where the next node goes while the element at `E` is open: the walk ends
at an open Element, which is `E` or one of the nodes attached since `E` was
created, hanging below `E` through elements. -/
theorem Inside_target {s2 : State} {E : Ptr} {made : List Ptr} (hr2 : Reachable s2)
    (hopen : ∃ n : Node, s2.heap[E]? = some n ∧ n.Typ = NodeType.ElementNode ∧ n.Close = false)
    (hnest : ∀ x ∈ made, Nested s2.heap E x)
    (hall : ∀ (a : Ptr) (n : Node), s2.heap[a]? = some n → E < a → n.Parent ≠ none →
      a ∈ made) :
    ∃ (node : Ptr) (nd : Node), walk s2.heap 0 s2.sequence = .ok node ∧
      s2.heap[node]? = some nd ∧ nd.Typ = NodeType.ElementNode ∧ nd.Close = false ∧
      nd.TagName ∉ voidNames ∧ (node = E ∨ (node ∈ made ∧ Nested s2.heap E node)) := by
  have hsx := Reachable_shape hr2
  obtain ⟨node, hw, hlt⟩ := (Reachable_inv hr2).path
  have hn : s2.heap[node]? = some (s2.heap[node]) := List.getElem?_eq_getElem hlt
  obtain ⟨n, g, hty, hcl⟩ := hopen
  have hpath : E ∈ pathNodes s2.heap 0 s2.sequence :=
    (hsx.opened E n g).mp ((isOpen_iff n).mpr ⟨hty, hcl⟩)
  have hne : s2.sequence ≠ [] := by
    intro e
    rw [e] at hpath
    simp [pathNodes] at hpath
  have hop := (hsx.opened node _ hn).mpr (walk_mem_path _ _ _ hw hne)
  have hnv := hsx.nonvoid node _ hn hop
  rw [isOpen_iff] at hop
  refine ⟨node, _, hw, hn, hop.1, hop.2, hnv, ?_⟩
  rcases path_below _ _ hw E hpath with e | hb
  · exact Or.inl e.symm
  · right
    obtain ⟨y, ny, gy, hmem⟩ := Below_listed hb
    obtain ⟨cn, gc, hpar⟩ := hsx.down y ny gy node hmem
    have hin : node ∈ made :=
      hall node cn gc (Below_lt hsx.inc hb) (by rw [hpar]; exact fun e => Option.noConfusion e)
    exact ⟨hin, hnest node hin⟩

/-- While the element at `E` stays open, it stays open, the nodes that are
attached hang below it through elements, and every node with a parent that
was allocated after `E` is one of them. -/
theorem Inside_nested {E : Ptr} {s s2 : State} {qs : List Pull} {made : List Ptr}
    (hr : Reachable s)
    (hE : ∃ n : Node, s.heap[E]? = some n ∧ n.Typ = NodeType.ElementNode ∧ n.Close = false)
    (hlast : s.heap.length = E + 1) (hin : Inside E s qs made s2) :
    Reachable s2 ∧
    (∃ n : Node, s2.heap[E]? = some n ∧ n.Typ = NodeType.ElementNode ∧ n.Close = false) ∧
    (∀ x ∈ made, Nested s2.heap E x) ∧
    ∀ (a : Ptr) (n : Node), s2.heap[a]? = some n → E < a → n.Parent ≠ none → a ∈ made := by
  induction hin with
  | nil =>
    refine ⟨hr, hE, fun x hx => absurd hx (List.not_mem_nil _), ?_⟩
    intro a n g hlt _
    have h1 : @LT.lt Nat _ a s.heap.length := lt_of_get g
    have h2 : @LT.lt Nat _ E a := hlt
    omega
  | step hin1 hs hopen ih =>
    rename_i s1 s3 err err1 q qs made
    obtain ⟨hr1, hop1, hnest, hall⟩ := ih
    obtain ⟨n, g, hty, hcl⟩ := hop1
    obtain ⟨n2, g2, hcl2⟩ := hopen
    obtain ⟨n1, g1, f1, _⟩ := step_frame hr1 hs g
    have e12 : n2 = n1 := by
      rw [g1] at g2
      exact (Option.some.inj g2).symm
    subst e12
    have hold : ∀ (a : Ptr) (m : Node), s3.heap[a]? = some m → a < s1.heap.length →
        E < a → m.Parent ≠ none → a ∈ made := by
      intro a m gm halt hEa hpar
      have g0 : s1.heap[a]? = some (s1.heap[a]) := List.getElem?_eq_getElem halt
      obtain ⟨m1, gm1, _, _, _, _, _, _, _, _, f9, _⟩ := step_frame hr1 hs g0
      rw [gm] at gm1
      rw [Option.some.inj gm1, f9] at hpar
      exact hall a _ g0 hEa hpar
    refine ⟨Reachable.step hr1 hs, ⟨n2, g1, by rw [f1]; exact hty, hcl2⟩, ?_, ?_⟩
    · by_cases hp : attaches q
      · rw [if_pos hp]
        intro x hx
        rcases List.mem_append.mp hx with hx1 | hx1
        · exact Nested_mono hr1 hs (hnest x hx1)
        · simp at hx1
          subst hx1
          obtain ⟨node, nd, hw, hn, hit, _, _, gnode, _⟩ := round_attaches err hr1 hp
          obtain ⟨node1, nd1, hw1, hn1, t1, _, t3, t4⟩ :=
            Inside_target hr1 ⟨n, g, hty, hcl⟩ hnest hall
          have en : node1 = node := by
            rw [hw] at hw1
            simp only [Except.ok.injEq] at hw1
            exact hw1.symm
          subst en
          have end1 : nd1 = nd := by
            rw [hn] at hn1
            exact (Option.some.inj hn1).symm
          subst end1
          rw [hit] at hs
          simp only [Except.ok.injEq, Flow.next.injEq] at hs
          rw [hs.1] at gnode
          have hmem : s1.heap.length ∈ childrenOf s3.heap node1 := by
            rw [childrenOf_get gnode]
            simp
          rcases t4 with e | ⟨hm, hnst⟩
          · rw [← e]
            exact Nested.child hmem
          · have hnst3 : Nested s3.heap E node1 := by
              have := Nested_mono hr1 hit hnst
              rw [hs.1] at this
              exact this
            exact Nested.deeper hnst3 gnode t1 t3 hmem
      · rw [if_neg hp]
        intro x hx
        exact Nested_mono hr1 hs (hnest x hx)
    · intro a m gm hEa hpar
      by_cases halt : a < s1.heap.length
      · have := hold a m gm halt hEa hpar
        by_cases hp : attaches q
        · rw [if_pos hp]
          exact List.mem_append_left _ this
        · rw [if_neg hp]
          exact this
      · by_cases hp : attaches q
        · rw [if_pos hp]
          obtain ⟨node, nd, _, _, hit, hlen, _⟩ := round_attaches err hr1 hp
          rw [hit] at hs
          simp only [Except.ok.injEq, Flow.next.injEq] at hs
          rw [hs.1] at hlen
          have h1 := lt_of_get gm
          rw [hlen] at h1
          have e : a = s1.heap.length :=
            Nat.le_antisymm (Nat.lt_succ_iff.mp h1) (Nat.le_of_not_lt halt)
          rw [e]
          simp
        · exact absurd (step_new_cell hr1 hs hp gm (Nat.le_of_not_lt halt)) hpar

theorem Nested_below {h : Heap} {E x : Ptr} (hb : Nested h E x) : Below h E x := by
  induction hb with
  | child hx => exact Below.child hx
  | deeper _ _ _ _ hx ih => exact Below.deeper ih hx

/-! ## The claims -/

/-- C1 (code defect). On `StartTag(div), EndTag(span), EndTag(div)` the build
does not succeed: the round on `EndTag(span)`, whose name differs from the open
`div`, leaves the `switch` of `AddChild` without returning and reaches
`child.Parent.Children` of line 210 with `child.Parent` nil, a nil dereference. -/
theorem mismatched_end_tag_panics :
    ParseHtml [startTag "div" [], endTag "span", endTag "div"] =
      .error Fault.nilDereference := by
  rfl

/-- C2 (code defect). An EndTag token processed while the path is empty makes
the build panic, whatever its tag name: a nil dereference at line 210 for a
non-empty name, and for the empty name (equal to the tag name of the Document)
the slice `sequence[:len(sequence)-1]` of line 200 with length 0. -/
theorem end_tag_at_document_panics (name : String) :
    ParseHtml [endTag name] =
      .error (if name = "" then Fault.sliceBoundsOutOfRange else Fault.nilDereference) := by
  have h := @iteration_end initState 0 { Typ := NodeType.DocumentNode } GoError.nil
    (endTag name) rfl rfl rfl
  rw [ParseHtml_eq]
  unfold parseLoop
  simp only [h]
  by_cases e : name = ""
  · subst e
    simp [endTag, initState]
  · have e1 : ¬ ("" = name) := fun h => e h.symm
    simp [endTag, initState, e, e1]

/-- C3 (code defect). The well-formed sequence `StartTag(br), EndTag(br)` makes
the build panic: `br` is a void name, so its node is not pushed on the path,
and the end tag is compared with the Document and takes the mismatch path of
`AddChild` into the nil dereference of line 210. -/
theorem void_pair_panics :
    ParseHtml [startTag "br" [], endTag "br"] = .error Fault.nilDereference := by
  rfl

/-- C4. A StartTag token with a void name, in any state of the builder, ends its
round without a panic and adds exactly one node: an Element with `Close = true`
that is the new last child of the node the path leads to. The path is returned
unchanged and still leads to the same node, so that the node of the next
attaching token becomes the following sibling of the void element, which
stays without children. -/
theorem void_start_tag (s : State) (err : GoError) (p : Pull) (hr : Reachable s)
    (hT : p.token.Typ = TokenType.StartTagToken) (hv : p.token.Data ∈ voidNames) :
    ∃ (node : Ptr) (nd : Node) (s1 : State) (c : Node),
      walk s.heap 0 s.sequence = .ok node ∧ s.heap[node]? = some nd ∧
      iteration 0 s err p = .ok (Flow.next s1 err) ∧
      s1.heap.length = s.heap.length + 1 ∧
      s1.heap[s.heap.length]? = some c ∧
      c.Typ = NodeType.ElementNode ∧ c.TagName = p.token.Data ∧ c.Close = true ∧
      c.Parent = some node ∧ c.Children = [] ∧
      s1.heap[node]? = some { nd with Children := nd.Children ++ [s.heap.length] } ∧
      (∀ a : Ptr, a ≠ node → a < s.heap.length → s1.heap[a]? = s.heap[a]?) ∧
      s1.sequence = s.sequence ∧
      walk s1.heap 0 s1.sequence = .ok node ∧
      ∀ q : Pull, attaches q →
        ∃ (s2 : State) (nd2 c1 c2 : Node),
          iteration 0 s1 err q = .ok (Flow.next s2 err) ∧
          s2.heap[node]? = some nd2 ∧
          nd2.Children = nd.Children ++ [s.heap.length, s.heap.length + 1] ∧
          s2.heap[s.heap.length]? = some c1 ∧ c1.Children = [] ∧
          s2.heap[s.heap.length + 1]? = some c2 ∧ c2.Parent = some node := by
  have hp : attaches p := attaches_of_tag (Or.inl hT)
  obtain ⟨node, nd, hw, hn, hit, hlen, hnew, hpar, hfr⟩ := round_attaches err hr hp
  have hpass := passed_void hT hv
  have hseq : (afterInsert s node nd p).sequence = s.sequence := by
    simp [afterInsert, pushed, hpass]
  have hw1 : walk (afterInsert s node nd p).heap 0 s.sequence = .ok node :=
    walk_step _ _ hn (List.prefix_append _ _) hw
  refine ⟨node, nd, afterInsert s node nd p, created s node nd p, hw, hn, hit, hlen, hnew,
    ?_, ?_, ?_, rfl, created_children s node nd p, hpar, hfr, hseq, ?_, ?_⟩
  · show (prep (passed p) (literal p)).Typ = _
    rw [prep_typ]
    simp [literal, hT]
  · show (prep (passed p) (literal p)).TagName = _
    rw [prep_tag]
    simp [literal, hT]
  · show (prep (passed p) (literal p)).Close = _
    rw [prep_close]
    simp [literal, hT, hv]
  · rw [hseq]
    exact hw1
  · intro q hq
    have hr1 : Reachable (afterInsert s node nd p) := Reachable.step hr hit
    obtain ⟨node2, nd2, hw2, hn2, hit2, _, hnew2, hpar2, hold2⟩ := round_attaches err hr1 hq
    rw [hseq, hw1] at hw2
    have e : node2 = node := by
      injection hw2 with e
      exact e.symm
    subst e
    rw [hpar] at hn2
    have e2 : nd2 = { nd with Children := nd.Children ++ [s.heap.length] } :=
      (Option.some.inj hn2).symm
    subst e2
    rw [hlen] at hnew2
    refine ⟨_, _, created s node2 nd p, _, hit2, hpar2, ?_, ?_, created_children s node2 nd p,
      hnew2, rfl⟩
    · rw [hlen]
      simp
    · rw [hold2 s.heap.length (Nat.ne_of_gt (lt_of_get hn)) (by rw [hlen]; exact Nat.lt_succ_self _)]
      exact hnew

/-- C4, at the start of a parse: `<br>` as the first token; and the tree built
from `<br>` and a text, in which the text is the second child of the Document
and the `br` node has no child. -/
theorem void_start_tag_witness :
    (∃ (node : Ptr) (nd : Node) (s1 : State) (c : Node),
      walk initState.heap 0 initState.sequence = .ok node ∧ initState.heap[node]? = some nd ∧
      iteration 0 initState GoError.nil (startTag "br" []) = .ok (Flow.next s1 GoError.nil) ∧
      s1.heap.length = initState.heap.length + 1 ∧
      s1.heap[initState.heap.length]? = some c ∧
      c.Typ = NodeType.ElementNode ∧ c.TagName = (startTag "br" []).token.Data ∧
      c.Close = true ∧ c.Parent = some node ∧ c.Children = [] ∧
      s1.heap[node]? = some { nd with Children := nd.Children ++ [initState.heap.length] } ∧
      (∀ a : Ptr, a ≠ node → a < initState.heap.length → s1.heap[a]? = initState.heap[a]?) ∧
      s1.sequence = initState.sequence ∧
      walk s1.heap 0 s1.sequence = .ok node ∧
      ∀ q : Pull, attaches q →
        ∃ (s2 : State) (nd2 c1 c2 : Node),
          iteration 0 s1 GoError.nil q = .ok (Flow.next s2 GoError.nil) ∧
          s2.heap[node]? = some nd2 ∧
          nd2.Children = nd.Children ++ [initState.heap.length, initState.heap.length + 1] ∧
          s2.heap[initState.heap.length]? = some c1 ∧ c1.Children = [] ∧
          s2.heap[initState.heap.length + 1]? = some c2 ∧ c2.Parent = some node) ∧
    (builtNode (ParseHtml [startTag "br" [], textToken "x"]) 0).map (fun n => n.Children) =
      some [1, 2] ∧
    (builtNode (ParseHtml [startTag "br" [], textToken "x"]) 1).map
      (fun n => (n.Typ, n.TagName, n.Close, n.Children)) =
        some (NodeType.ElementNode, "br", true, []) ∧
    (builtNode (ParseHtml [startTag "br" [], textToken "x"]) 2).map
      (fun n => (n.Typ, n.Text, n.Parent)) = some (NodeType.TextNode, "x", some 0) :=
  ⟨void_start_tag initState GoError.nil (startTag "br" []) Reachable.init rfl (by decide),
    by decide, by decide, by decide⟩

/-- C5. In every state of the builder each child carries as `Nth` the number
of children with its tag name up to and including itself in the `Children` of
its parent. A token that attaches a node gives the new node, which is then the
last child, the number of all children of its parent that have its tag name,
itself included, counted in the store after the insertion. -/
theorem sibling_ordinal (s : State) (err : GoError) (p : Pull) (hr : Reachable s)
    (hp : attaches p) :
    Ordinals s.heap ∧
    ∃ (node : Ptr) (s1 : State) (c nd1 : Node),
      walk s.heap 0 s.sequence = .ok node ∧
      iteration 0 s err p = .ok (Flow.next s1 err) ∧
      s1.heap[s.heap.length]? = some c ∧ c.Parent = some node ∧
      s1.heap[node]? = some nd1 ∧ nd1.Children.getLast? = some s.heap.length ∧
      c.Nth = countTag s1.heap nd1.Children c.TagName ∧
      Ordinals s1.heap := by
  refine ⟨(Reachable_inv hr).ordinals, ?_⟩
  obtain ⟨node, nd, hw, hn, hit, hlen, hnew, hpar, _⟩ := round_attaches err hr hp
  have hr1 : Reachable (afterInsert s node nd p) := Reachable.step hr hit
  have ho := (Reachable_inv hr1).ordinals
  refine ⟨node, afterInsert s node nd p, created s node nd p, _, hw, hit, hnew, rfl, hpar,
    by simp, ?_, ho⟩
  have h1 := ho node _ hpar nd.Children.length s.heap.length (by simp)
  have e1 : nthOf (afterInsert s node nd p).heap s.heap.length = (created s node nd p).Nth := by
    simp [nthOf, hnew]
  have e2 : tagOf (afterInsert s node nd p).heap s.heap.length =
      (created s node nd p).TagName := by
    simp [tagOf, hnew]
  rw [e1, e2] at h1
  rw [h1]
  congr 1
  simp

/-- C5, at the start of a parse, and on the list `li, span, li, li` below `ul`:
the `li` nodes get 1, 2, 3 and the `span` gets 1. -/
theorem sibling_ordinal_witness :
    (Ordinals initState.heap ∧
      ∃ (node : Ptr) (s1 : State) (c nd1 : Node),
        walk initState.heap 0 initState.sequence = .ok node ∧
        iteration 0 initState GoError.nil (startTag "li" []) = .ok (Flow.next s1 GoError.nil) ∧
        s1.heap[initState.heap.length]? = some c ∧ c.Parent = some node ∧
        s1.heap[node]? = some nd1 ∧ nd1.Children.getLast? = some initState.heap.length ∧
        c.Nth = countTag s1.heap nd1.Children c.TagName ∧
        Ordinals s1.heap) ∧
    (let r := ParseHtml [startTag "ul" [], startTag "li" [], endTag "li", startTag "span" [],
        endTag "span", startTag "li" [], endTag "li", startTag "li" [], endTag "li", endTag "ul"]
     (builtNode r 1).map (fun n => n.Children) = some [2, 4, 6, 8] ∧
     [2, 4, 6, 8].map (fun a => (builtNode r a).map (fun n => (n.TagName, n.Nth))) =
       [some ("li", 1), some ("span", 1), some ("li", 2), some ("li", 3)]) :=
  ⟨sibling_ordinal initState GoError.nil (startTag "li" []) Reachable.init trivial,
    by decide⟩

/-- C6. A StartTag or SelfClosingTag token whose last `class` attribute has a
value made of tokens (not empty, no space) that are one or two spaces apart
creates a node whose `Class` is the list of these tokens in order; its `ID` is
the value of the last `id` attribute. -/
theorem class_tokens (s : State) (err : GoError) (p : Pull) (first : String)
    (rest : List (Bool × String)) (hr : Reachable s)
    (hT : p.token.Typ = TokenType.StartTagToken ∨ p.token.Typ = TokenType.SelfClosingTagToken)
    (hf : IsToken first) (hrest : ∀ x ∈ rest, IsToken x.2)
    (hv : lastVal "class" p.token.Attr = some (classValue first rest)) :
    ∃ (s1 : State) (c : Node),
      iteration 0 s err p = .ok (Flow.next s1 err) ∧
      s1.heap[s.heap.length]? = some c ∧ c.Typ = NodeType.ElementNode ∧
      c.Attr = p.token.Attr ∧
      c.Class = first :: rest.map (fun x => x.2) ∧
      c.ID = (lastVal "id" p.token.Attr).getD "" := by
  obtain ⟨node, nd, _, _, hit, _, hnew, _, _⟩ := round_attaches err hr (attaches_of_tag hT)
  obtain ⟨c1, _, c3, c4, c5⟩ := created_of_tag s node nd hT
  refine ⟨_, _, hit, hnew, c1, c3, ?_, c4⟩
  rw [c5, hv]
  exact Split_Replace_classValue first rest hf hrest

/-- C6, on the attributes `id="x" class="a  b"` of a first `div`. -/
theorem class_tokens_witness :
    ∃ (s1 : State) (c : Node),
      iteration 0 initState GoError.nil
        (startTag "div" [{ Key := "id", Val := "x" }, { Key := "class", Val := "a  b" }]) =
          .ok (Flow.next s1 GoError.nil) ∧
      s1.heap[initState.heap.length]? = some c ∧ c.Typ = NodeType.ElementNode ∧
      c.Attr = [{ Key := "id", Val := "x" }, { Key := "class", Val := "a  b" }] ∧
      c.Class = ["a", "b"] ∧ c.ID = "x" :=
  class_tokens initState GoError.nil
    (startTag "div" [{ Key := "id", Val := "x" }, { Key := "class", Val := "a  b" }])
    "a" [(true, "b")] Reachable.init (Or.inl rfl) (by decide) (by decide) (by decide)

/-- C7, as stated, fails: the class values `""` and `" a"` (a leading space)
give a `Class` with an empty entry. -/
theorem class_entry_empty :
    (∃ c : Node,
      builtNode (ParseHtml [startTag "div" [{ Key := "class", Val := "" }]]) 1 = some c ∧
      c.Typ = NodeType.ElementNode ∧ c.Class = [""] ∧
      ¬ (∀ e ∈ c.Class, e ≠ "" ∧ ' ' ∉ e.data)) ∧
    (∃ c : Node,
      builtNode (ParseHtml [startTag "div" [{ Key := "class", Val := " a" }]]) 1 = some c ∧
      c.Typ = NodeType.ElementNode ∧ c.Class = ["", "a"] ∧
      ¬ (∀ e ∈ c.Class, e ≠ "" ∧ ' ' ∉ e.data)) := by
  refine ⟨⟨_, rfl, rfl, rfl, ?_⟩, ⟨_, rfl, rfl, rfl, ?_⟩⟩
  · intro h
    exact (h "" (by decide)).1 rfl
  · intro h
    exact (h "" (by decide)).1 rfl

/-- C7, amended. The `Class` of a node created from a StartTag or SelfClosingTag
token is empty when the token has no attribute with key `class`; otherwise it
has at least one entry and no entry holds a space (an entry may be empty). -/
theorem class_entries (s : State) (err : GoError) (p : Pull) (hr : Reachable s)
    (hT : p.token.Typ = TokenType.StartTagToken ∨ p.token.Typ = TokenType.SelfClosingTagToken) :
    ∃ (s1 : State) (c : Node),
      iteration 0 s err p = .ok (Flow.next s1 err) ∧
      s1.heap[s.heap.length]? = some c ∧ c.Typ = NodeType.ElementNode ∧
      c.Attr = p.token.Attr ∧
      ((∀ a ∈ p.token.Attr, a.Key ≠ "class") → c.Class = []) ∧
      ((∃ a ∈ p.token.Attr, a.Key = "class") →
        c.Class ≠ [] ∧ ∀ e ∈ c.Class, ' ' ∉ e.data) := by
  obtain ⟨node, nd, _, _, hit, _, hnew, _, _⟩ := round_attaches err hr (attaches_of_tag hT)
  obtain ⟨c1, _, c3, _, c5⟩ := created_of_tag s node nd hT
  refine ⟨_, _, hit, hnew, c1, c3, ?_, ?_⟩
  · intro hno
    rw [c5, (lastVal_eq_none_iff "class" p.token.Attr).mpr hno]
  · intro hex
    cases hl : lastVal "class" p.token.Attr with
    | none =>
      obtain ⟨a, ha, hk⟩ := hex
      exact absurd hk ((lastVal_eq_none_iff "class" p.token.Attr).mp hl a ha)
    | some v =>
      rw [c5, hl]
      simp only []
      rw [Split_space]
      constructor
      · intro h
        exact splitFrom_ne_nil _ _ _ (List.map_eq_nil_iff.mp h)
      · intro e he
        obtain ⟨l, hl1, hl2⟩ := List.mem_map.mp he
        rw [← hl2]
        intro hsp
        exact splitFrom_no_space _ [] (fun c hc => by cases hc) l hl1 ' ' hsp rfl

/-- C7 amended, on `class=" a"` of a first `div`: two entries, none with a space. -/
theorem class_entries_witness :
    ∃ (s1 : State) (c : Node),
      iteration 0 initState GoError.nil (startTag "div" [{ Key := "class", Val := " a" }]) =
        .ok (Flow.next s1 GoError.nil) ∧
      s1.heap[initState.heap.length]? = some c ∧ c.Typ = NodeType.ElementNode ∧
      c.Attr = [{ Key := "class", Val := " a" }] ∧
      ((∀ a ∈ [({ Key := "class", Val := " a" } : Attribute)], a.Key ≠ "class") → c.Class = []) ∧
      ((∃ a ∈ [({ Key := "class", Val := " a" } : Attribute)], a.Key = "class") →
        c.Class ≠ [] ∧ ∀ e ∈ c.Class, ' ' ∉ e.data) :=
  class_entries initState GoError.nil (startTag "div" [{ Key := "class", Val := " a" }])
    Reachable.init (Or.inl rfl)

/-- C8. The `ID` of a node created from a StartTag or SelfClosingTag token is
the value of the last attribute of the token whose key is `id`, and the empty
string when the token has no such attribute. -/
theorem id_last_wins (s : State) (err : GoError) (p : Pull) (hr : Reachable s)
    (hT : p.token.Typ = TokenType.StartTagToken ∨ p.token.Typ = TokenType.SelfClosingTagToken) :
    ∃ (s1 : State) (c : Node),
      iteration 0 s err p = .ok (Flow.next s1 err) ∧
      s1.heap[s.heap.length]? = some c ∧ c.Typ = NodeType.ElementNode ∧
      c.Attr = p.token.Attr ∧
      c.ID = (lastVal "id" p.token.Attr).getD "" ∧
      ((∀ a ∈ p.token.Attr, a.Key ≠ "id") → c.ID = "") := by
  obtain ⟨node, nd, _, _, hit, _, hnew, _, _⟩ := round_attaches err hr (attaches_of_tag hT)
  obtain ⟨c1, _, c3, c4, _⟩ := created_of_tag s node nd hT
  refine ⟨_, _, hit, hnew, c1, c3, c4, ?_⟩
  intro hno
  rw [c4, (lastVal_eq_none_iff "id" p.token.Attr).mpr hno]
  rfl

/-- C8, on the attributes `id="x" class="k" id="y"` of a first `div`: the
last `id` wins. -/
theorem id_last_wins_witness :
    (∃ (s1 : State) (c : Node),
      iteration 0 initState GoError.nil
        (startTag "div" [{ Key := "id", Val := "x" }, { Key := "class", Val := "k" },
          { Key := "id", Val := "y" }]) = .ok (Flow.next s1 GoError.nil) ∧
      s1.heap[initState.heap.length]? = some c ∧ c.Typ = NodeType.ElementNode ∧
      c.Attr = [{ Key := "id", Val := "x" }, { Key := "class", Val := "k" },
          { Key := "id", Val := "y" }] ∧
      c.ID = (lastVal "id" [{ Key := "id", Val := "x" }, { Key := "class", Val := "k" },
          { Key := "id", Val := "y" }]).getD "" ∧
      ((∀ a ∈ [({ Key := "id", Val := "x" } : Attribute), { Key := "class", Val := "k" },
          { Key := "id", Val := "y" }], a.Key ≠ "id") → c.ID = "")) ∧
    (lastVal "id" [{ Key := "id", Val := "x" }, { Key := "class", Val := "k" },
          { Key := "id", Val := "y" }]).getD "" = "y" :=
  ⟨id_last_wins initState GoError.nil
    (startTag "div" [{ Key := "id", Val := "x" }, { Key := "class", Val := "k" },
      { Key := "id", Val := "y" }]) Reachable.init (Or.inl rfl), by decide⟩

/-- C9. A Text token whose payload is made of whitespace characters only (or
is empty) leaves the state of the builder as it is. Any other Text token adds
exactly one node, a Text node with tag name `text` attached as the last child
of the open node, and its `Text` is what is left of the payload after its
leading whitespace: the payload is a run of whitespace followed by `Text`, and
`Text` starts with a character that is not whitespace. -/
theorem text_token (s : State) (err : GoError) (p : Pull) (hr : Reachable s)
    (hT : p.token.Typ = TokenType.TextToken) :
    ((∀ c ∈ p.token.Data.data, c ∈ wsChars) → iteration 0 s err p = .ok (Flow.next s err)) ∧
    (¬ (∀ c ∈ p.token.Data.data, c ∈ wsChars) →
      ∃ (node : Ptr) (nd : Node) (s1 : State) (c : Node) (ws : List Char),
        walk s.heap 0 s.sequence = .ok node ∧ s.heap[node]? = some nd ∧
        iteration 0 s err p = .ok (Flow.next s1 err) ∧
        s1.heap.length = s.heap.length + 1 ∧
        s1.heap[s.heap.length]? = some c ∧
        c.Typ = NodeType.TextNode ∧ c.TagName = "text" ∧ c.Parent = some node ∧
        (∃ nd1 : Node, s1.heap[node]? = some nd1 ∧
          nd1.Children = nd.Children ++ [s.heap.length]) ∧
        s1.sequence = s.sequence ∧
        p.token.Data.data = ws ++ c.Text.data ∧ (∀ x ∈ ws, x ∈ wsChars) ∧
        ∃ (x : Char) (rest : List Char), c.Text.data = x :: rest ∧ x ∉ wsChars) := by
  have hdata : (trimmed p).data =
      p.token.Data.data.dropWhile (fun c => whitespace.data.contains c) := rfl
  constructor
  · intro hall
    apply iteration_skip s err hT
    have : (trimmed p).data = [] := by
      rw [hdata, List.dropWhile_eq_nil_iff]
      intro x hx
      exact (whitespace_chars x).mpr (hall x hx)
    show (trimmed p).data.length = 0
    rw [this]
    rfl
  · intro hnot
    have hne : (trimmed p).data ≠ [] := by
      intro h
      rw [hdata, List.dropWhile_eq_nil_iff] at h
      exact hnot (fun x hx => (whitespace_chars x).mp (h x hx))
    have hp : attaches p := by
      unfold attaches
      rw [hT]
      show (trimmed p).data.length ≠ 0
      intro h
      exact hne (List.length_eq_zero.mp h)
    obtain ⟨node, nd, hw, hn, hit, hlen, hnew, hpar, _⟩ := round_attaches err hr hp
    have hpass : passed p = TokenType.TextToken := by simp [passed, hT]
    have hlit : (literal p).Typ = NodeType.TextNode ∧ (literal p).TagName = "text" ∧
        (literal p).Text = trimmed p := by
      unfold literal
      rw [hT]
      exact ⟨rfl, rfl, rfl⟩
    have htext : (created s node nd p).Text = trimmed p := by
      show (prep (passed p) (literal p)).Text = _
      rw [prep_text, hlit.2.2]
    refine ⟨node, nd, _, created s node nd p,
      p.token.Data.data.takeWhile (fun c => whitespace.data.contains c), hw, hn, hit, hlen,
      hnew, ?_, ?_, rfl, ⟨_, hpar, rfl⟩, ?_, ?_, ?_, ?_⟩
    · show (prep (passed p) (literal p)).Typ = _
      rw [prep_typ, hlit.1]
    · rw [created_tag, hlit.2.1]
    · simp [afterInsert, pushed, hpass]
    · rw [htext, hdata, List.takeWhile_append_dropWhile]
    · intro x hx
      exact (whitespace_chars x).mp (List.mem_takeWhile_imp hx)
    · rw [htext]
      cases hd : (trimmed p).data with
      | nil => exact absurd hd hne
      | cons x rest =>
        refine ⟨x, rest, rfl, ?_⟩
        rw [hdata] at hd
        have hx := dropWhile_head _ x rest hd
        intro hmem
        rw [(whitespace_chars x).mpr hmem] at hx
        cases hx

/-- C9, on the payloads `" \t\n"` and `"  hi there "` at the start of a parse:
the first adds nothing, the second adds one Text node holding `"hi there "`. -/
theorem text_token_witness :
    iteration 0 initState GoError.nil (textToken " \t\n") =
      .ok (Flow.next initState GoError.nil) ∧
    (builtNode (ParseHtml [textToken "  hi there "]) 1).map
      (fun n => (n.Typ, n.TagName, n.Text, n.Parent)) =
        some (NodeType.TextNode, "text", "hi there ", some 0) :=
  ⟨(text_token initState GoError.nil (textToken " \t\n") Reachable.init rfl).1 (by decide),
    by decide⟩

/-- C10 (code defect). A genuine error of the token source that comes after an
end tag which does not match the open node is not returned: the build panics
in the round of the end tag, before the Error token is pulled. -/
theorem error_after_end_tag_panics :
    ParseHtml [endTag "span", errorToken (GoError.other "boom")] =
      .error Fault.nilDereference := by
  rfl

/-- C11. After a build that succeeded, the children of every node are in the
order of the tokens that created them: when `c1` stands before `c2` in the
`Children` of a node, the rounds that allocated `c1` and `c2` (the birth list
of the trace records them with the position of their token among the tokens
pulled) were on tokens `p1`, pulled first, and `p2`, pulled later, and the two
children carry what these tokens carried. -/
theorem children_in_token_order (r : List Pull) (h : Heap) (d : Ptr) (e : GoError)
    (hp : ParseHtml r = .ok (some (h, d), e)) :
    ∃ (seq : List Nat) (born : List (Ptr × Nat)), Trace ⟨h, seq⟩ (pulled r) born ∧
      ∀ (a : Ptr) (n : Node) (i j : Nat) (c1 c2 : Ptr), h[a]? = some n →
        n.Children[i]? = some c1 → n.Children[j]? = some c2 → i < j →
        ∃ (t1 t2 : Nat) (p1 p2 : Pull), (c1, t1) ∈ born ∧ (c2, t2) ∈ born ∧ t1 < t2 ∧
          (pulled r)[t1]? = some p1 ∧ (pulled r)[t2]? = some p2 ∧
          (h[c1]?).map view = some (view (literal p1)) ∧
          (h[c2]?).map view = some (view (literal p2)) := by
  obtain ⟨_, _, seq, born, ht⟩ := ParseHtml_trace hp
  refine ⟨seq, born, ht, ?_⟩
  intro a n i j c1 c2 ha h1 h2 hij
  obtain ⟨t1, t2, b1, b2, hlt⟩ := Trace_children_order ht ha h1 h2 hij
  have ho := Trace_origin ht
  obtain ⟨p1, n1, g1, _, k1, v1, _⟩ := ho.token _ b1
  obtain ⟨p2, n2, g2, _, k2, v2, _⟩ := ho.token _ b2
  refine ⟨t1, t2, p1, p2, b1, b2, hlt, g1, g2, ?_, ?_⟩
  · show (h[c1]?).map view = _
    have k1' : h[c1]? = some n1 := k1
    rw [k1', Option.map_some', v1]
  · have k2' : h[c2]? = some n2 := k2
    rw [k2', Option.map_some', v2]

/-- C11 on `<ul><li></li>x</ul>`: the build succeeds, and the `li` element
(child 0 of the `ul`) comes from token 1, the Text node (child 1) from
token 3. -/
theorem children_in_token_order_witness :
    ∃ h : Heap,
      ParseHtml [startTag "ul" [], startTag "li" [], endTag "li", textToken "x", endTag "ul"] =
        .ok (some (h, 0), GoError.nil) ∧
      ∃ (seq : List Nat) (born : List (Ptr × Nat)),
        Trace ⟨h, seq⟩
          (pulled [startTag "ul" [], startTag "li" [], endTag "li", textToken "x",
            endTag "ul"]) born ∧
        ∀ (a : Ptr) (n : Node) (i j : Nat) (c1 c2 : Ptr), h[a]? = some n →
          n.Children[i]? = some c1 → n.Children[j]? = some c2 → i < j →
          ∃ (t1 t2 : Nat) (p1 p2 : Pull), (c1, t1) ∈ born ∧ (c2, t2) ∈ born ∧ t1 < t2 ∧
            (pulled [startTag "ul" [], startTag "li" [], endTag "li", textToken "x",
              endTag "ul"])[t1]? = some p1 ∧
            (pulled [startTag "ul" [], startTag "li" [], endTag "li", textToken "x",
              endTag "ul"])[t2]? = some p2 ∧
            (h[c1]?).map view = some (view (literal p1)) ∧
            (h[c2]?).map view = some (view (literal p2)) :=
  ⟨_, rfl, children_in_token_order _ _ 0 GoError.nil rfl⟩

/-- C12. A StartTag token whose name is not void creates an open Element at
the next free address `E`.  In the rounds that follow, for as long as the
element stays open (so up to, and not including, the round of the end tag
that closes it, or to the end of the stream), `E` stays the place where nodes
go: the path leads to `E` itself, or to an Element that was attached in these
rounds, is still open and hangs below `E` through elements only, and to `E`
itself when no such element is open; the round on the next node-producing
token ends without a panic, appends its node to the children of that node and
belongs to these rounds.  So every node attached in these rounds hangs below
`E` through elements only, and the first of them is the first child of
`E`. -/
theorem open_element_collects {s s1 s2 : State} {err err1 : GoError} {p : Pull}
    {qs : List Pull} {made : List Ptr} (hr : Reachable s)
    (hT : p.token.Typ = TokenType.StartTagToken) (hv : p.token.Data ∉ voidNames)
    (hs : iteration 0 s err p = .ok (Flow.next s1 err1))
    (hin : Inside s.heap.length s1 qs made s2) :
    (∃ n : Node, s1.heap[s.heap.length]? = some n ∧ n.Typ = NodeType.ElementNode ∧
      n.TagName = p.token.Data ∧ n.Close = false ∧ n.Children = []) ∧
    (∃ n : Node, s2.heap[s.heap.length]? = some n ∧ n.Typ = NodeType.ElementNode ∧
      n.TagName = p.token.Data ∧ n.Close = false ∧ n.Children.head? = made.head?) ∧
    (∀ x ∈ made, Nested s2.heap s.heap.length x ∧ Below s2.heap s.heap.length x) ∧
    ∃ (node : Ptr) (nd : Node), walk s2.heap 0 s2.sequence = .ok node ∧
      s2.heap[node]? = some nd ∧ nd.Typ = NodeType.ElementNode ∧ nd.Close = false ∧
      nd.TagName ∉ voidNames ∧
      (node = s.heap.length ∨ (node ∈ made ∧ Nested s2.heap s.heap.length node)) ∧
      ((∀ x ∈ made, ∀ n : Node, s2.heap[x]? = some n → n.Typ = NodeType.ElementNode →
        n.Close = true) → node = s.heap.length) ∧
      ∀ (q : Pull) (err2 : GoError), attaches q →
        ∃ (s3 : State) (c : Node), iteration 0 s2 err2 q = .ok (Flow.next s3 err2) ∧
          s3.heap[s2.heap.length]? = some c ∧ c.Parent = some node ∧
          childrenOf s3.heap node = nd.Children ++ [s2.heap.length] ∧
          Inside s.heap.length s1 (qs ++ [q]) (made ++ [s2.heap.length]) s3 := by
  have hp : attaches p := by
    unfold attaches
    rw [hT]
    trivial
  obtain ⟨node0, nd0, _, _, hit, hlen, gnew, _⟩ := round_attaches err hr hp
  rw [hit] at hs
  simp only [Except.ok.injEq, Flow.next.injEq] at hs
  rw [hs.1] at gnew hlen
  have hlit : (literal p).Typ = NodeType.ElementNode ∧ (literal p).TagName = p.token.Data ∧
      (literal p).Close = false := by
    unfold literal
    rw [hT]
    simp [hv]
  have hty : (created s node0 nd0 p).Typ = NodeType.ElementNode := by
    rw [created_typ]; exact hlit.1
  have htag : (created s node0 nd0 p).TagName = p.token.Data := by
    rw [created_tag]; exact hlit.2.1
  have hcl : (created s node0 nd0 p).Close = false := by
    rw [created_close]; exact hlit.2.2
  have hr1 : Reachable s1 := by
    rw [← hs.1]
    exact Reachable.step hr hit
  obtain ⟨_, ⟨n2, g2, hty2, htag2, hhead⟩, _⟩ :=
    Inside_below hr1 ⟨_, gnew, hty, htag, created_children s node0 nd0 p⟩ hin
  obtain ⟨hr2, ⟨m2, gm2, _, hcl2⟩, hnest, hall⟩ :=
    Inside_nested hr1 ⟨_, gnew, hty, hcl⟩ hlen hin
  have em : m2 = n2 := by
    rw [g2] at gm2
    exact (Option.some.inj gm2).symm
  subst em
  obtain ⟨node, nd, hw, hn, t1, t2, t3, t4⟩ :=
    Inside_target hr2 ⟨m2, g2, hty2, hcl2⟩ hnest hall
  refine ⟨⟨_, gnew, hty, htag, hcl, created_children s node0 nd0 p⟩,
    ⟨m2, g2, hty2, htag2, hcl2, hhead⟩, fun x hx => ⟨hnest x hx, Nested_below (hnest x hx)⟩,
    node, nd, hw, hn, t1, t2, t3, t4, ?_, ?_⟩
  · intro hclosed
    rcases t4 with e | ⟨hm, _⟩
    · exact e
    · have := hclosed node hm nd hn t1
      rw [t2] at this
      cases this
  · intro q err2 hq
    obtain ⟨node1, nd1, hw1, hn1, hit1, _, gnew1, gnode1, _⟩ := round_attaches err2 hr2 hq
    have en : node1 = node := by
      rw [hw] at hw1
      simp only [Except.ok.injEq] at hw1
      exact hw1.symm
    subst en
    have end1 : nd1 = nd := by
      rw [hn] at hn1
      exact (Option.some.inj hn1).symm
    subst end1
    obtain ⟨k1, gk1, _, _, _, _, _, _, _, _, _, _, _, _, fcl⟩ := step_frame hr2 hit1 g2
    have hk1 : k1.Close = false := by
      cases hc : k1.Close with
      | false => rfl
      | true =>
        have hne : k1.Close ≠ m2.Close := by
          rw [hc, hcl2]
          exact fun e => Bool.noConfusion e
        have hend := (fcl hne).1
        unfold attaches at hq
        rw [hend] at hq
        exact absurd hq (fun h => h)
    have hstep := Inside.step hin hit1 ⟨k1, gk1, hk1⟩
    rw [if_pos hq] at hstep
    exact ⟨_, _, hit1, gnew1, rfl, childrenOf_get gnode1, hstep⟩

/-- C12 on `<div>` followed by `a`, `<b>` and `c`: the `div` is at address 1
and stays open; the nodes at the addresses 2, 3 and 4 hang below it, the Text
node at 2 as its first child; after the three rounds the path leads to the
`b` at address 3, one of the three nodes, and the next node goes below it. -/
theorem open_element_collects_witness :
    iteration 0 initState GoError.nil (startTag "div" []) =
      .ok (Flow.next (after initState (startTag "div" [])) GoError.nil) ∧
    Inside 1 (after initState (startTag "div" []))
      [textToken "a", startTag "b" [], textToken "c"] [2, 3, 4]
      (after (after (after (after initState (startTag "div" [])) (textToken "a"))
        (startTag "b" [])) (textToken "c")) ∧
    walk (after (after (after (after initState (startTag "div" [])) (textToken "a"))
        (startTag "b" [])) (textToken "c")).heap 0
      (after (after (after (after initState (startTag "div" [])) (textToken "a"))
        (startTag "b" [])) (textToken "c")).sequence = .ok 3 ∧
    (∃ n : Node, (after initState (startTag "div" [])).heap[1]? = some n ∧
      n.Typ = NodeType.ElementNode ∧ n.TagName = "div" ∧ n.Close = false ∧ n.Children = []) ∧
    (∃ n : Node, (after (after (after (after initState (startTag "div" [])) (textToken "a"))
        (startTag "b" [])) (textToken "c")).heap[1]? = some n ∧
      n.Typ = NodeType.ElementNode ∧ n.TagName = "div" ∧ n.Close = false ∧
      n.Children.head? = some 2) ∧
    (∀ x ∈ [2, 3, 4], Nested (after (after (after (after initState (startTag "div" [])) (textToken "a"))
        (startTag "b" [])) (textToken "c")).heap 1 x ∧
      Below (after (after (after (after initState (startTag "div" [])) (textToken "a"))
        (startTag "b" [])) (textToken "c")).heap 1 x) ∧
    ∃ (node : Ptr) (nd : Node),
      walk (after (after (after (after initState (startTag "div" [])) (textToken "a"))
        (startTag "b" [])) (textToken "c")).heap 0
        (after (after (after (after initState (startTag "div" [])) (textToken "a"))
        (startTag "b" [])) (textToken "c")).sequence = .ok node ∧
      (after (after (after (after initState (startTag "div" [])) (textToken "a"))
        (startTag "b" [])) (textToken "c")).heap[node]? = some nd ∧
      nd.Typ = NodeType.ElementNode ∧ nd.Close = false ∧ nd.TagName ∉ voidNames ∧
      (node = 1 ∨ (node ∈ [2, 3, 4] ∧ Nested (after (after (after (after initState (startTag "div" [])) (textToken "a"))
        (startTag "b" [])) (textToken "c")).heap 1 node)) ∧
      ((∀ x ∈ [2, 3, 4], ∀ n : Node, (after (after (after (after initState (startTag "div" [])) (textToken "a"))
        (startTag "b" [])) (textToken "c")).heap[x]? = some n →
        n.Typ = NodeType.ElementNode → n.Close = true) → node = 1) ∧
      ∀ (q : Pull) (err2 : GoError), attaches q →
        ∃ (s3 : State) (c : Node),
          iteration 0 (after (after (after (after initState (startTag "div" [])) (textToken "a"))
        (startTag "b" [])) (textToken "c")) err2 q = .ok (Flow.next s3 err2) ∧
          s3.heap[5]? = some c ∧ c.Parent = some node ∧
          childrenOf s3.heap node = nd.Children ++ [5] ∧
          Inside 1 (after initState (startTag "div" []))
            ([textToken "a", startTag "b" [], textToken "c"] ++ [q]) ([2, 3, 4] ++ [5]) s3 :=
  ⟨rfl,
    (@Inside.step 1 (after initState (startTag "div" []))
      (after (after (after initState (startTag "div" [])) (textToken "a"))
        (startTag "b" []))
      (after (after (after (after initState (startTag "div" [])) (textToken "a"))
        (startTag "b" [])) (textToken "c"))
      GoError.nil GoError.nil (textToken "c") [textToken "a", startTag "b" []] [2, 3]
      (@Inside.step 1 (after initState (startTag "div" []))
        (after (after initState (startTag "div" [])) (textToken "a"))
        (after (after (after initState (startTag "div" [])) (textToken "a"))
        (startTag "b" []))
        GoError.nil GoError.nil (startTag "b" []) [textToken "a"] [2]
        (@Inside.step 1 (after initState (startTag "div" [])) (after initState (startTag "div" []))
          (after (after initState (startTag "div" [])) (textToken "a"))
          GoError.nil GoError.nil (textToken "a") [] [] Inside.nil rfl ⟨_, rfl, rfl⟩)
        rfl ⟨_, rfl, rfl⟩)
      rfl ⟨_, rfl, rfl⟩),
    rfl,
    @open_element_collects initState (after initState (startTag "div" []))
      (after (after (after (after initState (startTag "div" [])) (textToken "a"))
        (startTag "b" [])) (textToken "c"))
      GoError.nil GoError.nil (startTag "div" [])
      [textToken "a", startTag "b" [], textToken "c"] [2, 3, 4] Reachable.init rfl (by decide) rfl
      (@Inside.step 1 (after initState (startTag "div" []))
      (after (after (after initState (startTag "div" [])) (textToken "a"))
        (startTag "b" []))
      (after (after (after (after initState (startTag "div" [])) (textToken "a"))
        (startTag "b" [])) (textToken "c"))
      GoError.nil GoError.nil (textToken "c") [textToken "a", startTag "b" []] [2, 3]
      (@Inside.step 1 (after initState (startTag "div" []))
        (after (after initState (startTag "div" [])) (textToken "a"))
        (after (after (after initState (startTag "div" [])) (textToken "a"))
        (startTag "b" []))
        GoError.nil GoError.nil (startTag "b" []) [textToken "a"] [2]
        (@Inside.step 1 (after initState (startTag "div" [])) (after initState (startTag "div" []))
          (after (after initState (startTag "div" [])) (textToken "a"))
          GoError.nil GoError.nil (textToken "a") [] [] Inside.nil rfl ⟨_, rfl, rfl⟩)
        rfl ⟨_, rfl, rfl⟩)
      rfl ⟨_, rfl, rfl⟩)⟩

/-- C13. The round on a StartTag or SelfClosingTag token ends without a panic,
and the element it creates (at the next free address) has the attribute list
of the token as its `Attr`: the same entries in the same order, duplicates
and the value of a `class` attribute included, since the scan for `id` and
`class` writes `ID` and `Class` only.  The later rounds leave `Attr` as it
is. -/
theorem attributes_kept {s : State} (err : GoError) {p : Pull} (hr : Reachable s)
    (hT : p.token.Typ = TokenType.StartTagToken ∨
      p.token.Typ = TokenType.SelfClosingTagToken) :
    ∃ s1 : State, iteration 0 s err p = .ok (Flow.next s1 err) ∧
      ∀ s2 : State, Later s1 s2 →
        ∃ n : Node, s2.heap[s.heap.length]? = some n ∧ n.Typ = NodeType.ElementNode ∧
          n.TagName = p.token.Data ∧ n.Parent ≠ none ∧ n.Attr = p.token.Attr := by
  have hp : attaches p := by
    unfold attaches
    rcases hT with h | h <;> rw [h] <;> trivial
  obtain ⟨node, nd, _, _, hit, _, gnew, _⟩ := round_attaches err hr hp
  refine ⟨_, hit, ?_⟩
  intro s2 hl
  obtain ⟨n2, g2, a1, a2, _, a4, _, _, _, a8, _⟩ :=
    Later_frame (Reachable.step hr hit) hl gnew
  have hlit : (literal p).Typ = NodeType.ElementNode ∧ (literal p).TagName = p.token.Data ∧
      (literal p).Attr = p.token.Attr := by
    unfold literal
    rcases hT with h | h <;> rw [h] <;> exact ⟨rfl, rfl, rfl⟩
  refine ⟨n2, g2, ?_, ?_, ?_, ?_⟩
  · rw [a1, created_typ]
    exact hlit.1
  · rw [a2, created_tag]
    exact hlit.2.1
  · rw [a8]
    exact fun e => Option.noConfusion e
  · rw [a4, created_attr]
    exact hlit.2.2

/-- C13 at the start of a parse, on a start tag with two `class` attributes
and a repeated `id`. -/
theorem attributes_kept_witness :
    ∃ s1 : State,
      iteration 0 initState GoError.nil
        (startTag "p" [⟨"", "class", "a  b"⟩, ⟨"", "id", "x"⟩, ⟨"", "class", "c"⟩,
          ⟨"", "id", "x"⟩]) = .ok (Flow.next s1 GoError.nil) ∧
      ∀ s2 : State, Later s1 s2 →
        ∃ n : Node, s2.heap[initState.heap.length]? = some n ∧
          n.Typ = NodeType.ElementNode ∧
          n.TagName = (startTag "p" [⟨"", "class", "a  b"⟩, ⟨"", "id", "x"⟩,
            ⟨"", "class", "c"⟩, ⟨"", "id", "x"⟩]).token.Data ∧
          n.Parent ≠ none ∧
          n.Attr = (startTag "p" [⟨"", "class", "a  b"⟩, ⟨"", "id", "x"⟩, ⟨"", "class", "c"⟩,
            ⟨"", "id", "x"⟩]).token.Attr :=
  attributes_kept GoError.nil Reachable.init (Or.inl rfl)

/-- C14. A round that ends without a panic leaves every node of the store its
`Type`, `TagName`, `Text`, `Attr`, `ID`, `Class`, `Nth` and `Parent`, and its
`Children` as a prefix of its `Children` afterwards.  The `Children` change
only for the node the path leads to, in a round that attaches a node, by the
append of the new node; `Close` changes only for the node the path leads to,
an open Element with the name of the EndTag token of the round, from false to
true.  The same is kept through all later rounds: no node changes parent, and
no child leaves its place in a `Children` list. -/
theorem round_frame {s s1 : State} {err err1 : GoError} {p : Pull} (hr : Reachable s)
    (hs : iteration 0 s err p = .ok (Flow.next s1 err1)) {a : Ptr} {n : Node}
    (ha : s.heap[a]? = some n) :
    (∃ n1 : Node, s1.heap[a]? = some n1 ∧ n1.Typ = n.Typ ∧ n1.DataAtom = n.DataAtom ∧
      n1.TagName = n.TagName ∧ n1.Text = n.Text ∧ n1.Attr = n.Attr ∧ n1.ID = n.ID ∧ n1.Class = n.Class ∧
      n1.Nth = n.Nth ∧ n1.Parent = n.Parent ∧ n.Children <+: n1.Children ∧
      (n.Close = true → n1.Close = true) ∧
      (n1.Children ≠ n.Children → attaches p ∧ walk s.heap 0 s.sequence = .ok a ∧
        n1.Children = n.Children ++ [s.heap.length]) ∧
      (n1.Close ≠ n.Close → p.token.Typ = TokenType.EndTagToken ∧
        walk s.heap 0 s.sequence = .ok a ∧ n.Typ = NodeType.ElementNode ∧
        n.TagName = p.token.Data ∧ n.Close = false ∧ n1.Close = true)) ∧
    ∀ s2 : State, Later s1 s2 →
      ∃ n2 : Node, s2.heap[a]? = some n2 ∧ n2.Typ = n.Typ ∧ n2.TagName = n.TagName ∧
        n2.Text = n.Text ∧ n2.Attr = n.Attr ∧ n2.ID = n.ID ∧ n2.Class = n.Class ∧
        n2.Nth = n.Nth ∧ n2.Parent = n.Parent ∧ n.Children <+: n2.Children ∧
        (n.Close = true → n2.Close = true) ∧
        ∀ (k : Nat) (c : Ptr), n.Children[k]? = some c → n2.Children[k]? = some c := by
  obtain ⟨n1, g1, f1, f2, f3, f4, f5, f6, f7, f8, f9, f10, f11, f12, f13⟩ :=
    step_frame hr hs ha
  refine ⟨⟨n1, g1, f1, f2, f3, f4, f5, f6, f7, f8, f9, f10, f11, f12, f13⟩, ?_⟩
  intro s2 hl
  obtain ⟨n2, g2, b1, b2, b3, b4, b5, b6, b7, b8, b9, b10⟩ :=
    Later_frame (Reachable.step hr hs) hl g1
  have hpre : n.Children <+: n2.Children := f10.trans b9
  refine ⟨n2, g2, b1.trans f1, b2.trans f3, b3.trans f4, b4.trans f5, b5.trans f6,
    b6.trans f7, b7.trans f8, b8.trans f9, hpre, fun h => b10 (f11 h), ?_⟩
  intro k c hk
  obtain ⟨t, ht⟩ := hpre
  rw [← ht]
  rw [List.getElem?_append_left (List.getElem?_eq_some.mp hk).1]
  exact hk

/-- C14 on the round of the Text token `x` after `<div>`, for the `div` at
address 1. -/
theorem round_frame_witness :
    ∃ n : Node, (after initState (startTag "div" [])).heap[1]? = some n ∧
      iteration 0 (after initState (startTag "div" [])) GoError.nil (textToken "x") =
        .ok (Flow.next (after (after initState (startTag "div" [])) (textToken "x"))
          GoError.nil) ∧
      ((∃ n1 : Node,
        (after (after initState (startTag "div" [])) (textToken "x")).heap[1]? = some n1 ∧
        n1.Typ = n.Typ ∧ n1.DataAtom = n.DataAtom ∧ n1.TagName = n.TagName ∧
        n1.Text = n.Text ∧ n1.Attr = n.Attr ∧ n1.ID = n.ID ∧ n1.Class = n.Class ∧
        n1.Nth = n.Nth ∧ n1.Parent = n.Parent ∧ n.Children <+: n1.Children ∧
        (n.Close = true → n1.Close = true) ∧
        (n1.Children ≠ n.Children → attaches (textToken "x") ∧
          walk (after initState (startTag "div" [])).heap 0
            (after initState (startTag "div" [])).sequence = .ok 1 ∧
          n1.Children = n.Children ++ [(after initState (startTag "div" [])).heap.length]) ∧
        (n1.Close ≠ n.Close → (textToken "x").token.Typ = TokenType.EndTagToken ∧
          walk (after initState (startTag "div" [])).heap 0
            (after initState (startTag "div" [])).sequence = .ok 1 ∧
          n.Typ = NodeType.ElementNode ∧
          n.TagName = (textToken "x").token.Data ∧ n.Close = false ∧ n1.Close = true)) ∧
      ∀ s2 : State, Later (after (after initState (startTag "div" [])) (textToken "x")) s2 →
        ∃ n2 : Node, s2.heap[1]? = some n2 ∧ n2.Typ = n.Typ ∧ n2.TagName = n.TagName ∧
          n2.Text = n.Text ∧ n2.Attr = n.Attr ∧ n2.ID = n.ID ∧ n2.Class = n.Class ∧
          n2.Nth = n.Nth ∧ n2.Parent = n.Parent ∧ n.Children <+: n2.Children ∧
          (n.Close = true → n2.Close = true) ∧
          ∀ (k : Nat) (c : Ptr), n.Children[k]? = some c → n2.Children[k]? = some c) :=
  ⟨_, rfl, rfl,
    @round_frame (after initState (startTag "div" []))
      (after (after initState (startTag "div" [])) (textToken "x")) GoError.nil GoError.nil
      (textToken "x")
      (Reachable.step Reachable.init
        (rfl : iteration 0 initState GoError.nil (startTag "div" []) =
          .ok (Flow.next (after initState (startTag "div" [])) GoError.nil)))
      rfl 1 _ rfl⟩

/-- C15. In the tree a successful `ParseHtml` returns, every node `x` other
than the root (every node of the pre-order listing below the returned node)
has a parent `q`, occurs exactly once in the `Children` of `q`, and occurs in
the `Children` of no other node. -/
theorem parent_child_links (r : List Pull) (h : Heap) (d : Ptr) (e : GoError)
    (hp : ParseHtml r = .ok (some (h, d), e)) (x : Ptr) (hx : x ∈ preorder h h.length d)
    (hne : x ≠ d) :
    ∃ (n : Node) (q : Ptr) (pn : Node), h[x]? = some n ∧ n.Parent = some q ∧
      h[q]? = some pn ∧ pn.Children.count x = 1 ∧
      ∀ (b : Ptr) (m : Node), h[b]? = some m → x ∈ m.Children → b = q := by
  obtain ⟨hd, _, seq, born, ht⟩ := ParseHtml_trace hp
  subst hd
  have hsx := Reachable_shape (Trace_reachable ht)
  have ho := Trace_origin ht
  have hl : preorder h h.length 0 = 0 :: born.map Prod.fst := ho.listing
  rw [hl] at hx
  rcases List.mem_cons.mp hx with e0 | hx1
  · exact absurd e0 hne
  · obtain ⟨y, hy, ey⟩ := List.mem_map.mp hx1
    obtain ⟨_, n, _, _, g, _, hpar, _⟩ := ho.token y hy
    rw [ey] at g
    have g1 : h[x]? = some n := g
    cases hq : n.Parent with
    | none => exact absurd hq hpar
    | some q =>
      obtain ⟨pn, gq, hmem⟩ := hsx.up x n q g1 hq
      have hnd : pn.Children.Nodup :=
        (hsx.sorted q pn gq).imp (fun hab => Nat.ne_of_lt hab)
      refine ⟨n, q, pn, g1, hq, gq, List.count_eq_one_of_mem hnd hmem, ?_⟩
      intro b m gb hxm
      obtain ⟨cn, gc, hcp⟩ := hsx.down b m gb x hxm
      have gc1 : h[x]? = some cn := gc
      rw [g1] at gc1
      rw [← Option.some.inj gc1, hq] at hcp
      exact (Option.some.inj hcp).symm

/-- C15 on `<ul><li></li>x</ul>`, for the Text node at address 4, a child of
the `ul` at address 1. -/
theorem parent_child_links_witness :
    ∃ h : Heap,
      ParseHtml [startTag "ul" [], startTag "li" [], endTag "li", textToken "x", endTag "ul"] =
        .ok (some (h, 0), GoError.nil) ∧
      4 ∈ preorder h h.length 0 ∧
      ∃ (n : Node) (q : Ptr) (pn : Node), h[4]? = some n ∧ n.Parent = some q ∧
        h[q]? = some pn ∧ pn.Children.count 4 = 1 ∧
        ∀ (b : Ptr) (m : Node), h[b]? = some m → 4 ∈ m.Children → b = q :=
  ⟨_, rfl, by decide,
    parent_child_links
      [startTag "ul" [], startTag "li" [], endTag "li", textToken "x", endTag "ul"] _ 0
      GoError.nil rfl 4 (by decide) (by decide)⟩

/-- C16. The node a successful `ParseHtml` returns is a Document without a
parent and with an empty tag name; no other node of the store is a Document,
and every other node of the tree is an Element, a Text, a Comment or a
Doctype. -/
theorem document_is_root (r : List Pull) (h : Heap) (d : Ptr) (e : GoError)
    (hp : ParseHtml r = .ok (some (h, d), e)) :
    (∃ n : Node, h[d]? = some n ∧ n.Typ = NodeType.DocumentNode ∧ n.Parent = none ∧
      n.TagName = "") ∧
    (∀ (a : Ptr) (n : Node), h[a]? = some n → a ≠ d → n.Typ ≠ NodeType.DocumentNode) ∧
    ∀ x ∈ preorder h h.length d, x ≠ d →
      ∃ n : Node, h[x]? = some n ∧ n.Parent ≠ none ∧
        (n.Typ = NodeType.ElementNode ∨ n.Typ = NodeType.TextNode ∨
          n.Typ = NodeType.CommentNode ∨ n.Typ = NodeType.DoctypeNode) := by
  obtain ⟨hd, _, seq, born, ht⟩ := ParseHtml_trace hp
  subst hd
  have hsx := Reachable_shape (Trace_reachable ht)
  have ho := Trace_origin ht
  obtain ⟨hroot, hother, hcontent⟩ := hsx.rooted
  refine ⟨hroot, hother, ?_⟩
  intro x hx hne
  have hl : preorder h h.length 0 = 0 :: born.map Prod.fst := ho.listing
  rw [hl] at hx
  rcases List.mem_cons.mp hx with e0 | hx1
  · exact absurd e0 hne
  · obtain ⟨y, hy, ey⟩ := List.mem_map.mp hx1
    obtain ⟨_, n, _, _, g, _, hpar, _⟩ := ho.token y hy
    rw [ey] at g
    exact ⟨n, g, hpar, hcontent x n g hpar⟩

/-- C16 on `<!doctype html>`, a comment, `<p>`, `x` and `</p>`. -/
theorem document_is_root_witness :
    ∃ h : Heap,
      ParseHtml [⟨⟨TokenType.DoctypeToken, 0, "html", []⟩, GoError.nil⟩,
        ⟨⟨TokenType.CommentToken, 0, "c", []⟩, GoError.nil⟩, startTag "p" [], textToken "x",
        endTag "p"] = .ok (some (h, 0), GoError.nil) ∧
      (∃ n : Node, h[0]? = some n ∧ n.Typ = NodeType.DocumentNode ∧ n.Parent = none ∧
        n.TagName = "") ∧
      (∀ (a : Ptr) (n : Node), h[a]? = some n → a ≠ 0 → n.Typ ≠ NodeType.DocumentNode) ∧
      ∀ x ∈ preorder h h.length 0, x ≠ 0 →
        ∃ n : Node, h[x]? = some n ∧ n.Parent ≠ none ∧
          (n.Typ = NodeType.ElementNode ∨ n.Typ = NodeType.TextNode ∨
            n.Typ = NodeType.CommentNode ∨ n.Typ = NodeType.DoctypeNode) :=
  ⟨_, rfl,
    document_is_root [⟨⟨TokenType.DoctypeToken, 0, "html", []⟩, GoError.nil⟩,
      ⟨⟨TokenType.CommentToken, 0, "c", []⟩, GoError.nil⟩, startTag "p" [], textToken "x",
      endTag "p"] _ 0 GoError.nil rfl⟩

/-- C17. For a node `n` at `a`: when `n.TagName` is one of the 16 names
`br`, `hr`, `img`, `input`, `param`, `meta`, `link`, `area`, `base`, `col`,
`command`, `embed`, `keygen`, `source`, `track`, `wbr` (compared as strings,
so with their case), `SelfClosing` returns `SelfClosingTagToken` and the node
is `n` with `Close` set; for every other name it returns `StartTagToken` and
the store is as it was.  So the returned token type is `SelfClosingTagToken`
exactly for these names, and no field but `Close` is written. -/
theorem self_closing_names (h : Heap) (a : Ptr) (n : Node) (hn : h[a]? = some n) :
    (n.TagName ∈ ["br", "hr", "img", "input", "param", "meta", "link", "area", "base",
        "col", "command", "embed", "keygen", "source", "track", "wbr"] →
      SelfClosing h a = .ok (h.set a { n with Close := true }, TokenType.SelfClosingTagToken)) ∧
    (n.TagName ∉ ["br", "hr", "img", "input", "param", "meta", "link", "area", "base",
        "col", "command", "embed", "keygen", "source", "track", "wbr"] →
      SelfClosing h a = .ok (h, TokenType.StartTagToken)) ∧
    ∃ (h1 : Heap) (tt : TokenType), SelfClosing h a = .ok (h1, tt) ∧
      (tt = TokenType.SelfClosingTagToken ∨ tt = TokenType.StartTagToken) ∧
      (tt = TokenType.SelfClosingTagToken ↔ n.TagName ∈ ["br", "hr", "img", "input", "param", "meta", "link", "area", "base",
        "col", "command", "embed", "keygen", "source", "track", "wbr"]) ∧
      (tt = TokenType.SelfClosingTagToken → h1[a]? = some { n with Close := true }) ∧
      (tt = TokenType.StartTagToken → h1 = h) ∧
      ∀ b : Ptr, b ≠ a → h1[b]? = h[b]? := by
  have hvoid : ["br", "hr", "img", "input", "param", "meta", "link", "area", "base",
        "col", "command", "embed", "keygen", "source", "track", "wbr"] = voidNames := rfl
  rw [hvoid]
  have hlt := lt_of_get hn
  have h1 : n.TagName ∈ voidNames →
      SelfClosing h a = .ok (h.set a { n with Close := true }, TokenType.SelfClosingTagToken) := by
    intro hm
    unfold SelfClosing
    rw [load_of_get hn]
    simp only [hm, if_true]
    rw [update_of_get _ hn]
  have h2 : n.TagName ∉ voidNames → SelfClosing h a = .ok (h, TokenType.StartTagToken) := by
    intro hm
    unfold SelfClosing
    rw [load_of_get hn]
    simp only [hm, if_false]
  refine ⟨h1, h2, ?_⟩
  by_cases hm : n.TagName ∈ voidNames
  · refine ⟨_, _, h1 hm, Or.inl rfl, ⟨fun _ => hm, fun _ => rfl⟩, ?_, ?_, ?_⟩
    · intro _
      rw [List.getElem?_set_self hlt]
    · intro e
      cases e
    · intro b hb
      rw [List.getElem?_set_ne (Ne.symm hb)]
  · refine ⟨_, _, h2 hm, Or.inr rfl, ⟨fun e => TokenType.noConfusion e, fun hm1 => absurd hm1 hm⟩, ?_,
      fun _ => rfl, fun _ _ => rfl⟩
    intro e
    cases e

/-- C17 on a store of three elements named `br`, `BR` and `div`: the first is
closed and reported as self-closing, the other two are left as they are. -/
theorem self_closing_names_witness :
    (SelfClosing [{ TagName := "br" }, { TagName := "BR" }, { TagName := "div" }] 0 =
      .ok ([{ TagName := "br", Close := true }, { TagName := "BR" }, { TagName := "div" }],
        TokenType.SelfClosingTagToken)) ∧
    (SelfClosing [{ TagName := "br" }, { TagName := "BR" }, { TagName := "div" }] 1 =
      .ok ([{ TagName := "br" }, { TagName := "BR" }, { TagName := "div" }],
        TokenType.StartTagToken)) ∧
    (SelfClosing [{ TagName := "br" }, { TagName := "BR" }, { TagName := "div" }] 2 =
      .ok ([{ TagName := "br" }, { TagName := "BR" }, { TagName := "div" }],
        TokenType.StartTagToken)) :=
  ⟨(self_closing_names [{ TagName := "br" }, { TagName := "BR" }, { TagName := "div" }] 0
      { TagName := "br" } rfl).1 (by decide),
    rfl, rfl⟩

/-- C18. In every state the builder reaches, the walk along the path from the
Document ends at a node of the store without indexing out of range, and every
index of the path is the index of the last child of the node the walk has
reached: the path runs down the right edge of the tree. -/
theorem path_is_right_spine {s : State} (hr : Reachable s) :
    (∃ (node : Ptr) (nd : Node), walk s.heap 0 s.sequence = .ok node ∧
      s.heap[node]? = some nd) ∧
    Spine s.heap 0 s.sequence ∧
    (pathNodes s.heap 0 s.sequence).length = s.sequence.length := by
  obtain ⟨node, hw, hlt⟩ := (Reachable_inv hr).path
  have hsx := Reachable_shape hr
  exact ⟨⟨node, s.heap[node], hw, List.getElem?_eq_getElem hlt⟩, hsx.spine,
    pathNodes_length _ _ hsx.spine⟩

/-- C18 after `a`, `<div>`, `b` and `<p>`: the path is `[1, 1]`, through the
`div` (second child of the Document) to the `p` (second child of the `div`). -/
theorem path_is_right_spine_witness :
    (after (after (after (after initState (textToken "a")) (startTag "div" []))
      (textToken "b")) (startTag "p" [])).sequence = [1, 1] ∧
    (∃ (node : Ptr) (nd : Node),
      walk (after (after (after (after initState (textToken "a")) (startTag "div" []))
        (textToken "b")) (startTag "p" [])).heap 0
        (after (after (after (after initState (textToken "a")) (startTag "div" []))
        (textToken "b")) (startTag "p" [])).sequence = .ok node ∧
      (after (after (after (after initState (textToken "a")) (startTag "div" []))
        (textToken "b")) (startTag "p" [])).heap[node]? = some nd) ∧
    Spine (after (after (after (after initState (textToken "a")) (startTag "div" []))
        (textToken "b")) (startTag "p" [])).heap 0
      (after (after (after (after initState (textToken "a")) (startTag "div" []))
        (textToken "b")) (startTag "p" [])).sequence ∧
    (pathNodes (after (after (after (after initState (textToken "a")) (startTag "div" []))
        (textToken "b")) (startTag "p" [])).heap 0
      (after (after (after (after initState (textToken "a")) (startTag "div" []))
        (textToken "b")) (startTag "p" [])).sequence).length =
      (after (after (after (after initState (textToken "a")) (startTag "div" []))
        (textToken "b")) (startTag "p" [])).sequence.length :=
  ⟨rfl,
    @path_is_right_spine
      (after (after (after (after initState (textToken "a")) (startTag "div" []))
        (textToken "b")) (startTag "p" []))
      (Reachable.step (Reachable.step (Reachable.step (Reachable.step Reachable.init
        (rfl : iteration 0 initState GoError.nil (textToken "a") =
          .ok (Flow.next (after initState (textToken "a")) GoError.nil)))
        (rfl : iteration 0 (after initState (textToken "a")) GoError.nil (startTag "div" []) =
          .ok (Flow.next (after (after initState (textToken "a")) (startTag "div" []))
            GoError.nil)))
        (rfl : iteration 0 (after (after initState (textToken "a")) (startTag "div" []))
            GoError.nil (textToken "b") =
          .ok (Flow.next (after (after (after initState (textToken "a")) (startTag "div" []))
            (textToken "b")) GoError.nil)))
        (rfl : iteration 0 (after (after (after initState (textToken "a")) (startTag "div" []))
            (textToken "b")) GoError.nil (startTag "p" []) =
          .ok (Flow.next (after (after (after (after initState (textToken "a"))
            (startTag "div" [])) (textToken "b")) (startTag "p" [])) GoError.nil)))⟩

/-- C19. In every state the builder reaches, with the tokens pulled so far
and the birth list of the rounds: the Elements with `Close` false are the
nodes on the path, every node on the path was created by a StartTag token
whose name is not one of the void names (and carries that name), and the
length of the path is the number of Elements with `Close` false. -/
theorem open_elements_on_path {s : State} {toks : List Pull} {born : List (Ptr × Nat)}
    (ht : Trace s toks born) :
    (∀ (a : Ptr) (n : Node), s.heap[a]? = some n →
      ((n.Typ = NodeType.ElementNode ∧ n.Close = false) ↔
        a ∈ pathNodes s.heap 0 s.sequence)) ∧
    (∀ a ∈ pathNodes s.heap 0 s.sequence, ∃ (t : Nat) (p : Pull), (a, t) ∈ born ∧
      toks[t]? = some p ∧ p.token.Typ = TokenType.StartTagToken ∧
      p.token.Data ∉ voidNames ∧ tagOf s.heap a = p.token.Data) ∧
    (pathNodes s.heap 0 s.sequence).length = s.sequence.length ∧
    s.sequence.length = openCount s.heap := by
  have hsx := Reachable_shape (Trace_reachable ht)
  refine ⟨?_, fun a ha => Trace_open_origin ht ha, pathNodes_length _ _ hsx.spine,
    hsx.count.symm⟩
  intro a n g
  rw [← isOpen_iff]
  exact hsx.opened a n g

/-- C19 after `<div>`, `<br>` and `<p>`: the path is `[0, 1]`, and the open
elements are the `div` and the `p`, at the addresses 1 and 3. -/
theorem open_elements_on_path_witness :
    pathNodes (after (after (after initState (startTag "div" [])) (startTag "br" []))
        (startTag "p" [])).heap 0
      (after (after (after initState (startTag "div" [])) (startTag "br" []))
        (startTag "p" [])).sequence = [1, 3] ∧
    (∀ (a : Ptr) (n : Node),
      (after (after (after initState (startTag "div" [])) (startTag "br" []))
        (startTag "p" [])).heap[a]? = some n →
      ((n.Typ = NodeType.ElementNode ∧ n.Close = false) ↔
        a ∈ pathNodes (after (after (after initState (startTag "div" [])) (startTag "br" []))
        (startTag "p" [])).heap 0
          (after (after (after initState (startTag "div" [])) (startTag "br" []))
        (startTag "p" [])).sequence)) ∧
    (∀ a ∈ pathNodes (after (after (after initState (startTag "div" [])) (startTag "br" []))
        (startTag "p" [])).heap 0
        (after (after (after initState (startTag "div" [])) (startTag "br" []))
        (startTag "p" [])).sequence,
      ∃ (t : Nat) (p : Pull), (a, t) ∈ [((1 : Ptr), 0), (2, 1), (3, 2)] ∧
      [startTag "div" [], startTag "br" [], startTag "p" []][t]? = some p ∧
      p.token.Typ = TokenType.StartTagToken ∧
      p.token.Data ∉ voidNames ∧ tagOf (after (after (after initState (startTag "div" [])) (startTag "br" []))
        (startTag "p" [])).heap a = p.token.Data) ∧
    (pathNodes (after (after (after initState (startTag "div" [])) (startTag "br" []))
        (startTag "p" [])).heap 0
      (after (after (after initState (startTag "div" [])) (startTag "br" []))
        (startTag "p" [])).sequence).length =
      (after (after (after initState (startTag "div" [])) (startTag "br" []))
        (startTag "p" [])).sequence.length ∧
    (after (after (after initState (startTag "div" [])) (startTag "br" []))
        (startTag "p" [])).sequence.length =
      openCount (after (after (after initState (startTag "div" [])) (startTag "br" []))
        (startTag "p" [])).heap :=
  ⟨rfl,
    @open_elements_on_path (after (after (after initState (startTag "div" [])) (startTag "br" []))
        (startTag "p" []))
      [startTag "div" [], startTag "br" [], startTag "p" []] [(1, 0), (2, 1), (3, 2)]
      (@Trace.step (after (after initState (startTag "div" [])) (startTag "br" []))
        (after (after (after initState (startTag "div" [])) (startTag "br" []))
        (startTag "p" []))
        GoError.nil GoError.nil (startTag "p" []) [startTag "div" [], startTag "br" []]
        [(1, 0), (2, 1)]
        (@Trace.step (after initState (startTag "div" [])) (after (after initState (startTag "div" [])) (startTag "br" []))
          GoError.nil GoError.nil (startTag "br" []) [startTag "div" []] [(1, 0)]
          (@Trace.step initState (after initState (startTag "div" [])) GoError.nil GoError.nil (startTag "div" []) [] []
            Trace.init rfl)
          rfl)
        rfl)⟩

/-- C20. After a build that succeeded, the pre-order listing of the tree
below the returned node (with as much fuel as the store has cells; more fuel
lists the same) starts with the Document and has no node twice, and its nodes
after the Document carry, one for one and in order, what the node-producing
tokens among the tokens pulled carried: their node type, tag name, text
(for a Text token the payload after the trimming of line 77) and attributes.
So there are as many nodes below the Document as there are such tokens;
EndTag and Error tokens are not among them. -/
theorem document_order (r : List Pull) (h : Heap) (d : Ptr) (e : GoError)
    (hp : ParseHtml r = .ok (some (h, d), e)) :
    (preorder h h.length d).head? = some d ∧
    (preorder h h.length d).Nodup ∧
    (∀ f : Nat, h.length ≤ f → preorder h f d = preorder h h.length d) ∧
    (preorder h h.length d).tail.map (fun a => (h[a]?).map view) =
      ((pulled r).filter (fun p => decide (attaches p))).map
        (fun p => some (view (literal p))) ∧
    (preorder h h.length d).tail.length =
      ((pulled r).filter (fun p => decide (attaches p))).length := by
  obtain ⟨hd, _, seq, born, ht⟩ := ParseHtml_trace hp
  subst hd
  have hr := Trace_reachable ht
  have hsx := Reachable_shape hr
  have hi := Reachable_inv hr
  have ho := Trace_origin ht
  have hv := Trace_views ht
  have hl : preorder h h.length 0 = 0 :: born.map Prod.fst := ho.listing
  have hmap : (preorder h h.length 0).tail.map (fun a => (h[a]?).map view) =
      ((pulled r).filter (fun p => decide (attaches p))).map
        (fun p => some (view (literal p))) := by
    rw [hl, List.tail_cons, List.map_map, ← hv]
    rfl
  refine ⟨by rw [hl]; rfl, ?_, ?_, hmap, ?_⟩
  · rw [hl, List.nodup_cons]
    constructor
    · intro hm
      obtain ⟨x, hx, ex⟩ := List.mem_map.mp hm
      have := (ho.range x hx).1
      rw [ex] at this
      exact absurd this (Nat.lt_irrefl _)
    · have hs : (born.map Prod.fst).Pairwise (fun x y => x < y) := by
        rw [List.pairwise_map]
        exact ho.sorted.imp (fun hxy => hxy.1)
      exact hs.imp (fun hab => Nat.ne_of_lt hab)
  · intro f hf
    obtain ⟨k, hk⟩ := Nat.exists_eq_add_of_le hf
    rw [hk]
    have h0 : (0 : Ptr) < h.length := by
      obtain ⟨x, _, hx⟩ := hi.path
      exact Nat.lt_of_le_of_lt (Nat.zero_le _) hx
    exact preorder_stable_add hi.closed hsx.inc 0 h0 h.length (by simp) k
  · have := congrArg List.length hmap
    simpa only [List.length_map] using this

/-- C20 on `<ul>`, blank text, `<li>`, ` one`, `</li>`, `<br>`, a comment and
`</ul>`: five nodes, for the five node-producing tokens, in their order. -/
theorem document_order_witness :
    ∃ h : Heap,
      ParseHtml [startTag "ul" [], textToken " \n", startTag "li" [], textToken " one",
        endTag "li", startTag "br" [], ⟨⟨TokenType.CommentToken, 0, "c", []⟩, GoError.nil⟩,
        endTag "ul"] = .ok (some (h, 0), GoError.nil) ∧
      (preorder h h.length 0).tail.map (fun a => (h[a]?).map view) =
        [some (NodeType.ElementNode, "ul", "", []), some (NodeType.ElementNode, "li", "", []),
          some (NodeType.TextNode, "text", "one", []),
          some (NodeType.ElementNode, "br", "", []),
          some (NodeType.CommentNode, "comment", "c", [])] ∧
      (preorder h h.length 0).head? = some 0 ∧
      (preorder h h.length 0).Nodup ∧
      (∀ f : Nat, h.length ≤ f → preorder h f 0 = preorder h h.length 0) ∧
      (preorder h h.length 0).tail.map (fun a => (h[a]?).map view) =
        ((pulled [startTag "ul" [], textToken " \n", startTag "li" [], textToken " one",
          endTag "li", startTag "br" [], ⟨⟨TokenType.CommentToken, 0, "c", []⟩, GoError.nil⟩,
          endTag "ul"]).filter (fun p => decide (attaches p))).map
          (fun p => some (view (literal p))) ∧
      (preorder h h.length 0).tail.length =
        ((pulled [startTag "ul" [], textToken " \n", startTag "li" [], textToken " one",
          endTag "li", startTag "br" [], ⟨⟨TokenType.CommentToken, 0, "c", []⟩, GoError.nil⟩,
          endTag "ul"]).filter (fun p => decide (attaches p))).length :=
  ⟨_, rfl, by decide,
    document_order [startTag "ul" [], textToken " \n", startTag "li" [], textToken " one",
      endTag "li", startTag "br" [], ⟨⟨TokenType.CommentToken, 0, "c", []⟩, GoError.nil⟩,
      endTag "ul"] _ 0 GoError.nil rfl⟩

end Html
